import Mathlib

/-!
Verification of the lexical core of the `solar` Solidity compiler front-end.

Shallow embedding of:
- the character-classification predicates and the byte-level `Cursor`
  (`crates/parse/src/lexer/cursor/mod.rs`),
- the bulk scanning helpers (`crates/parse/src/lexer/simd_lexer.rs`),
- the string-literal unescape engine (`crates/parse/src/lexer/unescape/mod.rs`),
- the span algebra (`crates/interface/src/span.rs`).

Bytes are modelled as `Nat` (values below 256 in every reachable state);
`u32` arithmetic is modelled with explicit `% 2^32` where the source casts.
Rust `while` loops are modelled as structural recursion on an explicit fuel
argument whose start value always dominates the loop's variant, so every
definition is executable and the fuel never runs out on the stated inputs.
-/

namespace Solar

/-! ## Character classification (`cursor/mod.rs`) -/

/-- `is_whitespace_byte`: `matches!(c, b' ' | b'\t' | b'\n' | b'\r')`. -/
def is_whitespace_byte (c : Nat) : Bool :=
  c == 32 || c == 9 || c == 10 || c == 13

/-- `is_id_start_byte`: `matches!(c, b'a'..=b'z' | b'A'..=b'Z' | b'_' | b'$')`. -/
def is_id_start_byte (c : Nat) : Bool :=
  (97 ≤ c && c ≤ 122) || (65 ≤ c && c ≤ 90) || c == 95 || c == 36

/-- `is_id_continue_byte`: `is_id_start_byte(c) || (c >= b'0' && c <= b'9')`. -/
def is_id_continue_byte (c : Nat) : Bool :=
  let is_number := (48 ≤ c) && (c ≤ 57)
  is_id_start_byte c || is_number

/-- `ch2u8`: `c as u32 as u8`, i.e. truncation of the code point to its low
8 bits. A `char` is modelled by its code point as a `Nat`. -/
def ch2u8 (c : Nat) : Nat := c % 256

/-- `is_whitespace(c: char)`: `is_whitespace_byte(ch2u8(c))`. -/
def is_whitespace (c : Nat) : Bool := is_whitespace_byte (ch2u8 c)

/-- `is_id_start(c: char)`: `is_id_start_byte(ch2u8(c))`. -/
def is_id_start (c : Nat) : Bool := is_id_start_byte (ch2u8 c)

/-- `is_id_continue(c: char)`: `is_id_continue_byte(ch2u8(c))`. -/
def is_id_continue (c : Nat) : Bool := is_id_continue_byte (ch2u8 c)

/-- `u8::is_ascii_digit`. -/
def isAsciiDigit (c : Nat) : Bool := 48 ≤ c && c ≤ 57

/-- `u8::is_ascii_hexdigit`. -/
def isAsciiHexdigit (c : Nat) : Bool :=
  isAsciiDigit c || (65 ≤ c && c ≤ 70) || (97 ≤ c && c ≤ 102)

/-! ## Raw tokens

Modelled from the spec: the `token` submodule of the lexer
(`crates/parse/src/lexer/cursor/token.rs`) is not among the provided sources;
spec §3 "Raw token" defines the closed kind set, `RawLiteralKind`, `Base`,
and that `Eof` carries length 0. -/

/-- Modelled from the spec: `Base ∈ {Binary, Octal, Decimal, Hexadecimal}`. -/
inductive Base where
  | Binary | Octal | Decimal | Hexadecimal
deriving DecidableEq, Repr

/-- Modelled from the spec: string literal kind `{Str, Unicode, Hex}`. -/
inductive StrKind where
  | Str | Unicode | Hex
deriving DecidableEq, Repr

/-- Modelled from the spec: `RawLiteralKind` is the sum
`Int{base, empty_int}`, `Rational{base, empty_exponent}`,
`Str{kind, terminated}`. -/
inductive RawLiteralKind where
  | Int (base : Base) (empty_int : Bool)
  | Rational (base : Base) (empty_exponent : Bool)
  | Str (kind : StrKind) (terminated : Bool)
deriving DecidableEq, Repr

/-- Modelled from the spec: the closed set of raw token kinds. -/
inductive RawTokenKind where
  | Eof
  | Whitespace
  | LineComment (is_doc : Bool)
  | BlockComment (is_doc : Bool) (terminated : Bool)
  | Ident
  | Literal (kind : RawLiteralKind)
  | Semi | Comma | Dot | OpenParen | CloseParen | OpenBrace | CloseBrace
  | OpenBracket | CloseBracket | Tilde | Question | Colon | Eq | Bang
  | Lt | Gt | Minus | And | Or | Plus | Star | Caret | Percent | Slash
  | Unknown
deriving DecidableEq, Repr

/-- Modelled from the spec: a raw token is `(kind, length: u32)`;
lengths are byte lengths. -/
structure RawToken where
  kind : RawTokenKind
  len : Nat
deriving DecidableEq, Repr

/-- Modelled from the spec: `RawToken::EOF` is `Eof` with length 0. -/
def RawToken.EOF : RawToken := ⟨RawTokenKind.Eof, 0⟩

end Solar

namespace Solar

/-! ## Span algebra (`crates/interface/src/span.rs`)

`BytePos` is a `u32`; positions are modelled as `Nat` with `% 2^32`
where the source performs `u32` arithmetic that may wrap. -/

/-- `2^32`, the modulus of `u32` arithmetic. -/
def u32Mod : Nat := 4294967296

/-- `Span { lo, hi }` with `BytePos` fields. -/
structure Span where
  lo : Nat
  hi : Nat
deriving DecidableEq, Repr

namespace Span

/-- `Span::DUMMY = (0, 0)`; also `Default for Span`. -/
def DUMMY : Span := ⟨0, 0⟩

/-- `Span::new`: swaps the endpoints if `lo > hi`. -/
def new (lo hi : Nat) : Span :=
  if lo > hi then ⟨hi, lo⟩ else ⟨lo, hi⟩

/-- `Span::with_lo`: `Span::new(lo, self.hi())`. -/
def with_lo (s : Span) (lo : Nat) : Span := new lo s.hi

/-- `Span::with_hi`: `Span::new(self.lo(), hi)`. -/
def with_hi (s : Span) (hi : Nat) : Span := new s.lo hi

/-- `Span::shrink_to_lo`: `Span::new(self.lo(), self.lo())`. -/
def shrink_to_lo (s : Span) : Span := new s.lo s.lo

/-- `Span::shrink_to_hi`: `Span::new(self.hi(), self.hi())`. -/
def shrink_to_hi (s : Span) : Span := new s.hi s.hi

/-- `Span::contains`: `self.lo() <= other.lo() && other.hi() <= self.hi()`. -/
def contains (s other : Span) : Bool := s.lo ≤ other.lo && other.hi ≤ s.hi

/-- `Span::overlaps`: `self.lo() < other.hi() && other.lo() < self.hi()`. -/
def overlaps (s other : Span) : Bool := s.lo < other.hi && other.lo < s.hi

/-- `Span::split_at`: `let len = hi - lo; let split_pos = lo + pos;`
then `(new(lo, split_pos), new(split_pos, hi))`. The `u32` addition
`lo + pos` wraps, hence the `% 2^32`; the `u32` subtraction computing
`len` feeds only a `debug_assert!` and is not modelled. -/
def split_at (s : Span) (pos : Nat) : Span × Span :=
  let split_pos := (s.lo + pos) % u32Mod
  (new s.lo split_pos, new split_pos s.hi)

/-- `Span::to`: `Span::new(min(self.lo(), end.lo()), max(self.hi(), end.hi()))`. -/
def toSpan (s e : Span) : Span := new (min s.lo e.lo) (max s.hi e.hi)

/-- `Span::between`: `Span::new(self.hi(), end.lo())`. -/
def between (s e : Span) : Span := new s.hi e.lo

/-- `Span::until`: `Span::new(self.lo(), end.lo())`. -/
def untilSpan (s e : Span) : Span := new s.lo e.lo

/-- `Span::join_many`: `spans.into_iter().reduce(Self::to).unwrap_or_default()`. -/
def join_many (spans : List Span) : Span :=
  match spans with
  | [] => DUMMY
  | s :: rest => rest.foldl toSpan s

/-- `Span::join_first_last`: first element `to` last of the remainder;
the first element alone if there is no remainder; `DUMMY` if empty. -/
def join_first_last (spans : List Span) : Span :=
  match spans with
  | [] => DUMMY
  | [s] => s
  | s :: r :: rest => s.toSpan ((r :: rest).getLast (by simp))

/-- The `Span` representation invariant: `lo ≤ hi`. -/
def WF (s : Span) : Prop := s.lo ≤ s.hi

end Span

end Solar

namespace Solar

/-! ## Cursor (`crates/parse/src/lexer/cursor/mod.rs`)

State: the full byte slice plus a cursor offset. Loops are modelled with a
fuel argument; fuel `bytes.length + 1` dominates every loop, and a fuel-0
exit coincides with the loop's guard-false exit. -/

/-- Byte access `bytes.get(i).copied().unwrap_or(EOF)`, with `EOF = b'\0' = 0`. -/
def byteAt (l : List Nat) (i : Nat) : Nat := l.getD i 0

/-- Index of the first byte satisfying `q` (`memchr`-style search). -/
def findByteIdx (q : Nat → Bool) : List Nat → Option Nat
  | [] => none
  | b :: rest => if q b then some 0 else (findByteIdx q rest).map (· + 1)

/-- The cursor: `bytes: &[u8]`, `pos: usize`. -/
structure Cursor where
  bytes : List Nat
  pos : Nat
deriving DecidableEq, Repr

namespace Cursor

/-- `Cursor::new`: starts at offset 0 over the input bytes. -/
def new (input : List Nat) : Cursor := ⟨input, 0⟩

/-- `Cursor::first`: peek the next byte, `EOF` (0) when out of input. -/
def first (c : Cursor) : Nat := byteAt c.bytes c.pos

/-- `Cursor::second`: peek the byte after next, `EOF` (0) when out of input. -/
def second (c : Cursor) : Nat := byteAt c.bytes (c.pos + 1)

/-- `Cursor::bump`: advance one byte. -/
def bump (c : Cursor) : Cursor := { c with pos := c.pos + 1 }

/-- `Cursor::bump_utf8_with`: skip the continuation bytes of the UTF-8
sequence whose leading byte `x` was just consumed. -/
def bumpUtf8With (c : Cursor) (x : Nat) : Cursor :=
  let skip := if x < 128 then 0 else if x < 224 then 1 else if x < 240 then 2 else 3
  { c with pos := c.pos + skip }

/-- `Cursor::bump_ret`: consume and return the next byte if any. -/
def bumpRet (c : Cursor) : Option Nat × Cursor :=
  if c.pos < c.bytes.length then (some (byteAt c.bytes c.pos), c.bump) else (none, c)

/-- Loop body of `Cursor::eat_while` on raw offsets. -/
def eatWhileAux (p : Nat → Bool) (bytes : List Nat) : Nat → Nat → Nat
  | 0, pos => pos
  | fuel + 1, pos =>
    if pos < bytes.length && p (byteAt bytes pos) then eatWhileAux p bytes fuel (pos + 1)
    else pos

/-- `Cursor::eat_while`: eat bytes while the predicate holds. -/
def eatWhile (p : Nat → Bool) (c : Cursor) : Cursor :=
  { c with pos := eatWhileAux p c.bytes (c.bytes.length + 1) c.pos }

/-- Loop body of `Cursor::eat_string` on raw offsets. -/
def eatStringAux (bytes : List Nat) (quote : Nat) : Nat → Nat → Bool × Nat
  | 0, pos => (false, pos)
  | fuel + 1, pos =>
    if pos < bytes.length then
      let ch := byteAt bytes pos
      let pos := pos + 1
      if ch == quote then (true, pos)
      else if ch == 92 && pos < bytes.length then
        let next := byteAt bytes pos
        if next == 92 || next == quote then eatStringAux bytes quote fuel (pos + 1)
        else eatStringAux bytes quote fuel pos
      else eatStringAux bytes quote fuel pos
    else (false, pos)

/-- `Cursor::eat_string`: eat bytes until the quote, skipping `\\` and
`\<quote>` pairs; returns whether the string was terminated. -/
def eatString (quote : Nat) (c : Cursor) : Bool × Cursor :=
  let r := eatStringAux c.bytes quote (c.bytes.length + 1) c.pos
  (r.1, { c with pos := r.2 })

/-- Loop body of `Cursor::eat_digits` on raw offsets: `_` is always eaten,
a digit sets `has_digits`, anything else stops. -/
def eatDigitsAux (isDigit : Nat → Bool) (bytes : List Nat) : Nat → Nat → Bool → Bool × Nat
  | 0, pos, has => (has, pos)
  | fuel + 1, pos, has =>
    if pos < bytes.length then
      let ch := byteAt bytes pos
      if ch == 95 then eatDigitsAux isDigit bytes fuel (pos + 1) has
      else if isDigit ch then eatDigitsAux isDigit bytes fuel (pos + 1) true
      else (has, pos)
    else (has, pos)

/-- `Cursor::eat_digits`. -/
def eatDigits (isDigit : Nat → Bool) (c : Cursor) : Bool × Cursor :=
  let r := eatDigitsAux isDigit c.bytes (c.bytes.length + 1) c.pos false
  (r.1, { c with pos := r.2 })

/-- `Cursor::eat_decimal_digits`. -/
def eatDecimalDigits (c : Cursor) : Bool × Cursor := eatDigits isAsciiDigit c

/-- `Cursor::eat_hexadecimal_digits`. -/
def eatHexadecimalDigits (c : Cursor) : Bool × Cursor := eatDigits isAsciiHexdigit c

/-- `Cursor::eat_exponent`: optional `-`, then decimal digits. -/
def eatExponent (c : Cursor) : Bool × Cursor :=
  let c := if c.first == 45 then c.bump else c
  eatDecimalDigits c

/-- `Cursor::line_comment`: the second `/` is consumed; doc iff the next
byte is `/` and the one after is not `/`; advance to the next `\n` or `\r`
(`memchr2`), or to the end of input. -/
def lineComment (c : Cursor) : RawTokenKind × Cursor :=
  let c := c.bump
  let is_doc := c.first == 47 && c.second != 47
  let remaining := c.bytes.drop c.pos
  let pos := match findByteIdx (fun b => b == 10 || b == 13) remaining with
    | some i => c.pos + i
    | none => c.bytes.length
  (RawTokenKind.LineComment is_doc, { c with pos })

/-- Position of the first `*/` in the list (`memmem::Finder::new(b"*/").find`). -/
def findStarSlash : List Nat → Option Nat
  | [] => none
  | [_] => none
  | x :: y :: rest =>
    if x == 42 && y == 47 then some 0 else (findStarSlash (y :: rest)).map (· + 1)

/-- `Cursor::block_comment`: the `*` is consumed; doc iff the next byte is
`*` and the one after is neither `*` nor `/`; search forward for `*/`,
recording whether it was found. -/
def blockComment (c : Cursor) : RawTokenKind × Cursor :=
  let c := c.bump
  let is_doc := c.first == 42 && !(c.second == 42 || c.second == 47)
  let remaining := c.bytes.drop c.pos
  let r := match findStarSlash remaining with
    | some i => (true, i + 2)
    | none => (false, remaining.length)
  (RawTokenKind.BlockComment is_doc r.1, { c with pos := c.pos + r.2 })

/-- `Cursor::whitespace`. -/
def whitespace (c : Cursor) : RawTokenKind × Cursor :=
  (RawTokenKind.Whitespace, eatWhile is_whitespace_byte c)

/-- `Cursor::ident_or_prefixed_literal`: eat the identifier; when it starts
with `h` or `u`, a `hex`/`unicode` identifier directly followed by a quote
becomes a string literal with that kind. -/
def identOrPrefixedLiteral (c : Cursor) (first_b : Nat) : RawTokenKind × Cursor :=
  let start_pos := c.pos - 1
  let c := eatWhile is_id_continue_byte c
  if first_b == 104 || first_b == 117 then
    let id := (c.bytes.drop start_pos).take (c.pos - start_pos)
    let is_hex := id == [104, 101, 120]
    if is_hex || id == [117, 110, 105, 99, 111, 100, 101] then
      let quote := c.first
      if quote == 39 || quote == 34 then
        let c := c.bump
        let r := eatString quote c
        let kind := if is_hex then StrKind.Hex else StrKind.Unicode
        (RawTokenKind.Literal (RawLiteralKind.Str kind r.1), r.2)
      else (RawTokenKind.Ident, c)
    else (RawTokenKind.Ident, c)
  else (RawTokenKind.Ident, c)

/-- `Cursor::rational_number_after_dot`: digits, then an optional exponent. -/
def rationalNumberAfterDot (c : Cursor) (base : Base) : RawLiteralKind × Cursor :=
  let r := eatDecimalDigits c
  let c := r.2
  if c.first == 101 || c.first == 69 then
    let c := c.bump
    let e := eatExponent c
    (RawLiteralKind.Rational base !e.1, e.2)
  else (RawLiteralKind.Rational base false, c)

/-- The shared tail of `Cursor::number` after the integer part: consume `.`
into a rational only if the byte after the `.` is not an identifier start or
is `_`; otherwise an exponent or a plain integer. -/
def numberSuffix (c : Cursor) (base : Base) : RawLiteralKind × Cursor :=
  if c.first == 46 && (!is_id_start_byte c.second || c.second == 95) then
    rationalNumberAfterDot c.bump base
  else if c.first == 101 || c.first == 69 then
    let c := c.bump
    let e := eatExponent c
    (RawLiteralKind.Rational base !e.1, e.2)
  else (RawLiteralKind.Int base false, c)

/-- `Cursor::number`: base prefixes after `0`, then the common suffix. -/
def number (c : Cursor) (first_digit : Nat) : RawLiteralKind × Cursor :=
  if first_digit == 48 then
    if c.first == 98 then
      let c := c.bump
      let r := eatDecimalDigits c
      if !r.1 then (RawLiteralKind.Int Base.Binary true, r.2)
      else numberSuffix r.2 Base.Binary
    else if c.first == 111 then
      let c := c.bump
      let r := eatDecimalDigits c
      if !r.1 then (RawLiteralKind.Int Base.Octal true, r.2)
      else numberSuffix r.2 Base.Octal
    else if c.first == 120 then
      let c := c.bump
      let r := eatHexadecimalDigits c
      if !r.1 then (RawLiteralKind.Int Base.Hexadecimal true, r.2)
      else numberSuffix r.2 Base.Hexadecimal
    else if isAsciiDigit c.first || c.first == 95 || c.first == 46 ||
        c.first == 101 || c.first == 69 then
      let r := eatDecimalDigits c
      numberSuffix r.2 Base.Decimal
    else (RawLiteralKind.Int Base.Decimal false, c)
  else
    let r := eatDecimalDigits c
    numberSuffix r.2 Base.Decimal

/-- `Cursor::advance_token_kind`: dispatch on the first (consumed) byte,
in the source's arm order. -/
def advanceTokenKind (c : Cursor) (first_char : Nat) : RawTokenKind × Cursor :=
  if first_char == 47 then
    if c.first == 47 then lineComment c
    else if c.first == 42 then blockComment c
    else (RawTokenKind.Slash, c)
  else if is_whitespace_byte first_char then whitespace c
  else if is_id_start_byte first_char then identOrPrefixedLiteral c first_char
  else if isAsciiDigit first_char then
    let r := number c first_char
    (RawTokenKind.Literal r.1, r.2)
  else if first_char == 46 && isAsciiDigit c.first then
    let r := rationalNumberAfterDot c Base.Decimal
    (RawTokenKind.Literal r.1, r.2)
  else if first_char == 59 then (RawTokenKind.Semi, c)
  else if first_char == 44 then (RawTokenKind.Comma, c)
  else if first_char == 46 then (RawTokenKind.Dot, c)
  else if first_char == 40 then (RawTokenKind.OpenParen, c)
  else if first_char == 41 then (RawTokenKind.CloseParen, c)
  else if first_char == 123 then (RawTokenKind.OpenBrace, c)
  else if first_char == 125 then (RawTokenKind.CloseBrace, c)
  else if first_char == 91 then (RawTokenKind.OpenBracket, c)
  else if first_char == 93 then (RawTokenKind.CloseBracket, c)
  else if first_char == 126 then (RawTokenKind.Tilde, c)
  else if first_char == 63 then (RawTokenKind.Question, c)
  else if first_char == 58 then (RawTokenKind.Colon, c)
  else if first_char == 61 then (RawTokenKind.Eq, c)
  else if first_char == 33 then (RawTokenKind.Bang, c)
  else if first_char == 60 then (RawTokenKind.Lt, c)
  else if first_char == 62 then (RawTokenKind.Gt, c)
  else if first_char == 45 then (RawTokenKind.Minus, c)
  else if first_char == 38 then (RawTokenKind.And, c)
  else if first_char == 124 then (RawTokenKind.Or, c)
  else if first_char == 43 then (RawTokenKind.Plus, c)
  else if first_char == 42 then (RawTokenKind.Star, c)
  else if first_char == 94 then (RawTokenKind.Caret, c)
  else if first_char == 37 then (RawTokenKind.Percent, c)
  else if first_char == 39 || first_char == 34 then
    let r := eatString first_char c
    (RawTokenKind.Literal (RawLiteralKind.Str StrKind.Str r.1), r.2)
  else
    let c := if !(first_char < 128) then c.bumpUtf8With first_char else c
    (RawTokenKind.Unknown, c)

/-- `Cursor::advance_token`: consume one byte, dispatch, and return the
token with its byte length `(pos - start_pos) as u32`. -/
def advanceToken (c : Cursor) : RawToken × Cursor :=
  let start_pos := c.pos
  match c.bumpRet with
  | (none, c) => (RawToken.EOF, c)
  | (some ch, c) =>
    let r := advanceTokenKind c ch
    (⟨r.1, (r.2.pos - start_pos) % u32Mod⟩, r.2)

end Cursor

/-- The `Iterator` protocol over a `Cursor`: tokens until the first `Eof`,
exclusive. Fuel `input.length + 1` dominates the iteration count because
every non-`Eof` token advances the position. -/
def lexAux (bytes : List Nat) : Nat → Nat → List RawToken
  | 0, _ => []
  | fuel + 1, pos =>
    let r := Cursor.advanceToken ⟨bytes, pos⟩
    if r.1.kind == RawTokenKind.Eof then [] else r.1 :: lexAux bytes fuel r.2.pos

/-- All raw tokens of an input, in order. -/
def lex (input : List Nat) : List RawToken := lexAux input (input.length + 1) 0

end Solar

namespace Solar

/-! ## Bulk scanning helpers (`crates/parse/src/lexer/simd_lexer.rs`)

The bulk scanners use the lookup-table predicates of `char_class_table.rs`. -/

/-- Modelled from the spec: `is_whitespace_fast` of `char_class_table.rs` is
not among the provided sources; spec §4.C defines the whitespace class as
`{space, tab, LF, CR}`, and the stub of the same name in `regress.rs`
matches byte-for-byte. -/
def is_whitespace_fast (b : Nat) : Bool :=
  b == 32 || b == 9 || b == 10 || b == 13

/-- Modelled from the spec: `is_id_continue_fast` of `char_class_table.rs` is
not among the provided sources; spec §4.C defines the identifier-continue
class as `[a-z] ∪ [A-Z] ∪ [0-9] ∪ {_, $}`, and the stub of the same name in
`regress.rs` matches byte-for-byte. -/
def is_id_continue_fast (b : Nat) : Bool :=
  (97 ≤ b && b ≤ 122) || (65 ≤ b && b ≤ 90) || (48 ≤ b && b ≤ 57) || b == 95 || b == 36

/-- The unrolled per-chunk byte checks of the bulk scanners: the index of
the first byte of the chunk failing `p`, if any. -/
def scanChunk (p : Nat → Bool) : List Nat → Option Nat
  | [] => none
  | b :: rest => if !(p b) then some 0 else (scanChunk p rest).map (· + 1)

/-- One `while pos + width <= len` chunk loop of the bulk scanners.
A chunk equal to one of the all-satisfying fast patterns advances `pos` by
`width`; otherwise the unrolled byte checks return `pos + i` at the first
failing byte (`Sum.inl`, an early `return`), else the loop advances.
`Sum.inr` is the loop's fall-through with the final `pos`. -/
def chunkScanLoop (p : Nat → Bool) (input : List Nat) (width : Nat)
    (pats : List (List Nat)) : Nat → Nat → Sum Nat Nat
  | 0, pos => Sum.inr pos
  | fuel + 1, pos =>
    if pos + width ≤ input.length then
      let chunk := (input.drop pos).take width
      if pats.contains chunk then chunkScanLoop p input width pats fuel (pos + width)
      else
        match scanChunk p chunk with
        | some i => Sum.inl (pos + i)
        | none => chunkScanLoop p input width pats fuel (pos + width)
    else Sum.inr pos

/-- The final `while pos < len && p(input[pos])` loop of the bulk scanners. -/
def tailScan (p : Nat → Bool) (input : List Nat) : Nat → Nat → Nat
  | 0, pos => pos
  | fuel + 1, pos =>
    if pos < input.length && p (byteAt input pos) then tailScan p input fuel (pos + 1)
    else pos

/-- `skip_whitespace_bulk`: 16-, 8-, then 4-byte unrolled chunk loops (with
all-space / all-tab fast patterns), then a final byte loop. -/
def skipWhitespaceBulk (input : List Nat) : Nat :=
  if input.length == 0 then 0
  else
    let len := input.length
    match chunkScanLoop is_whitespace_fast input 16
        [List.replicate 16 32, List.replicate 16 9] (len + 1) 0 with
    | Sum.inl r => r
    | Sum.inr pos =>
      match chunkScanLoop is_whitespace_fast input 8 [List.replicate 8 32] (len + 1) pos with
      | Sum.inl r => r
      | Sum.inr pos =>
        match chunkScanLoop is_whitespace_fast input 4 [List.replicate 4 32] (len + 1) pos with
        | Sum.inl r => r
        | Sum.inr pos => tailScan is_whitespace_fast input (len + 1) pos

/-- `parse_identifier_bulk`: 16-, 8-, then 4-byte unrolled chunk loops (no
fast patterns), then a final byte loop. -/
def parseIdentifierBulk (input : List Nat) : Nat :=
  if input.length == 0 then 0
  else
    let len := input.length
    match chunkScanLoop is_id_continue_fast input 16 [] (len + 1) 0 with
    | Sum.inl r => r
    | Sum.inr pos =>
      match chunkScanLoop is_id_continue_fast input 8 [] (len + 1) pos with
      | Sum.inl r => r
      | Sum.inr pos =>
        match chunkScanLoop is_id_continue_fast input 4 [] (len + 1) pos with
        | Sum.inl r => r
        | Sum.inr pos => tailScan is_id_continue_fast input (len + 1) pos

/-! ## UTF-8 validity

`Cursor::new` and the unescape entry points take `&str`, so their byte
slices are valid UTF-8. `validUtf8Aux k l` says that `l` consists of `k`
continuation bytes completing a pending sequence, followed by well-formed
sequences (1-byte `< 0x80`; 2-byte lead `0xC0..0xDF`; 3-byte lead
`0xE0..0xEF`; 4-byte lead `0xF0..0xF7`; continuations `0x80..0xBF`).
Every Rust `&str` satisfies `validUtf8` of its bytes. -/

/-- A UTF-8 continuation byte: `0x80..=0xBF`. -/
def isUtf8Cont (b : Nat) : Bool := 128 ≤ b && b < 192

/-- `l` is `k` continuation bytes followed by well-formed UTF-8 sequences. -/
def validUtf8Aux : Nat → List Nat → Bool
  | 0, [] => true
  | _ + 1, [] => false
  | 0, b :: rest =>
    if b < 128 then validUtf8Aux 0 rest
    else if b < 192 then false
    else if b < 224 then validUtf8Aux 1 rest
    else if b < 240 then validUtf8Aux 2 rest
    else if b < 248 then validUtf8Aux 3 rest
    else false
  | k + 1, b :: rest => isUtf8Cont b && validUtf8Aux k rest

/-- `l` is a sequence of well-formed UTF-8 encoded characters. -/
def validUtf8 (l : List Nat) : Bool := validUtf8Aux 0 l

end Solar

namespace Solar

/-! ## Unescape engine (`crates/parse/src/lexer/unescape/mod.rs`)

The engine walks a `&str` by bytes and by `char`s. A `char` is modelled as
its code point; `decodeChar` models `Chars::next` (code point plus its
`len_utf8`). Its truncated-input fallbacks are never exercised on the valid
UTF-8 byte lists that model `&str` contents. Callback invocations are
collected in order as `(start, stop, result)` triples. -/

/-- `Mode`: what kind of literal is parsed. -/
inductive Mode where
  | Str | UnicodeStr | HexStr
deriving DecidableEq, Repr

/-- `EscapeError` (from the lexer's `unescape::errors`), the escape-error
taxonomy of spec §7. -/
inductive EscapeError where
  | LoneSlash | InvalidEscape | BareCarriageReturn | StrNewline | StrNonAsciiChar
  | HexEscapeTooShort | InvalidHexEscape | UnicodeEscapeTooShort | InvalidUnicodeEscape
  | CannotSkipMultipleLines | HexPrefix | HexOddDigits | HexBadUnderscore | HexNotHexDigit
deriving DecidableEq, Repr

/-- `Result<u32, EscapeError>` on the callback. -/
inductive EscRes where
  | ok (c : Nat)
  | err (e : EscapeError)
deriving DecidableEq, Repr

/-- One callback invocation: the byte range `start..stop` in `src` and the
result. -/
abbrev UEvent := Nat × Nat × EscRes

/-- The `char` length determined by a UTF-8 leading byte (`len_utf8`). -/
def utf8Len (b : Nat) : Nat :=
  if b < 128 then 1 else if b < 224 then 2 else if b < 240 then 3 else 4

/-- Models `Chars::next` on the remaining bytes of a `&str`: the next code
point and the number of bytes it occupies. The truncated-tail fallbacks
(consuming fewer bytes than the leading byte announces) are unreachable on
valid UTF-8. -/
def decodeChar : List Nat → Option (Nat × Nat)
  | [] => none
  | b :: rest =>
    if b < 128 then some (b, 1)
    else if b < 224 then
      match rest with
      | b1 :: _ => some ((b % 32) * 64 + b1 % 64, 2)
      | [] => some (b % 32, 1)
    else if b < 240 then
      match rest with
      | b1 :: b2 :: _ => some ((b % 16) * 4096 + (b1 % 64) * 64 + b2 % 64, 3)
      | [b1] => some ((b % 16) * 64 + b1 % 64, 2)
      | [] => some (b % 16, 1)
    else
      match rest with
      | b1 :: b2 :: b3 :: _ =>
        some ((b % 8) * 262144 + (b1 % 64) * 4096 + (b2 % 64) * 64 + b3 % 64, 4)
      | [b1, b2] => some ((b % 8) * 4096 + (b1 % 64) * 64 + b2 % 64, 3)
      | [b1] => some ((b % 8) * 64 + b1 % 64, 2)
      | [] => some (b % 8, 1)

/-- `char::to_digit(16)`. -/
def toDigit16 (c : Nat) : Option Nat :=
  if 48 ≤ c && c ≤ 57 then some (c - 48)
  else if 97 ≤ c && c ≤ 102 then some (c - 97 + 10)
  else if 65 ≤ c && c ≤ 70 then some (c - 65 + 10)
  else none

/-- The `for _ in 0..count` digit loop of `scan_escape`: reads `count`
chars, accumulating `value * 16 + d`; exhaustion gives `tooShort`, a
non-digit gives `invalid`. Returns the result and the bytes consumed. -/
def scanHexDigits (tooShort invalid : EscapeError) :
    Nat → List Nat → Nat → Nat → EscRes × Nat
  | 0, _, value, consumed => (EscRes.ok value, consumed)
  | count + 1, l, value, consumed =>
    match decodeChar l with
    | none => (EscRes.err tooShort, consumed)
    | some (c, k) =>
      match toDigit16 c with
      | none => (EscRes.err invalid, consumed + k)
      | some d => scanHexDigits tooShort invalid count (l.drop k) (value * 16 + d) (consumed + k)

/-- `scan_escape`: the char after the `\` selects the escape; returns the
result and the bytes consumed after the `\`. -/
def scanEscape (l : List Nat) : EscRes × Nat :=
  match decodeChar l with
  | none => (EscRes.err EscapeError.LoneSlash, 0)
  | some (c, k) =>
    if c == 39 then (EscRes.ok 39, k)
    else if c == 34 then (EscRes.ok 34, k)
    else if c == 92 then (EscRes.ok 92, k)
    else if c == 110 then (EscRes.ok 10, k)
    else if c == 114 then (EscRes.ok 13, k)
    else if c == 116 then (EscRes.ok 9, k)
    else if c == 120 then
      let r := scanHexDigits EscapeError.HexEscapeTooShort EscapeError.InvalidHexEscape
        2 (l.drop k) 0 0
      (r.1, k + r.2)
    else if c == 117 then
      let r := scanHexDigits EscapeError.UnicodeEscapeTooShort EscapeError.InvalidUnicodeEscape
        4 (l.drop k) 0 0
      (r.1, k + r.2)
    else (EscRes.err EscapeError.InvalidEscape, k)

/-- `find_next_non_ascii_or_special`: first index at or after `i` holding
`\`, `\n`, `\r` or a non-ASCII byte, or the input length. -/
def findNextNonAsciiOrSpecial (bytes : List Nat) : Nat → Nat → Nat
  | 0, i => i
  | fuel + 1, i =>
    if i < bytes.length then
      let b := byteAt bytes i
      if b == 92 || b == 10 || b == 13 then i
      else if 128 ≤ b then i
      else findNextNonAsciiOrSpecial bytes fuel (i + 1)
    else i

/-- `decode_utf8_with_len`: combined UTF-8 length detection and decoding;
ill-formed or truncated sequences give `(1, 0xFFFD)` (and `(0, 0xFFFD)` on
empty input). -/
def decodeUtf8WithLen (bytes : List Nat) : Nat × Nat :=
  match bytes with
  | [] => (0, 65533)
  | b :: rest =>
    if b ≤ 127 then (1, b)
    else if 192 ≤ b && b ≤ 223 then
      match rest with
      | b1 :: _ =>
        if b1 / 64 == 2 then (2, (b % 32) * 64 + b1 % 64) else (1, 65533)
      | [] => (1, 65533)
    else if 224 ≤ b && b ≤ 239 then
      match rest with
      | b1 :: b2 :: _ =>
        if b1 / 64 == 2 && b2 / 64 == 2 then
          (3, (b % 16) * 4096 + (b1 % 64) * 64 + b2 % 64)
        else (1, 65533)
      | _ => (1, 65533)
    else if 240 ≤ b && b ≤ 247 then
      match rest with
      | b1 :: b2 :: b3 :: _ =>
        if b1 / 64 == 2 && b2 / 64 == 2 && b3 / 64 == 2 then
          (4, (b % 8) * 262144 + (b1 % 64) * 4096 + (b2 % 64) * 64 + b3 % 64)
        else (1, 65533)
      | _ => (1, 65533)
    else (1, 65533)

/-- `skip_ascii_whitespace_bytes_fast`: after a line continuation, skip
spaces and tabs; a `\n` or `\r\n` inside the skip reports
`CannotSkipMultipleLines`, a bare `\r` reports `BareCarriageReturn`; any
other byte ends the skip. Returns the emitted events and the new index. -/
def skipAsciiWsAux (bytes : List Nat) : Nat → Nat → List UEvent × Nat
  | 0, i => ([], i)
  | fuel + 1, i =>
    if i < bytes.length then
      let b := byteAt bytes i
      if b == 32 || b == 9 then
        skipAsciiWsAux bytes fuel
          (Cursor.eatWhileAux (fun x => x == 32 || x == 9) bytes (bytes.length + 1) i)
      else if b == 10 then
        let r := skipAsciiWsAux bytes fuel (i + 1)
        ((i, i + 1, EscRes.err EscapeError.CannotSkipMultipleLines) :: r.1, r.2)
      else if b == 13 then
        if i + 1 < bytes.length && byteAt bytes (i + 1) == 10 then
          let r := skipAsciiWsAux bytes fuel (i + 2)
          ((i, i + 2, EscRes.err EscapeError.CannotSkipMultipleLines) :: r.1, r.2)
        else
          let r := skipAsciiWsAux bytes fuel (i + 1)
          ((i, i + 1, EscRes.err EscapeError.BareCarriageReturn) :: r.1, r.2)
      else ([], i)
    else ([], i)

/-- The main loop of `unescape_str`, collecting the callback events. -/
def unescapeStrAux (bytes : List Nat) (is_unicode : Bool) : Nat → Nat → List UEvent
  | 0, _ => []
  | fuel + 1, i =>
    if i < bytes.length then
      let start := i
      let b := byteAt bytes i
      if b == 92 then
        if bytes.length ≤ i + 1 then
          [(start, start + 1, EscRes.err EscapeError.LoneSlash)]
        else
          let nb := byteAt bytes (i + 1)
          if nb == 13 && i + 2 < bytes.length && byteAt bytes (i + 2) == 10 then
            let r := skipAsciiWsAux bytes (bytes.length + 1) (i + 3)
            r.1 ++ unescapeStrAux bytes is_unicode fuel r.2
          else if nb == 10 then
            let r := skipAsciiWsAux bytes (bytes.length + 1) (i + 2)
            r.1 ++ unescapeStrAux bytes is_unicode fuel r.2
          else
            let se := scanEscape (bytes.drop (i + 1))
            let consumed := 1 + se.2
            (start, start + consumed, se.1) :: unescapeStrAux bytes is_unicode fuel (i + consumed)
      else if b == 10 then
        (start, start + 1, EscRes.err EscapeError.StrNewline) ::
          unescapeStrAux bytes is_unicode fuel (i + 1)
      else if b == 13 then
        if i + 1 < bytes.length && byteAt bytes (i + 1) == 10 then
          unescapeStrAux bytes is_unicode fuel (i + 1)
        else
          (start, start + 1, EscRes.err EscapeError.BareCarriageReturn) ::
            unescapeStrAux bytes is_unicode fuel (i + 1)
      else if b < 128 then
        let ascii_end := findNextNonAsciiOrSpecial bytes (bytes.length + 1) i
        if i + 1 < ascii_end then
          ((List.range' i (ascii_end - i)).map
            (fun j => (j, j + 1, EscRes.ok (byteAt bytes j)))) ++
            unescapeStrAux bytes is_unicode fuel ascii_end
        else
          (start, start + 1, EscRes.ok b) :: unescapeStrAux bytes is_unicode fuel (i + 1)
      else
        let d := decodeUtf8WithLen (bytes.drop i)
        let actual := min d.1 (bytes.length - i)
        if !is_unicode then
          (start, start + actual, EscRes.err EscapeError.StrNonAsciiChar) ::
            unescapeStrAux bytes is_unicode fuel (i + actual)
        else
          (start, start + actual, EscRes.ok d.2) ::
            unescapeStrAux bytes is_unicode fuel (i + actual)
    else []

/-- `unescape_str`: the slow path for `Str` / `UnicodeStr`. -/
def unescapeStr (src : List Nat) (is_unicode : Bool) : List UEvent :=
  unescapeStrAux src is_unicode (src.length + 1) 0

end Solar

namespace Solar

/-- The char loop of `unescape_hex_str`, over `char_indices` positions from
`i`, carrying `(emit_underscore_errors, allow_underscore, even)`; returns
the events and the final `emit_underscore_errors`. -/
def hexLoop (bytes : List Nat) : Nat → Nat → Bool → Bool → Bool → List UEvent × Bool
  | 0, _, emitU, _, _ => ([], emitU)
  | fuel + 1, i, emitU, allowU, even =>
    match decodeChar (bytes.drop i) with
    | none => ([], emitU)
    | some (c, k) =>
      if c == 95 then
        if emitU && (!allowU || !even) then
          let r := hexLoop bytes fuel (i + k) false allowU even
          ((i, i + k, EscRes.err EscapeError.HexBadUnderscore) :: r.1, r.2)
        else hexLoop bytes fuel (i + k) emitU false even
      else if !isAsciiHexdigit c then
        let r := hexLoop bytes fuel (i + k) emitU allowU even
        ((i, i + k, EscRes.err EscapeError.HexNotHexDigit) :: r.1, r.2)
      else
        let r := hexLoop bytes fuel (i + k) emitU true (!even)
        ((i, i + k, EscRes.ok c) :: r.1, r.2)

/-- `chars.clone().filter(|(_, c)| c.is_ascii_hexdigit()).count()` over the
chars of `l`. -/
def charHexCount : Nat → List Nat → Nat
  | 0, _ => 0
  | fuel + 1, l =>
    match decodeChar l with
    | none => 0
    | some (c, k) => (if isAsciiHexdigit c then 1 else 0) + charHexCount fuel (l.drop k)

/-- `unescape_hex_str`: optional `0x`/`0X` prefix (`HexPrefix`), odd digit
count short-circuits to `HexOddDigits` over the whole source, otherwise the
underscore/digit walk plus the trailing-underscore check. -/
def unescapeHexStr (src : List Nat) : List UEvent :=
  let hasPrefix := src.take 2 == [48, 120] || src.take 2 == [48, 88]
  let start := if hasPrefix then 2 else 0
  let prefixEvents : List UEvent :=
    if hasPrefix then [(0, 2, EscRes.err EscapeError.HexPrefix)] else []
  let count := charHexCount (src.length + 1) (src.drop start)
  if count % 2 != 0 then
    prefixEvents ++ [(0, src.length, EscRes.err EscapeError.HexOddDigits)]
  else
    let r := hexLoop src (src.length + 1) start true false true
    let trailing : List UEvent :=
      if r.2 && decide (1 < src.length) && src.getD (src.length - 1) 0 == 95 then
        [(src.length - 1, src.length, EscRes.err EscapeError.HexBadUnderscore)]
      else []
    prefixEvents ++ r.1 ++ trailing

/-- `needs_unescape`: the fast-path check; `memchr3(b'\\', b'\n', b'\r')`
plus the per-mode extras (`is_ascii` for `Str`; even length and
`hex::check_raw` for `HexStr`). -/
def needsUnescape (src : List Nat) (mode : Mode) : Bool :=
  match mode with
  | Mode.Str => src.any (fun b => b == 92 || b == 10 || b == 13) || !(src.all (· < 128))
  | Mode.UnicodeStr => src.any (fun b => b == 92 || b == 10 || b == 13)
  | Mode.HexStr => src.length % 2 != 0 || !(src.all isAsciiHexdigit)

/-- `unescape_literal_unchecked`: mode dispatch to the slow paths. -/
def unescapeLiteralUnchecked (src : List Nat) (mode : Mode) : List UEvent :=
  match mode with
  | Mode.Str => unescapeStr src false
  | Mode.UnicodeStr => unescapeStr src true
  | Mode.HexStr => unescapeHexStr src

/-- The `src.char_indices()` fast path of `unescape_literal`: one `Ok` per
code point over its own byte range. -/
def charIndicesEventsAux (bytes : List Nat) : Nat → Nat → List UEvent
  | 0, _ => []
  | fuel + 1, i =>
    match decodeChar (bytes.drop i) with
    | none => []
    | some (c, k) => (i, i + k, EscRes.ok c) :: charIndicesEventsAux bytes fuel (i + k)

/-- `unescape_literal`: the slow path when `needs_unescape`, otherwise one
`Ok` callback per input code point. -/
def unescapeLiteral (src : List Nat) (mode : Mode) : List UEvent :=
  if needsUnescape src mode then unescapeLiteralUnchecked src mode
  else charIndicesEventsAux src (src.length + 1) 0

/-- Modelled from the spec: `encode_utf8_raw` of the lexer's `utf8`
submodule is not among the provided sources; spec §4.E requires the UTF-8
encoding of each code point by raw bit pattern, never failing (no surrogate
validation). Standard UTF-8 bit packing by magnitude. -/
def encodeUtf8Raw (c : Nat) : List Nat :=
  if c < 128 then [c]
  else if c < 2048 then [192 + c / 64, 128 + c % 64]
  else if c < 65536 then [224 + c / 4096, 128 + (c / 64) % 64, 128 + c % 64]
  else [240 + c / 262144, 128 + (c / 4096) % 64, 128 + (c / 64) % 64, 128 + c % 64]

/-- `parse_literal_unescape_into`: write the UTF-8 encoding of every `Ok`
code point into the output buffer, in order; errors go to the callback. -/
def parseLiteralUnescape (src : List Nat) (mode : Mode) : List Nat :=
  (unescapeLiteralUnchecked src mode).foldr
    (fun ev acc =>
      match ev.2.2 with
      | EscRes.ok c => encodeUtf8Raw c ++ acc
      | EscRes.err _ => acc)
    []

/-- `hex::decode` (from `alloy_primitives`): pairs of hex digits to bytes;
fails on odd length or a non-hex byte. (The crate also strips an optional
`0x` prefix, which no reachable input here carries: the decoded buffers are
hex-digit-only.) -/
def hexDecode : List Nat → Option (List Nat)
  | [] => some []
  | [_] => none
  | a :: b :: rest =>
    match toDigit16 a, toDigit16 b, hexDecode rest with
    | some x, some y, some r => some ((x * 16 + y) :: r)
    | _, _, _ => none

/-- `try_parse_string_literal`: the decoded byte payload; borrows `src`
when no unescaping is needed, and hex-decodes the buffer for `HexStr`. -/
def tryParseStringLiteral (src : List Nat) (mode : Mode) : List Nat :=
  let bytes := if needsUnescape src mode then parseLiteralUnescape src mode else src
  if mode == Mode.HexStr then
    match hexDecode bytes with
    | some decoded => decoded
    | none => bytes
  else bytes

/-- The escape errors reported by `try_parse_string_literal`'s callback:
the `Err` events of the engine. -/
def tryParseErrors (src : List Nat) (mode : Mode) : List UEvent :=
  if needsUnescape src mode then
    (unescapeLiteralUnchecked src mode).filter
      (fun ev => match ev.2.2 with | EscRes.ok _ => false | EscRes.err _ => true)
  else []

end Solar

namespace Solar

/-! ## Theorems -/

/-- C10: the char-taking classification wrappers `is_whitespace`,
`is_id_start` and `is_id_continue` truncate their argument to its low 8
bits before classifying: for every char `c` they agree with the byte
predicate applied to `c % 256`, and in particular U+0120 (low byte 0x20,
a space) is classified as whitespace. -/
theorem C10_char_wrappers_truncate :
    (∀ c : Nat, is_whitespace c = is_whitespace_byte (c % 256)
      ∧ is_id_start c = is_id_start_byte (c % 256)
      ∧ is_id_continue c = is_id_continue_byte (c % 256))
    ∧ is_whitespace 288 = true := by
  exact ⟨fun c => ⟨rfl, rfl, rfl⟩, by decide⟩

/-- `Span::new` always yields `lo ≤ hi`: it swaps when needed. -/
theorem Span.new_wf (lo hi : Nat) : (Span.new lo hi).WF := by
  unfold Span.new Span.WF
  split <;> simp <;> omega

/-- `Span::to` always yields `lo ≤ hi`. -/
theorem Span.toSpan_wf (s e : Span) : (s.toSpan e).WF := Span.new_wf _ _

/-- Folding `Span::to` over spans preserves well-formedness. -/
theorem Span.foldl_toSpan_wf (rest : List Span) (s : Span) (h : s.WF) :
    (rest.foldl Span.toSpan s).WF := by
  induction rest generalizing s with
  | nil => exact h
  | cons r t ih => exact ih _ (Span.toSpan_wf _ _)

/-- C8: every span produced by the span operations (`new`, `with_lo`,
`with_hi`, `shrink_to_lo`, `shrink_to_hi`, `to`, `between`, `until`,
`split_at`, `join_many`, `join_first_last`) satisfies `lo ≤ hi`, for all
argument spans and positions (argument spans satisfying the `Span`
invariant, as every Rust `Span` does by construction). -/
theorem C8_span_ops_wf :
    (∀ lo hi, (Span.new lo hi).WF)
    ∧ (∀ (s : Span) p, (s.with_lo p).WF)
    ∧ (∀ (s : Span) p, (s.with_hi p).WF)
    ∧ (∀ s : Span, s.shrink_to_lo.WF)
    ∧ (∀ s : Span, s.shrink_to_hi.WF)
    ∧ (∀ s e : Span, (s.toSpan e).WF)
    ∧ (∀ s e : Span, (s.between e).WF)
    ∧ (∀ s e : Span, (s.untilSpan e).WF)
    ∧ (∀ (s : Span) p, (s.split_at p).1.WF ∧ (s.split_at p).2.WF)
    ∧ (∀ spans : List Span, (∀ s ∈ spans, s.WF) → (Span.join_many spans).WF)
    ∧ (∀ spans : List Span, (∀ s ∈ spans, s.WF) → (Span.join_first_last spans).WF) := by
  refine ⟨Span.new_wf, fun s p => Span.new_wf _ _, fun s p => Span.new_wf _ _,
    fun s => Span.new_wf _ _, fun s => Span.new_wf _ _, Span.toSpan_wf,
    fun s e => Span.new_wf _ _, fun s e => Span.new_wf _ _,
    fun s p => ⟨Span.new_wf _ _, Span.new_wf _ _⟩, ?_, ?_⟩
  · intro spans h
    match spans with
    | [] => exact Nat.le_refl 0
    | s :: rest =>
      exact Span.foldl_toSpan_wf rest s (h s (List.mem_cons_self s rest))
  · intro spans h
    match spans with
    | [] => exact Nat.le_refl 0
    | [s] => exact h s (List.mem_cons_self s [])
    | s :: r :: rest => exact Span.toSpan_wf _ _

/-- C8 witness: the operations with a hypothesis, applied at concrete
spans. -/
theorem C8_span_ops_wf_witness :
    (∀ s ∈ [Span.mk 1 3, Span.mk 2 5], s.WF)
    ∧ (Span.join_many [Span.mk 1 3, Span.mk 2 5]).WF
    ∧ (Span.join_first_last [Span.mk 1 3, Span.mk 2 5]).WF := by
  have hw : ∀ s ∈ [Span.mk 1 3, Span.mk 2 5], s.WF := by
    intro s hs
    fin_cases hs <;> simp [Span.WF]
  refine ⟨hw, ?_, ?_⟩
  · exact C8_span_ops_wf.2.2.2.2.2.2.2.2.2.1 [Span.mk 1 3, Span.mk 2 5] hw
  · exact C8_span_ops_wf.2.2.2.2.2.2.2.2.2.2 [Span.mk 1 3, Span.mk 2 5] hw

end Solar

namespace Solar

/-- Whether an event is a `HexBadUnderscore` report. -/
def isHBUEvent (ev : UEvent) : Bool := ev.2.2 == EscRes.err EscapeError.HexBadUnderscore

/-- Number of `HexBadUnderscore` reports in an event list. -/
def countHBU (evs : List UEvent) : Nat := evs.countP isHBUEvent

/-- The char loop of `unescape_hex_str` reports `HexBadUnderscore` at most
once, and not at all once `emit_underscore_errors` is cleared; if the flag
survives the loop, the loop reported none. -/
theorem hexLoop_hbu (bytes : List Nat) :
    ∀ fuel i allowU even,
      ((hexLoop bytes fuel i false allowU even).2 = false
        ∧ countHBU (hexLoop bytes fuel i false allowU even).1 = 0)
      ∧ (((hexLoop bytes fuel i true allowU even).2 = true
          → countHBU (hexLoop bytes fuel i true allowU even).1 = 0)
        ∧ countHBU (hexLoop bytes fuel i true allowU even).1 ≤ 1) := by
  intro fuel
  induction fuel with
  | zero => intro i allowU even; simp [hexLoop, countHBU]
  | succ fuel ih =>
    intro i allowU even
    constructor
    · rw [hexLoop]
      cases h : decodeChar (bytes.drop i) with
      | none => simp [countHBU]
      | some ck =>
        obtain ⟨c, k⟩ := ck
        simp only [Bool.false_and, Bool.false_eq_true, if_false]
        split
        · exact (ih (i + k) false even).1
        · split
          · have h1 := (ih (i + k) allowU even).1
            refine ⟨h1.1, ?_⟩
            have h2 := h1.2
            simp only [countHBU, List.countP_cons] at h2 ⊢
            have hne : isHBUEvent (i, i + k, EscRes.err EscapeError.HexNotHexDigit) = false := rfl
            simp [hne, h2]
          · have h1 := (ih (i + k) true (!even)).1
            refine ⟨h1.1, ?_⟩
            have h2 := h1.2
            simp only [countHBU, List.countP_cons] at h2 ⊢
            have hne : isHBUEvent (i, i + k, EscRes.ok c) = false := by
              simp [isHBUEvent]
            simp [hne, h2]
    · rw [hexLoop]
      cases h : decodeChar (bytes.drop i) with
      | none => simp [countHBU]
      | some ck =>
        obtain ⟨c, k⟩ := ck
        simp only [Bool.true_and]
        split
        · -- c == 95
          split
          · -- emits once, then the flag is false
            have h1 := (ih (i + k) allowU even).1
            constructor
            · intro hexit
              simp only at hexit
              rw [h1.1] at hexit
              cases hexit
            · have h2 := h1.2
              simp only [countHBU, List.countP_cons] at h2 ⊢
              have hyes : isHBUEvent (i, i + k, EscRes.err EscapeError.HexBadUnderscore) = true := rfl
              simp [hyes, h2]
          · exact (ih (i + k) false even).2
        · split
          · have h1 := (ih (i + k) allowU even).2
            have hne : isHBUEvent (i, i + k, EscRes.err EscapeError.HexNotHexDigit) = false := rfl
            constructor
            · intro hexit
              simp only at hexit ⊢
              have h0 := h1.1 hexit
              simp only [countHBU, List.countP_cons] at h0 ⊢
              simp [hne, h0]
            · have h2 := h1.2
              simp only [countHBU, List.countP_cons] at h2 ⊢
              simp [hne]
              omega
          · have h1 := (ih (i + k) true (!even)).2
            have hne : isHBUEvent (i, i + k, EscRes.ok c) = false := by
              simp [isHBUEvent]
            constructor
            · intro hexit
              simp only at hexit ⊢
              have h0 := h1.1 hexit
              simp only [countHBU, List.countP_cons] at h0 ⊢
              simp [hne, h0]
            · have h2 := h1.2
              simp only [countHBU, List.countP_cons] at h2 ⊢
              simp [hne]
              omega

/-- The fast path emits only `Ok` events, hence no `HexBadUnderscore`. -/
theorem charIndicesEvents_hbu (bytes : List Nat) :
    ∀ fuel i, countHBU (charIndicesEventsAux bytes fuel i) = 0 := by
  intro fuel
  induction fuel with
  | zero => intro i; simp [charIndicesEventsAux, countHBU]
  | succ fuel ih =>
    intro i
    rw [charIndicesEventsAux]
    cases h : decodeChar (bytes.drop i) with
    | none => simp [countHBU]
    | some ck =>
      obtain ⟨c, k⟩ := ck
      have h1 := ih (i + k)
      simp only [countHBU, List.countP_cons] at h1 ⊢
      simp [isHBUEvent, h1]

/-- The events of `unescape_hex_str` contain at most one
`HexBadUnderscore`. -/
theorem unescapeHexStr_hbu (src : List Nat) : countHBU (unescapeHexStr src) ≤ 1 := by
  unfold unescapeHexStr
  simp only
  split_ifs with h1 h2 h3 h4 h5
  · simp [countHBU, List.countP_append, List.countP_cons, isHBUEvent]
  · -- prefix, even count, trailing underscore event
    rw [Bool.and_eq_true, Bool.and_eq_true] at h3
    have h0 := (hexLoop_hbu src (src.length + 1) 2 false true).2.1 h3.1.1
    unfold countHBU at h0 ⊢
    rw [List.countP_append, List.countP_append, h0]
    simp [List.countP_cons, isHBUEvent]
  · -- prefix, even count, no trailing event
    have h0 := (hexLoop_hbu src (src.length + 1) 2 false true).2.2
    unfold countHBU at h0 ⊢
    rw [List.countP_append, List.countP_append]
    simpa [List.countP_cons, isHBUEvent] using h0
  · simp [countHBU, List.countP_append, List.countP_cons, isHBUEvent]
  · -- no prefix, even count, trailing underscore event
    rw [Bool.and_eq_true, Bool.and_eq_true] at h5
    have h0 := (hexLoop_hbu src (src.length + 1) 0 false true).2.1 h5.1.1
    unfold countHBU at h0 ⊢
    rw [List.countP_append, List.countP_append, h0]
    simp [List.countP_cons, isHBUEvent]
  · have h0 := (hexLoop_hbu src (src.length + 1) 0 false true).2.2
    unfold countHBU at h0 ⊢
    rw [List.countP_append, List.countP_append]
    simpa [List.countP_cons, isHBUEvent] using h0

/-- C7: for every hex-string literal source, the unescape engine reports
the `HexBadUnderscore` error at most once, regardless of how many misplaced
underscores (leading, trailing, inside a byte pair, or doubled) the literal
contains. -/
theorem C7_hex_bad_underscore_once (src : List Nat) :
    countHBU (unescapeLiteral src Mode.HexStr) ≤ 1 := by
  rw [unescapeLiteral]
  split
  · rw [unescapeLiteralUnchecked]
    exact unescapeHexStr_hbu src
  · rw [charIndicesEvents_hbu src (src.length + 1) 0]
    omega

end Solar

namespace Solar

/-! ### Facts about `byteAt` and `takeWhile` boundaries -/

theorem byteAt_drop (l : List Nat) (n i : Nat) : byteAt (l.drop n) i = byteAt l (n + i) := by
  simp [byteAt, List.getD_eq_getElem?_getD, List.getElem?_drop]

theorem byteAt_take_of_lt (l : List Nat) {i n : Nat} (h : i < n) :
    byteAt (l.take n) i = byteAt l i := by
  simp [byteAt, List.getD_eq_getElem?_getD, List.getElem?_take_of_lt h]

theorem byteAt_eq_getElem (l : List Nat) (i : Nat) (h : i < l.length) :
    byteAt l i = l[i] := List.getD_eq_getElem l 0 h

theorem drop_eq_byteAt_cons (l : List Nat) (n : Nat) (h : n < l.length) :
    l.drop n = byteAt l n :: l.drop (n + 1) := by
  rw [List.drop_eq_getElem_cons h, byteAt_eq_getElem l n h]

theorem byteAt_of_ge (l : List Nat) (i : Nat) (h : l.length ≤ i) : byteAt l i = 0 := by
  simp [byteAt, List.getD_eq_getElem?_getD, List.getElem?_eq_none h]

theorem twLen_le (p : Nat → Bool) (l : List Nat) : (l.takeWhile p).length ≤ l.length := by
  induction l with
  | nil => simp
  | cons b t ih =>
    rw [List.takeWhile_cons]
    split
    · simp only [List.length_cons]
      omega
    · simp

theorem twLen_sat (p : Nat → Bool) (l : List Nat) :
    ∀ j < (l.takeWhile p).length, p (byteAt l j) = true := by
  induction l with
  | nil => simp
  | cons b t ih =>
    intro j hj
    rw [List.takeWhile_cons] at hj
    by_cases hb : p b = true
    · rw [if_pos hb, List.length_cons] at hj
      match j with
      | 0 => simpa [byteAt] using hb
      | j + 1 =>
        have := ih j (by omega)
        simpa [byteAt] using this
    · rw [if_neg hb] at hj
      simp at hj

theorem twLen_stop (p : Nat → Bool) (l : List Nat)
    (h : (l.takeWhile p).length < l.length) :
    p (byteAt l ((l.takeWhile p).length)) = false := by
  induction l with
  | nil => simp at h
  | cons b t ih =>
    by_cases hb : p b = true
    · rw [List.takeWhile_cons, if_pos hb] at h ⊢
      simp only [List.length_cons] at h ⊢
      have := ih (by omega)
      simpa [byteAt] using this
    · rw [List.takeWhile_cons, if_neg hb] at h ⊢
      have hb2 : p b = false := by simpa using hb
      simpa [byteAt] using hb2

theorem le_twLen_of_sat (p : Nat → Bool) (l : List Nat) (m : Nat)
    (hm : m ≤ l.length) (h : ∀ j < m, p (byteAt l j) = true) :
    m ≤ (l.takeWhile p).length := by
  by_contra hc
  push_neg at hc
  have h1 := twLen_stop p l (by omega)
  have h2 := h _ hc
  rw [h1] at h2
  cases h2

/-! ### The bulk scanners compute the `takeWhile` boundary -/

theorem scanChunk_some (p : Nat → Bool) :
    ∀ (l : List Nat) i, scanChunk p l = some i →
      i < l.length ∧ p (byteAt l i) = false ∧ ∀ j < i, p (byteAt l j) = true := by
  intro l
  induction l with
  | nil => intro i h; simp [scanChunk] at h
  | cons b t ih =>
    intro i h
    rw [scanChunk] at h
    by_cases hb : p b = true
    · rw [if_neg (by simp [hb])] at h
      rw [Option.map_eq_some'] at h
      obtain ⟨i', hi', rfl⟩ := h
      obtain ⟨h1, h2, h3⟩ := ih i' hi'
      refine ⟨by simpa using h1, h2, ?_⟩
      intro j hj
      match j with
      | 0 => exact hb
      | j + 1 => exact h3 j (by omega)
    · simp only [Bool.not_eq_true] at hb
      rw [if_pos (by simp [hb])] at h
      cases h
      exact ⟨by simp, hb, by omega⟩

theorem scanChunk_none (p : Nat → Bool) :
    ∀ (l : List Nat), scanChunk p l = none → ∀ j < l.length, p (byteAt l j) = true := by
  intro l
  induction l with
  | nil => simp
  | cons b t ih =>
    intro h j hj
    rw [scanChunk] at h
    by_cases hb : p b = true
    · rw [if_neg (by simp [hb]), Option.map_eq_none'] at h
      match j with
      | 0 => exact hb
      | j + 1 => exact ih h j (by simpa using hj)
    · rw [if_pos (by simp [Bool.not_eq_true] at hb; simp [hb])] at h
      cases h

theorem chunkScanLoop_spec (p : Nat → Bool) (input : List Nat) (width : Nat)
    (pats : List (List Nat)) (hw : 0 < width)
    (hpats : ∀ pat ∈ pats, ∀ b ∈ pat, p b = true) :
    ∀ fuel pos, input.length ≤ fuel + pos → pos ≤ (input.takeWhile p).length →
      (∀ r, chunkScanLoop p input width pats fuel pos = Sum.inl r →
        r = (input.takeWhile p).length)
      ∧ (∀ q, chunkScanLoop p input width pats fuel pos = Sum.inr q →
          q ≤ (input.takeWhile p).length ∧ input.length < q + width) := by
  intro fuel
  induction fuel with
  | zero =>
    intro pos hfuel hpos
    rw [chunkScanLoop]
    constructor
    · intro r h
      simp at h
    · intro q h
      cases h
      exact ⟨by omega, by omega⟩
  | succ fuel ih =>
    intro pos hfuel hpos
    rw [chunkScanLoop]
    by_cases hin : pos + width ≤ input.length
    · rw [if_pos hin]
      have hchunklen : ((input.drop pos).take width).length = width := by
        simp [List.length_take, List.length_drop]; omega
      have hchunkat : ∀ j < width, byteAt ((input.drop pos).take width) j = byteAt input (pos + j) := by
        intro j hj
        rw [byteAt_take_of_lt _ hj, byteAt_drop]
      by_cases hc : pats.contains ((input.drop pos).take width) = true
      · have hall : ∀ j < width, p (byteAt input (pos + j)) = true := by
          intro j hj
          rw [← hchunkat j hj]
          have hmem : byteAt ((input.drop pos).take width) j ∈ (input.drop pos).take width := by
            rw [byteAt_eq_getElem _ j (by omega)]
            exact List.getElem_mem (by omega)
          exact hpats _ (List.mem_of_elem_eq_true hc) _ hmem
        have hnext : pos + width ≤ (input.takeWhile p).length := by
          apply le_twLen_of_sat p input (pos + width) hin
          intro j hj
          by_cases hjp : j < pos
          · exact twLen_sat p input j (by omega)
          · have := hall (j - pos) (by omega)
            have hpj : pos + (j - pos) = j := by omega
            rwa [hpj] at this
        rw [if_pos hc]
        exact ih (pos + width) (by omega) hnext
      · rw [if_neg hc]
        cases hs : scanChunk p ((input.drop pos).take width) with
        | some i =>
          obtain ⟨h1, h2, h3⟩ := scanChunk_some p _ i hs
          rw [hchunklen] at h1
          rw [hchunkat i h1] at h2
          have hsat : ∀ j < pos + i, p (byteAt input j) = true := by
            intro j hj
            by_cases hjp : j < pos
            · exact twLen_sat p input j (by omega)
            · have := h3 (j - pos) (by omega)
              rw [hchunkat (j - pos) (by omega)] at this
              have hpj : pos + (j - pos) = j := by omega
              rwa [hpj] at this
          have heq : pos + i = (input.takeWhile p).length := by
            have hle : pos + i ≤ (input.takeWhile p).length :=
              le_twLen_of_sat p input (pos + i) (by omega) hsat
            by_contra hne
            have hlt : pos + i < (input.takeWhile p).length := by omega
            have := twLen_sat p input (pos + i) hlt
            rw [this] at h2
            cases h2
          constructor
          · intro r h
            cases h
            exact heq
          · intro q h
            simp at h
        | none =>
          have hall := scanChunk_none p _ hs
          rw [hchunklen] at hall
          have hnext : pos + width ≤ (input.takeWhile p).length := by
            apply le_twLen_of_sat p input (pos + width) hin
            intro j hj
            by_cases hjp : j < pos
            · exact twLen_sat p input j (by omega)
            · have := hall (j - pos) (by omega)
              rw [hchunkat (j - pos) (by omega)] at this
              have hpj : pos + (j - pos) = j := by omega
              rwa [hpj] at this
          exact ih (pos + width) (by omega) hnext
    · rw [if_neg hin]
      constructor
      · intro r h
        simp at h
      · intro q h
        cases h
        exact ⟨by omega, by omega⟩

theorem tailScan_spec (p : Nat → Bool) (input : List Nat) :
    ∀ fuel pos, pos ≤ (input.takeWhile p).length →
      (input.takeWhile p).length ≤ fuel + pos →
      tailScan p input fuel pos = (input.takeWhile p).length := by
  intro fuel
  induction fuel with
  | zero =>
    intro pos h1 h2
    rw [tailScan]
    omega
  | succ fuel ih =>
    intro pos h1 h2
    rw [tailScan]
    by_cases hg : (pos < input.length && p (byteAt input pos)) = true
    · rw [if_pos hg]
      simp only [Bool.and_eq_true, decide_eq_true_eq] at hg
      have hlt : pos < (input.takeWhile p).length := by
        by_contra hge
        push_neg at hge
        have hpe : pos = (input.takeWhile p).length := Nat.le_antisymm h1 hge
        have hlen : (input.takeWhile p).length < input.length := hpe ▸ hg.1
        have hstop := twLen_stop p input hlen
        rw [← hpe] at hstop
        rw [hstop] at hg
        exact absurd hg.2 (by simp)
      exact ih (pos + 1) hlt (by omega)
    · rw [if_neg hg]
      simp only [Bool.and_eq_true, decide_eq_true_eq, not_and] at hg
      rcases Nat.lt_or_ge pos (input.takeWhile p).length with h | h
      · have hsat := twLen_sat p input pos h
        have hlen : pos < input.length := Nat.lt_of_lt_of_le h (twLen_le p input)
        exact absurd hsat (hg hlen)
      · omega

end Solar

namespace Solar

/-- The lookup-table whitespace class coincides with the scalar predicate. -/
theorem is_whitespace_fast_eq (b : Nat) : is_whitespace_fast b = is_whitespace_byte b := rfl

/-- The lookup-table identifier-continue class coincides with the scalar
predicate. -/
theorem is_id_continue_fast_eq (b : Nat) : is_id_continue_fast b = is_id_continue_byte b := by
  rw [Bool.eq_iff_iff]
  unfold is_id_continue_fast is_id_continue_byte is_id_start_byte
  simp only [Bool.or_eq_true, Bool.and_eq_true, decide_eq_true_eq, beq_iff_eq]
  omega

/-- `skip_whitespace_bulk` computes the `takeWhile` boundary of its
predicate. -/
theorem skipWhitespaceBulk_eq (input : List Nat) :
    skipWhitespaceBulk input = (input.takeWhile is_whitespace_fast).length := by
  rw [skipWhitespaceBulk]
  by_cases hz : (input.length == 0) = true
  · rw [if_pos hz]
    have : input = [] := by
      cases input with
      | nil => rfl
      | cons b t => simp at hz
    subst this
    simp
  · rw [if_neg hz]
    simp only []
    have hp16 : ∀ pat ∈ [List.replicate 16 32, List.replicate 16 9],
        ∀ b ∈ pat, is_whitespace_fast b = true := by
      intro pat hpat b hb
      rcases List.mem_cons.mp hpat with rfl | hpat
      · rw [List.eq_of_mem_replicate hb]; rfl
      rcases List.mem_cons.mp hpat with rfl | hpat
      · rw [List.eq_of_mem_replicate hb]; rfl
      · simp at hpat
    have hp8 : ∀ pat ∈ [List.replicate 8 32], ∀ b ∈ pat, is_whitespace_fast b = true := by
      intro pat hpat b hb
      rcases List.mem_cons.mp hpat with rfl | hpat
      · rw [List.eq_of_mem_replicate hb]; rfl
      · simp at hpat
    have hp4 : ∀ pat ∈ [List.replicate 4 32], ∀ b ∈ pat, is_whitespace_fast b = true := by
      intro pat hpat b hb
      rcases List.mem_cons.mp hpat with rfl | hpat
      · rw [List.eq_of_mem_replicate hb]; rfl
      · simp at hpat
    have s16 := chunkScanLoop_spec is_whitespace_fast input 16 _ (by omega) hp16
      (input.length + 1) 0 (by omega) (by omega)
    cases h16 : chunkScanLoop is_whitespace_fast input 16
        [List.replicate 16 32, List.replicate 16 9] (input.length + 1) 0 with
    | inl r =>
      exact s16.1 r h16
    | inr q =>
      simp only []
      have hq := s16.2 q h16
      have s8 := chunkScanLoop_spec is_whitespace_fast input 8 _ (by omega) hp8
        (input.length + 1) q (by omega) hq.1
      cases h8 : chunkScanLoop is_whitespace_fast input 8
          [List.replicate 8 32] (input.length + 1) q with
      | inl r =>
        exact s8.1 r h8
      | inr q2 =>
        simp only []
        have hq2 := s8.2 q2 h8
        have s4 := chunkScanLoop_spec is_whitespace_fast input 4 _ (by omega) hp4
          (input.length + 1) q2 (by omega) hq2.1
        cases h4 : chunkScanLoop is_whitespace_fast input 4
            [List.replicate 4 32] (input.length + 1) q2 with
        | inl r =>
          exact s4.1 r h4
        | inr q3 =>
          have hq3 := s4.2 q3 h4
          exact tailScan_spec is_whitespace_fast input (input.length + 1) q3 hq3.1
            (by have := twLen_le is_whitespace_fast input; omega)

/-- `parse_identifier_bulk` computes the `takeWhile` boundary of its
predicate. -/
theorem parseIdentifierBulk_eq (input : List Nat) :
    parseIdentifierBulk input = (input.takeWhile is_id_continue_fast).length := by
  rw [parseIdentifierBulk]
  by_cases hz : (input.length == 0) = true
  · rw [if_pos hz]
    have : input = [] := by
      cases input with
      | nil => rfl
      | cons b t => simp at hz
    subst this
    simp
  · rw [if_neg hz]
    simp only []
    have hp : ∀ pat ∈ ([] : List (List Nat)), ∀ b ∈ pat, is_id_continue_fast b = true := by
      simp
    have s16 := chunkScanLoop_spec is_id_continue_fast input 16 [] (by omega) hp
      (input.length + 1) 0 (by omega) (by omega)
    cases h16 : chunkScanLoop is_id_continue_fast input 16 [] (input.length + 1) 0 with
    | inl r =>
      exact s16.1 r h16
    | inr q =>
      simp only []
      have hq := s16.2 q h16
      have s8 := chunkScanLoop_spec is_id_continue_fast input 8 [] (by omega) hp
        (input.length + 1) q (by omega) hq.1
      cases h8 : chunkScanLoop is_id_continue_fast input 8 [] (input.length + 1) q with
      | inl r =>
        exact s8.1 r h8
      | inr q2 =>
        simp only []
        have hq2 := s8.2 q2 h8
        have s4 := chunkScanLoop_spec is_id_continue_fast input 4 [] (by omega) hp
          (input.length + 1) q2 (by omega) hq2.1
        cases h4 : chunkScanLoop is_id_continue_fast input 4 [] (input.length + 1) q2 with
        | inl r =>
          exact s4.1 r h4
        | inr q3 =>
          have hq3 := s4.2 q3 h4
          exact tailScan_spec is_id_continue_fast input (input.length + 1) q3 hq3.1
            (by have := twLen_le is_id_continue_fast input; omega)

/-- C4: the bulk scanning helpers `skip_whitespace_bulk` and
`parse_identifier_bulk` return exactly the length of the longest prefix
whose bytes all satisfy the scalar predicate (`is_whitespace_byte`,
respectively `is_id_continue_byte`) — the boundary a byte-by-byte scalar
scan produces. -/
theorem C4_bulk_equals_scalar (input : List Nat) :
    skipWhitespaceBulk input = (input.takeWhile is_whitespace_byte).length
    ∧ parseIdentifierBulk input = (input.takeWhile is_id_continue_byte).length := by
  have e1 : (fun b => is_whitespace_fast b) = is_whitespace_byte :=
    funext is_whitespace_fast_eq
  have e2 : (fun b => is_id_continue_fast b) = is_id_continue_byte :=
    funext is_id_continue_fast_eq
  constructor
  · rw [skipWhitespaceBulk_eq]
    congr 2
  · rw [parseIdentifierBulk_eq]
    congr 2

end Solar

namespace Solar

theorem findStarSlash_some :
    ∀ (l : List Nat) i, Cursor.findStarSlash l = some i →
      i + 1 < l.length ∧ byteAt l i = 42 ∧ byteAt l (i + 1) = 47 := by
  intro l
  induction l with
  | nil => intro i h; simp [Cursor.findStarSlash] at h
  | cons x t ih =>
    intro i h
    cases t with
    | nil => simp [Cursor.findStarSlash] at h
    | cons y rest =>
      rw [Cursor.findStarSlash] at h
      by_cases hc : (x == 42 && y == 47) = true
      · rw [if_pos hc] at h
        cases h
        simp only [Bool.and_eq_true, beq_iff_eq] at hc
        refine ⟨by simp, by simpa [byteAt] using hc.1, by simpa [byteAt] using hc.2⟩
      · rw [if_neg hc, Option.map_eq_some'] at h
        obtain ⟨i', hi', rfl⟩ := h
        obtain ⟨ha, hb, hc2⟩ := ih i' hi'
        have ha2 : i' + 1 < rest.length + 1 := by simpa using ha
        refine ⟨by simp only [List.length_cons]; omega, ?_, ?_⟩
        · simpa [byteAt] using hb
        · simpa [byteAt] using hc2

theorem findStarSlash_none :
    ∀ (l : List Nat), Cursor.findStarSlash l = none →
      ∀ i, i + 1 < l.length → ¬(byteAt l i = 42 ∧ byteAt l (i + 1) = 47) := by
  intro l
  induction l with
  | nil => intro h i hi; simp at hi
  | cons x t ih =>
    intro h i hi
    cases t with
    | nil => simp at hi
    | cons y rest =>
      rw [Cursor.findStarSlash] at h
      by_cases hc : (x == 42 && y == 47) = true
      · rw [if_pos hc] at h
        cases h
      · rw [if_neg hc, Option.map_eq_none'] at h
        match i with
        | 0 =>
          intro hcon
          apply hc
          simp only [Bool.and_eq_true, beq_iff_eq]
          exact ⟨by simpa [byteAt] using hcon.1, by simpa [byteAt] using hcon.2⟩
        | i + 1 =>
          intro hcon
          apply ih h i (by simpa using hi)
          exact ⟨by simpa [byteAt] using hcon.1, by simpa [byteAt] using hcon.2⟩

/-- `advance_token` on an input starting `/*`, when `*/` occurs in the
remainder. -/
theorem advanceToken_block_some (input : List Nat) (i : Nat)
    (h0 : byteAt input 0 = 47) (h1 : byteAt input 1 = 42) (h2 : 2 ≤ input.length)
    (hf : Cursor.findStarSlash (input.drop 2) = some i) :
    Cursor.advanceToken (Cursor.new input) =
      (⟨RawTokenKind.BlockComment
          (byteAt input 2 == 42 && !(byteAt input 3 == 42 || byteAt input 3 == 47)) true,
        (i + 4) % u32Mod⟩,
       ⟨input, 2 + (i + 2)⟩) := by
  rw [Cursor.advanceToken, Cursor.bumpRet, if_pos (by simp [Cursor.new]; omega)]
  simp only [Cursor.new, Cursor.bump, h0]
  rw [Cursor.advanceTokenKind]
  rw [if_pos (by simp)]
  have hfst : Cursor.first ⟨input, 0 + 1⟩ = 42 := by
    simpa [Cursor.first] using h1
  rw [if_neg (by simp [hfst]), if_pos (by simp [hfst])]
  rw [Cursor.blockComment]
  simp only [Cursor.bump, Cursor.first, Cursor.second, hf]
  have e : 2 + (i + 2) = i + 4 := by omega
  simp [byteAt_drop, e]

/-- `advance_token` on an input starting `/*`, when no `*/` occurs: the
comment consumes to the end of input. -/
theorem advanceToken_block_none (input : List Nat)
    (h0 : byteAt input 0 = 47) (h1 : byteAt input 1 = 42) (h2 : 2 ≤ input.length)
    (hf : Cursor.findStarSlash (input.drop 2) = none) :
    Cursor.advanceToken (Cursor.new input) =
      (⟨RawTokenKind.BlockComment
          (byteAt input 2 == 42 && !(byteAt input 3 == 42 || byteAt input 3 == 47)) false,
        input.length % u32Mod⟩,
       ⟨input, input.length⟩) := by
  rw [Cursor.advanceToken, Cursor.bumpRet, if_pos (by simp [Cursor.new]; omega)]
  simp only [Cursor.new, Cursor.bump, h0]
  rw [Cursor.advanceTokenKind]
  rw [if_pos (by simp)]
  have hfst : Cursor.first ⟨input, 0 + 1⟩ = 42 := by
    simpa [Cursor.first] using h1
  rw [if_neg (by simp [hfst]), if_pos (by simp [hfst])]
  rw [Cursor.blockComment]
  simp only [Cursor.bump, Cursor.first, Cursor.second, hf]
  have e : 2 + (input.length - 2) = input.length := by omega
  simp [byteAt_drop, e]

end Solar

namespace Solar

/-- C6: a block comment (after the consumed leading `/*`) is a doc comment
iff the next byte is `*` and the byte after that is neither `*` nor `/`;
its `terminated` flag is true iff a closing `*/` is found, otherwise the
comment consumes to the end of input; in particular `/**/` lexes as a
single terminated non-doc block comment of length 4, and `/***/` as one of
length 5. -/
theorem C6_block_comment :
    (∀ input : List Nat, byteAt input 0 = 47 → byteAt input 1 = 42 → 2 ≤ input.length →
      ∃ d t,
        (Cursor.advanceToken (Cursor.new input)).1.kind = RawTokenKind.BlockComment d t
        ∧ (d = true ↔ byteAt input 2 = 42 ∧ byteAt input 3 ≠ 42 ∧ byteAt input 3 ≠ 47)
        ∧ (t = true ↔ ∃ i, i + 3 < input.length
            ∧ byteAt input (i + 2) = 42 ∧ byteAt input (i + 3) = 47)
        ∧ (t = false →
            (Cursor.advanceToken (Cursor.new input)).1.len = input.length % u32Mod))
    ∧ lex [47, 42, 42, 47] = [⟨RawTokenKind.BlockComment false true, 4⟩]
    ∧ lex [47, 42, 42, 42, 47] = [⟨RawTokenKind.BlockComment false true, 5⟩] := by
  refine ⟨?_, by decide, by decide⟩
  intro input h0 h1 h2
  have hdoc : ((byteAt input 2 == 42 && !(byteAt input 3 == 42 || byteAt input 3 == 47)) = true)
      ↔ (byteAt input 2 = 42 ∧ byteAt input 3 ≠ 42 ∧ byteAt input 3 ≠ 47) := by
    simp only [Bool.and_eq_true, beq_iff_eq, Bool.not_eq_true', Bool.or_eq_false_iff,
      beq_eq_false_iff_ne]
  cases hf : Cursor.findStarSlash (input.drop 2) with
  | some i =>
    refine ⟨_, true, ?_, hdoc, ?_, ?_⟩
    · rw [advanceToken_block_some input i h0 h1 h2 hf]
    · obtain ⟨ha, hb, hc⟩ := findStarSlash_some _ i hf
      rw [List.length_drop] at ha
      rw [byteAt_drop] at hb hc
      have e1 : 2 + i = i + 2 := by omega
      have e2 : 2 + (i + 1) = i + 3 := by omega
      rw [e1] at hb
      rw [e2] at hc
      exact iff_of_true rfl ⟨i, by omega, hb, hc⟩
    · intro hfalse
      cases hfalse
  | none =>
    refine ⟨_, false, ?_, hdoc, ?_, ?_⟩
    · rw [advanceToken_block_none input h0 h1 h2 hf]
    · simp only [Bool.false_eq_true, false_iff]
      rintro ⟨i, hi, h42, h47⟩
      apply findStarSlash_none _ hf i
      · rw [List.length_drop]; omega
      · rw [byteAt_drop, byteAt_drop]
        have e1 : 2 + i = i + 2 := by omega
        have e2 : 2 + (i + 1) = i + 3 := by omega
        rw [e1, e2]
        exact ⟨h42, h47⟩
    · intro _
      rw [advanceToken_block_none input h0 h1 h2 hf]

end Solar

namespace Solar

/-- C6 witness: the general block-comment characterization applied to the
concrete input `/* */`. -/
theorem C6_block_comment_witness :
    byteAt [47, 42, 32, 42, 47] 0 = 47 ∧ byteAt [47, 42, 32, 42, 47] 1 = 42
    ∧ 2 ≤ ([47, 42, 32, 42, 47] : List Nat).length
    ∧ ∃ d t,
      (Cursor.advanceToken (Cursor.new [47, 42, 32, 42, 47])).1.kind
          = RawTokenKind.BlockComment d t
        ∧ (d = true ↔ byteAt [47, 42, 32, 42, 47] 2 = 42
            ∧ byteAt [47, 42, 32, 42, 47] 3 ≠ 42 ∧ byteAt [47, 42, 32, 42, 47] 3 ≠ 47)
        ∧ (t = true ↔ ∃ i, i + 3 < ([47, 42, 32, 42, 47] : List Nat).length
            ∧ byteAt [47, 42, 32, 42, 47] (i + 2) = 42
            ∧ byteAt [47, 42, 32, 42, 47] (i + 3) = 47)
        ∧ (t = false →
            (Cursor.advanceToken (Cursor.new [47, 42, 32, 42, 47])).1.len
              = ([47, 42, 32, 42, 47] : List Nat).length % u32Mod) :=
  ⟨by decide, by decide, by decide,
    C6_block_comment.1 [47, 42, 32, 42, 47] (by decide) (by decide) (by decide)⟩

/-- `rational_number_after_dot` always produces a `Rational` literal with
the base it was given. -/
theorem rationalNumberAfterDot_kind (c : Cursor) (base : Base) :
    ∃ e c2, Cursor.rationalNumberAfterDot c base = (RawLiteralKind.Rational base e, c2) := by
  rw [Cursor.rationalNumberAfterDot]
  simp only []
  split
  · exact ⟨_, _, rfl⟩
  · exact ⟨_, _, rfl⟩

/-- On input `d . b rest…` with `d` a nonzero digit, `advance_token`
reduces to `number_suffix` after an empty digit run. -/
theorem advanceToken_digit_dot (d b : Nat) (rest : List Nat)
    (h1 : 49 ≤ d) (h2 : d ≤ 57) :
    Cursor.advanceToken (Cursor.new (d :: 46 :: b :: rest))
      = (⟨RawTokenKind.Literal (Cursor.numberSuffix ⟨d :: 46 :: b :: rest, 1⟩ Base.Decimal).1,
          ((Cursor.numberSuffix ⟨d :: 46 :: b :: rest, 1⟩ Base.Decimal).2.pos - 0) % u32Mod⟩,
         (Cursor.numberSuffix ⟨d :: 46 :: b :: rest, 1⟩ Base.Decimal).2) := by
  rw [Cursor.advanceToken, Cursor.bumpRet, if_pos (by simp [Cursor.new])]
  have hd0 : byteAt (d :: 46 :: b :: rest) 0 = d := rfl
  simp only [Cursor.new, Cursor.bump, hd0]
  rw [Cursor.advanceTokenKind]
  rw [if_neg (by simp; omega)]
  rw [if_neg (by simp [is_whitespace_byte]; omega)]
  rw [if_neg (by simp [is_id_start_byte]; omega)]
  rw [if_pos (by simp [isAsciiDigit]; omega)]
  rw [Cursor.number]
  rw [if_neg (by simp; omega)]
  have he : Cursor.eatDecimalDigits ⟨d :: 46 :: b :: rest, 0 + 1⟩
      = (false, ⟨d :: 46 :: b :: rest, 1⟩) := by
    rw [Cursor.eatDecimalDigits, Cursor.eatDigits]
    have : (d :: 46 :: b :: rest).length + 1 = rest.length + 3 + 1 := by simp
    rw [this, Cursor.eatDigitsAux]
    rw [if_pos (by simp)]
    have hb1 : byteAt (d :: 46 :: b :: rest) (0 + 1) = 46 := rfl
    rw [hb1]
    rw [if_neg (by simp), if_neg (by simp [isAsciiDigit])]
  rw [he]

end Solar

namespace Solar

/-- C5: when lexing a numeric literal, after the integer part a `.` is
consumed into a rational literal only if the byte following the `.` is not
an identifier-start byte or is `_`; consequently `12.foo` lexes as the
integer literal `12`, a `Dot` token, and the identifier `foo`. -/
theorem C5_digit_dot_guard :
    (∀ d b rest, 49 ≤ d → d ≤ 57 →
      (is_id_start_byte b = true → b ≠ 95 →
        (Cursor.advanceToken (Cursor.new (d :: 46 :: b :: rest))).1
          = ⟨RawTokenKind.Literal (RawLiteralKind.Int Base.Decimal false), 1⟩)
      ∧ (is_id_start_byte b = false ∨ b = 95 →
        ∃ e L, (Cursor.advanceToken (Cursor.new (d :: 46 :: b :: rest))).1
          = ⟨RawTokenKind.Literal (RawLiteralKind.Rational Base.Decimal e), L⟩))
    ∧ lex [49, 50, 46, 102, 111, 111]
        = [⟨RawTokenKind.Literal (RawLiteralKind.Int Base.Decimal false), 2⟩,
           ⟨RawTokenKind.Dot, 1⟩, ⟨RawTokenKind.Ident, 3⟩] := by
  refine ⟨?_, by decide⟩
  intro d b rest h1 h2
  have hc1 : Cursor.first ⟨d :: 46 :: b :: rest, 1⟩ = 46 := rfl
  have hc2 : Cursor.second ⟨d :: 46 :: b :: rest, 1⟩ = b := rfl
  constructor
  · intro hid hne
    rw [advanceToken_digit_dot d b rest h1 h2]
    rw [Cursor.numberSuffix]
    rw [if_neg (by simp [hc1, hc2, hid, hne])]
    rw [if_neg (by simp [hc1])]
    simp [u32Mod]
  · intro hor
    rw [advanceToken_digit_dot d b rest h1 h2]
    rw [Cursor.numberSuffix]
    rw [if_pos (by
      simp only [hc1, hc2, Bool.and_eq_true, Bool.or_eq_true, beq_iff_eq,
        Bool.not_eq_true']
      refine ⟨trivial, ?_⟩
      rcases hor with h | h
      · exact Or.inl h
      · exact Or.inr h)]
    obtain ⟨e, c2, hr⟩ :=
      rationalNumberAfterDot_kind (Cursor.bump ⟨d :: 46 :: b :: rest, 1⟩) Base.Decimal
    rw [hr]
    exact ⟨e, _, rfl⟩

/-- C5 witness: the guard applied at `1.f` (refused: identifier follows)
and at `1._` (consumed: underscore follows). -/
theorem C5_digit_dot_guard_witness :
    (is_id_start_byte 102 = true ∧ (102 : Nat) ≠ 95
      ∧ (Cursor.advanceToken (Cursor.new [49, 46, 102])).1
          = ⟨RawTokenKind.Literal (RawLiteralKind.Int Base.Decimal false), 1⟩)
    ∧ ((is_id_start_byte 48 = false ∨ (48 : Nat) = 95)
      ∧ ∃ e L, (Cursor.advanceToken (Cursor.new [49, 46, 48])).1
          = ⟨RawTokenKind.Literal (RawLiteralKind.Rational Base.Decimal e), L⟩) := by
  constructor
  · exact ⟨by decide, by decide,
      (C5_digit_dot_guard.1 49 102 [] (by decide) (by decide)).1 (by decide) (by decide)⟩
  · exact ⟨Or.inl (by decide),
      (C5_digit_dot_guard.1 49 48 [] (by decide) (by decide)).2 (Or.inl (by decide))⟩

end Solar

namespace Solar

/-! ### Position monotonicity and bounds for the cursor -/

theorem Cursor.first_ne_zero {c : Cursor} (h : c.first ≠ 0) : c.pos < c.bytes.length := by
  by_contra hge
  push_neg at hge
  exact h (byteAt_of_ge _ _ hge)

theorem eatWhileAux_le (p : Nat → Bool) (bytes : List Nat) :
    ∀ fuel pos, pos ≤ Cursor.eatWhileAux p bytes fuel pos := by
  intro fuel
  induction fuel with
  | zero => intro pos; rw [Cursor.eatWhileAux]
  | succ fuel ih =>
    intro pos
    rw [Cursor.eatWhileAux]
    split
    · exact Nat.le_trans (by omega) (ih (pos + 1))
    · exact Nat.le_refl pos

theorem eatWhileAux_bound (p : Nat → Bool) (bytes : List Nat) :
    ∀ fuel pos, pos ≤ bytes.length → Cursor.eatWhileAux p bytes fuel pos ≤ bytes.length := by
  intro fuel
  induction fuel with
  | zero => intro pos h; rw [Cursor.eatWhileAux]; exact h
  | succ fuel ih =>
    intro pos h
    rw [Cursor.eatWhileAux]
    split
    · rename_i hc
      rw [Bool.and_eq_true, decide_eq_true_eq] at hc
      exact ih (pos + 1) (by omega)
    · exact h

theorem eatStringAux_le (bytes : List Nat) (quote : Nat) :
    ∀ fuel pos, pos ≤ (Cursor.eatStringAux bytes quote fuel pos).2 := by
  intro fuel
  induction fuel with
  | zero => intro pos; rw [Cursor.eatStringAux]
  | succ fuel ih =>
    intro pos
    rw [Cursor.eatStringAux]
    split
    · simp only []
      split
      · exact Nat.le_succ pos
      · split
        · split
          · exact Nat.le_trans (by omega) (ih (pos + 1 + 1))
          · exact Nat.le_trans (by omega) (ih (pos + 1))
        · exact Nat.le_trans (by omega) (ih (pos + 1))
    · exact Nat.le_refl pos

theorem eatStringAux_bound (bytes : List Nat) (quote : Nat) :
    ∀ fuel pos, pos ≤ bytes.length →
      (Cursor.eatStringAux bytes quote fuel pos).2 ≤ bytes.length := by
  intro fuel
  induction fuel with
  | zero => intro pos h; rw [Cursor.eatStringAux]; exact h
  | succ fuel ih =>
    intro pos h
    rw [Cursor.eatStringAux]
    split
    · rename_i hlt
      simp only []
      split
      · omega
      · split
        · rename_i hesc
          rw [Bool.and_eq_true, decide_eq_true_eq] at hesc
          split
          · exact ih (pos + 1 + 1) (by omega)
          · exact ih (pos + 1) (by omega)
        · exact ih (pos + 1) (by omega)
    · exact h

theorem eatDigitsAux_le (q : Nat → Bool) (bytes : List Nat) :
    ∀ fuel pos has, pos ≤ (Cursor.eatDigitsAux q bytes fuel pos has).2 := by
  intro fuel
  induction fuel with
  | zero => intro pos has; rw [Cursor.eatDigitsAux]
  | succ fuel ih =>
    intro pos has
    rw [Cursor.eatDigitsAux]
    split
    · simp only []
      split
      · exact Nat.le_trans (by omega) (ih (pos + 1) has)
      · split
        · exact Nat.le_trans (by omega) (ih (pos + 1) true)
        · exact Nat.le_refl pos
    · exact Nat.le_refl pos

theorem eatDigitsAux_bound (q : Nat → Bool) (bytes : List Nat) :
    ∀ fuel pos has, pos ≤ bytes.length →
      (Cursor.eatDigitsAux q bytes fuel pos has).2 ≤ bytes.length := by
  intro fuel
  induction fuel with
  | zero => intro pos has h; rw [Cursor.eatDigitsAux]; exact h
  | succ fuel ih =>
    intro pos has h
    rw [Cursor.eatDigitsAux]
    split
    · rename_i hlt
      simp only []
      split
      · exact ih (pos + 1) has (by omega)
      · split
        · exact ih (pos + 1) true (by omega)
        · exact h
    · exact h

theorem findByteIdx_some (q : Nat → Bool) :
    ∀ (l : List Nat) i, findByteIdx q l = some i →
      i < l.length ∧ q (byteAt l i) = true := by
  intro l
  induction l with
  | nil => intro i h; simp [findByteIdx] at h
  | cons b t ih =>
    intro i h
    rw [findByteIdx] at h
    split at h
    · cases h
      exact ⟨by simp, by simpa [byteAt] using (by assumption : q b = true)⟩
    · rw [Option.map_eq_some'] at h
      obtain ⟨i', hi', rfl⟩ := h
      obtain ⟨h1, h2⟩ := ih i' hi'
      exact ⟨by simp only [List.length_cons]; omega, by simpa [byteAt] using h2⟩

end Solar

namespace Solar

theorem eatWhile_pos (p : Nat → Bool) (c : Cursor) (h : c.pos ≤ c.bytes.length) :
    c.pos ≤ (Cursor.eatWhile p c).pos ∧ (Cursor.eatWhile p c).pos ≤ c.bytes.length
    ∧ (Cursor.eatWhile p c).bytes = c.bytes :=
  ⟨eatWhileAux_le p c.bytes _ c.pos, eatWhileAux_bound p c.bytes _ c.pos h, rfl⟩


end Solar

namespace Solar

theorem eatString_pos (q : Nat) (c : Cursor) (h : c.pos ≤ c.bytes.length) :
    c.pos ≤ (Cursor.eatString q c).2.pos ∧ (Cursor.eatString q c).2.pos ≤ c.bytes.length
    ∧ (Cursor.eatString q c).2.bytes = c.bytes :=
  ⟨eatStringAux_le c.bytes q _ c.pos, eatStringAux_bound c.bytes q _ c.pos h, rfl⟩

theorem eatDigits_pos (q : Nat → Bool) (c : Cursor) (h : c.pos ≤ c.bytes.length) :
    c.pos ≤ (Cursor.eatDigits q c).2.pos ∧ (Cursor.eatDigits q c).2.pos ≤ c.bytes.length
    ∧ (Cursor.eatDigits q c).2.bytes = c.bytes :=
  ⟨eatDigitsAux_le q c.bytes _ c.pos false, eatDigitsAux_bound q c.bytes _ c.pos false h, rfl⟩

theorem eatExponent_pos (c : Cursor) (h : c.pos ≤ c.bytes.length) :
    c.pos ≤ (Cursor.eatExponent c).2.pos ∧ (Cursor.eatExponent c).2.pos ≤ c.bytes.length
    ∧ (Cursor.eatExponent c).2.bytes = c.bytes := by
  rw [Cursor.eatExponent]
  by_cases h45 : (c.first == 45) = true
  · rw [if_pos h45]
    have hlt : c.pos < c.bytes.length := by
      apply Cursor.first_ne_zero
      rw [beq_iff_eq] at h45
      omega
    have := eatDigits_pos isAsciiDigit c.bump (by simpa [Cursor.bump] using hlt)
    rw [Cursor.eatDecimalDigits]
    simp only [Cursor.bump] at this ⊢
    exact ⟨by omega, this.2.1, this.2.2⟩
  · rw [if_neg h45]
    exact eatDigits_pos isAsciiDigit c h

theorem lineComment_pos (c : Cursor) (h : c.pos < c.bytes.length) :
    c.pos ≤ (Cursor.lineComment c).2.pos ∧ (Cursor.lineComment c).2.pos ≤ c.bytes.length
    ∧ (Cursor.lineComment c).2.bytes = c.bytes := by
  rw [Cursor.lineComment]
  simp only [Cursor.bump]
  cases hf : findByteIdx (fun b => b == 10 || b == 13) (c.bytes.drop (c.pos + 1)) with
  | some i =>
    obtain ⟨hi, _⟩ := findByteIdx_some _ _ i hf
    rw [List.length_drop] at hi
    simp only []
    refine ⟨?_, ?_, trivial⟩
    · show c.pos ≤ c.pos + 1 + i
      omega
    · show c.pos + 1 + i ≤ c.bytes.length
      omega
  | none =>
    simp only []
    refine ⟨?_, ?_, trivial⟩
    · show c.pos ≤ c.bytes.length
      omega
    · show c.bytes.length ≤ c.bytes.length
      omega

theorem blockComment_pos (c : Cursor) (h : c.pos < c.bytes.length) :
    c.pos ≤ (Cursor.blockComment c).2.pos ∧ (Cursor.blockComment c).2.pos ≤ c.bytes.length
    ∧ (Cursor.blockComment c).2.bytes = c.bytes := by
  rw [Cursor.blockComment]
  simp only [Cursor.bump]
  cases hf : Cursor.findStarSlash (c.bytes.drop (c.pos + 1)) with
  | some i =>
    obtain ⟨hi, _, _⟩ := findStarSlash_some _ i hf
    rw [List.length_drop] at hi
    simp only []
    refine ⟨?_, ?_, trivial⟩
    · show c.pos ≤ c.pos + 1 + (i + 2)
      omega
    · show c.pos + 1 + (i + 2) ≤ c.bytes.length
      omega
  | none =>
    simp only []
    refine ⟨?_, ?_, trivial⟩
    · show c.pos ≤ c.pos + 1 + (c.bytes.drop (c.pos + 1)).length
      omega
    · show c.pos + 1 + (c.bytes.drop (c.pos + 1)).length ≤ c.bytes.length
      rw [List.length_drop]
      omega

theorem identOrPrefixedLiteral_pos (c : Cursor) (fb : Nat) (h : c.pos ≤ c.bytes.length) :
    c.pos ≤ (Cursor.identOrPrefixedLiteral c fb).2.pos
    ∧ (Cursor.identOrPrefixedLiteral c fb).2.pos ≤ c.bytes.length
    ∧ (Cursor.identOrPrefixedLiteral c fb).2.bytes = c.bytes := by
  rw [Cursor.identOrPrefixedLiteral]
  have hw := eatWhile_pos is_id_continue_byte c h
  simp only []
  split
  · split
    · split
      · rename_i hq
        rw [Bool.or_eq_true, beq_iff_eq, beq_iff_eq] at hq
        have hqlt : (Cursor.eatWhile is_id_continue_byte c).pos
            < (Cursor.eatWhile is_id_continue_byte c).bytes.length := by
          apply Cursor.first_ne_zero
          rcases hq with h39 | h34
          · rw [h39]; omega
          · rw [h34]; omega
        have hes := eatString_pos (Cursor.eatWhile is_id_continue_byte c).first
          (Cursor.eatWhile is_id_continue_byte c).bump
          (by simp only [Cursor.bump]; omega)
        simp only [Cursor.bump] at hes ⊢
        rw [hw.2.2] at hqlt hes ⊢
        refine ⟨?_, ?_, ?_⟩
        · have h1 := hw.1
          have h2 := hes.1
          omega
        · have h2 := hes.2.1
          omega
        · rw [hes.2.2]
      · exact hw
    · exact hw
  · exact hw

end Solar

namespace Solar

theorem Cursor.bump_pos (c : Cursor) : c.bump.pos = c.pos + 1 := rfl

theorem Cursor.bump_bytes (c : Cursor) : c.bump.bytes = c.bytes := rfl

theorem eatDecimalDigits_pos (c : Cursor) (h : c.pos ≤ c.bytes.length) :
    c.pos ≤ (Cursor.eatDecimalDigits c).2.pos
    ∧ (Cursor.eatDecimalDigits c).2.pos ≤ c.bytes.length
    ∧ (Cursor.eatDecimalDigits c).2.bytes = c.bytes := eatDigits_pos isAsciiDigit c h

theorem eatHexadecimalDigits_pos (c : Cursor) (h : c.pos ≤ c.bytes.length) :
    c.pos ≤ (Cursor.eatHexadecimalDigits c).2.pos
    ∧ (Cursor.eatHexadecimalDigits c).2.pos ≤ c.bytes.length
    ∧ (Cursor.eatHexadecimalDigits c).2.bytes = c.bytes := eatDigits_pos isAsciiHexdigit c h

theorem rationalNumberAfterDot_pos (c : Cursor) (base : Base) (h : c.pos ≤ c.bytes.length) :
    c.pos ≤ (Cursor.rationalNumberAfterDot c base).2.pos
    ∧ (Cursor.rationalNumberAfterDot c base).2.pos ≤ c.bytes.length
    ∧ (Cursor.rationalNumberAfterDot c base).2.bytes = c.bytes := by
  rw [Cursor.rationalNumberAfterDot]
  have hd := eatDecimalDigits_pos c h
  simp only []
  split
  · rename_i hcond
    simp only []
    rw [Bool.or_eq_true, beq_iff_eq, beq_iff_eq] at hcond
    have hlt : (Cursor.eatDecimalDigits c).2.pos
        < (Cursor.eatDecimalDigits c).2.bytes.length := by
      apply Cursor.first_ne_zero
      rcases hcond with he | he <;> rw [he] <;> omega
    have hex := eatExponent_pos (Cursor.eatDecimalDigits c).2.bump
      (by rw [Cursor.bump_pos, Cursor.bump_bytes]; omega)
    rw [Cursor.bump_pos, Cursor.bump_bytes] at hex
    rw [hd.2.2] at hex hlt
    refine ⟨?_, ?_, ?_⟩
    · show c.pos ≤ (Cursor.eatExponent (Cursor.eatDecimalDigits c).2.bump).2.pos
      have h1 := hd.1
      have h2 := hex.1
      omega
    · show (Cursor.eatExponent (Cursor.eatDecimalDigits c).2.bump).2.pos ≤ c.bytes.length
      exact hex.2.1
    · show (Cursor.eatExponent (Cursor.eatDecimalDigits c).2.bump).2.bytes = c.bytes
      exact hex.2.2
  · exact hd

theorem numberSuffix_pos (c : Cursor) (base : Base) (h : c.pos ≤ c.bytes.length) :
    c.pos ≤ (Cursor.numberSuffix c base).2.pos
    ∧ (Cursor.numberSuffix c base).2.pos ≤ c.bytes.length
    ∧ (Cursor.numberSuffix c base).2.bytes = c.bytes := by
  rw [Cursor.numberSuffix]
  split
  · rename_i hcond
    rw [Bool.and_eq_true, beq_iff_eq] at hcond
    have hlt : c.pos < c.bytes.length := by
      apply Cursor.first_ne_zero
      rw [hcond.1]
      omega
    have hr := rationalNumberAfterDot_pos c.bump base
      (by rw [Cursor.bump_pos, Cursor.bump_bytes]; omega)
    rw [Cursor.bump_pos, Cursor.bump_bytes] at hr
    exact ⟨by have := hr.1; omega, hr.2.1, hr.2.2⟩
  · split
    · rename_i hcond2
      rw [Bool.or_eq_true, beq_iff_eq, beq_iff_eq] at hcond2
      have hlt : c.pos < c.bytes.length := by
        apply Cursor.first_ne_zero
        rcases hcond2 with he | he <;> rw [he] <;> omega
      have hex := eatExponent_pos c.bump
        (by rw [Cursor.bump_pos, Cursor.bump_bytes]; omega)
      rw [Cursor.bump_pos, Cursor.bump_bytes] at hex
      simp only []
      refine ⟨?_, ?_, ?_⟩
      · show c.pos ≤ (Cursor.eatExponent c.bump).2.pos
        have := hex.1
        omega
      · show (Cursor.eatExponent c.bump).2.pos ≤ c.bytes.length
        exact hex.2.1
      · show (Cursor.eatExponent c.bump).2.bytes = c.bytes
        exact hex.2.2
    · exact ⟨Nat.le_refl _, h, rfl⟩

theorem number_pos (c : Cursor) (fd : Nat) (h : c.pos ≤ c.bytes.length) :
    c.pos ≤ (Cursor.number c fd).2.pos
    ∧ (Cursor.number c fd).2.pos ≤ c.bytes.length
    ∧ (Cursor.number c fd).2.bytes = c.bytes := by
  rw [Cursor.number]
  split
  · split
    · -- 0b
      rename_i hc
      have hlt : c.pos < c.bytes.length := by
        apply Cursor.first_ne_zero
        rw [beq_iff_eq] at hc
        rw [hc]; omega
      have hd := eatDecimalDigits_pos c.bump (by rw [Cursor.bump_pos, Cursor.bump_bytes]; omega)
      rw [Cursor.bump_pos, Cursor.bump_bytes] at hd
      simp only []
      split
      · refine ⟨?_, ?_, ?_⟩
        · show c.pos ≤ (Cursor.eatDecimalDigits c.bump).2.pos
          have := hd.1
          omega
        · show (Cursor.eatDecimalDigits c.bump).2.pos ≤ c.bytes.length
          exact hd.2.1
        · show (Cursor.eatDecimalDigits c.bump).2.bytes = c.bytes
          exact hd.2.2
      · have hs := numberSuffix_pos (Cursor.eatDecimalDigits c.bump).2 Base.Binary
          (by rw [hd.2.2]; exact hd.2.1)
        rw [hd.2.2] at hs
        exact ⟨by have := hd.1; have := hs.1; omega, hs.2.1, hs.2.2⟩
    · split
      · -- 0o
        rename_i hc
        have hlt : c.pos < c.bytes.length := by
          apply Cursor.first_ne_zero
          rw [beq_iff_eq] at hc
          rw [hc]; omega
        have hd := eatDecimalDigits_pos c.bump
          (by rw [Cursor.bump_pos, Cursor.bump_bytes]; omega)
        rw [Cursor.bump_pos, Cursor.bump_bytes] at hd
        simp only []
        split
        · refine ⟨?_, ?_, ?_⟩
          · show c.pos ≤ (Cursor.eatDecimalDigits c.bump).2.pos
            have := hd.1
            omega
          · show (Cursor.eatDecimalDigits c.bump).2.pos ≤ c.bytes.length
            exact hd.2.1
          · show (Cursor.eatDecimalDigits c.bump).2.bytes = c.bytes
            exact hd.2.2
        · have hs := numberSuffix_pos (Cursor.eatDecimalDigits c.bump).2 Base.Octal
            (by rw [hd.2.2]; exact hd.2.1)
          rw [hd.2.2] at hs
          exact ⟨by have := hd.1; have := hs.1; omega, hs.2.1, hs.2.2⟩
      · split
        · -- 0x
          rename_i hc
          have hlt : c.pos < c.bytes.length := by
            apply Cursor.first_ne_zero
            rw [beq_iff_eq] at hc
            rw [hc]; omega
          have hd := eatHexadecimalDigits_pos c.bump
            (by rw [Cursor.bump_pos, Cursor.bump_bytes]; omega)
          rw [Cursor.bump_pos, Cursor.bump_bytes] at hd
          simp only []
          split
          · refine ⟨?_, ?_, ?_⟩
            · show c.pos ≤ (Cursor.eatHexadecimalDigits c.bump).2.pos
              have := hd.1
              omega
            · show (Cursor.eatHexadecimalDigits c.bump).2.pos ≤ c.bytes.length
              exact hd.2.1
            · show (Cursor.eatHexadecimalDigits c.bump).2.bytes = c.bytes
              exact hd.2.2
          · have hs := numberSuffix_pos (Cursor.eatHexadecimalDigits c.bump).2
              Base.Hexadecimal (by rw [hd.2.2]; exact hd.2.1)
            rw [hd.2.2] at hs
            exact ⟨by have := hd.1; have := hs.1; omega, hs.2.1, hs.2.2⟩
        · split
          · -- 0 then digit/underscore/dot/exponent: plain decimal
            have hd := eatDecimalDigits_pos c h
            have hs := numberSuffix_pos (Cursor.eatDecimalDigits c).2 Base.Decimal
              (by rw [hd.2.2]; exact hd.2.1)
            rw [hd.2.2] at hs
            simp only []
            exact ⟨by have := hd.1; have := hs.1; omega, hs.2.1, hs.2.2⟩
          · -- bare 0
            exact ⟨Nat.le_refl _, h, rfl⟩
  · -- nonzero first digit
    have hd := eatDecimalDigits_pos c h
    have hs := numberSuffix_pos (Cursor.eatDecimalDigits c).2 Base.Decimal
      (by rw [hd.2.2]; exact hd.2.1)
    rw [hd.2.2] at hs
    simp only []
    exact ⟨by have := hd.1; have := hs.1; omega, hs.2.1, hs.2.2⟩

end Solar

namespace Solar

theorem whitespace_pos (c : Cursor) (h : c.pos ≤ c.bytes.length) :
    c.pos ≤ (Cursor.whitespace c).2.pos ∧ (Cursor.whitespace c).2.pos ≤ c.bytes.length
    ∧ (Cursor.whitespace c).2.bytes = c.bytes := by
  rw [Cursor.whitespace]
  exact eatWhile_pos is_whitespace_byte c h

theorem bumpUtf8With_facts (c : Cursor) (fc : Nat) :
    c.pos ≤ (Cursor.bumpUtf8With c fc).pos ∧ (Cursor.bumpUtf8With c fc).pos ≤ c.pos + 3
    ∧ (Cursor.bumpUtf8With c fc).bytes = c.bytes := by
  have hpos : (Cursor.bumpUtf8With c fc).pos
      = c.pos + (if fc < 128 then 0 else if fc < 224 then 1 else if fc < 240 then 2 else 3) :=
    rfl
  have hbytes : (Cursor.bumpUtf8With c fc).bytes = c.bytes := rfl
  refine ⟨?_, ?_, hbytes⟩
  · rw [hpos]
    split_ifs <;> omega
  · rw [hpos]
    split_ifs <;> omega

theorem advanceTokenKind_pos (c : Cursor) (fc : Nat) (h : c.pos ≤ c.bytes.length) :
    c.pos ≤ (Cursor.advanceTokenKind c fc).2.pos
    ∧ (Cursor.advanceTokenKind c fc).2.pos ≤ c.bytes.length + 3
    ∧ (Cursor.advanceTokenKind c fc).2.bytes = c.bytes := by
  rw [Cursor.advanceTokenKind]
  by_cases h1 : (fc == 47) = true
  · rw [if_pos h1]
    by_cases hs1 : (c.first == 47) = true
    · rw [if_pos hs1]
      have hlt : c.pos < c.bytes.length := by
        apply Cursor.first_ne_zero
        rw [beq_iff_eq] at hs1
        omega
      have hl := lineComment_pos c hlt
      exact ⟨hl.1, by have := hl.2.1; omega, hl.2.2⟩
    rw [if_neg hs1]
    by_cases hs2 : (c.first == 42) = true
    · rw [if_pos hs2]
      have hlt : c.pos < c.bytes.length := by
        apply Cursor.first_ne_zero
        rw [beq_iff_eq] at hs2
        omega
      have hb := blockComment_pos c hlt
      exact ⟨hb.1, by have := hb.2.1; omega, hb.2.2⟩
    rw [if_neg hs2]
    refine ⟨Nat.le_refl _, ?_, rfl⟩
    show c.pos ≤ c.bytes.length + 3
    omega
  rw [if_neg h1]
  by_cases h2 : is_whitespace_byte fc = true
  · rw [if_pos h2]
    have hw := whitespace_pos c h
    exact ⟨hw.1, by have := hw.2.1; omega, hw.2.2⟩
  rw [if_neg h2]
  by_cases h3 : is_id_start_byte fc = true
  · rw [if_pos h3]
    have hi := identOrPrefixedLiteral_pos c fc h
    exact ⟨hi.1, by have := hi.2.1; omega, hi.2.2⟩
  rw [if_neg h3]
  by_cases h4 : isAsciiDigit fc = true
  · rw [if_pos h4]
    have hn := number_pos c fc h
    simp only []
    refine ⟨?_, ?_, ?_⟩
    · show c.pos ≤ (Cursor.number c fc).2.pos
      exact hn.1
    · show (Cursor.number c fc).2.pos ≤ c.bytes.length + 3
      have := hn.2.1
      omega
    · show (Cursor.number c fc).2.bytes = c.bytes
      exact hn.2.2
  rw [if_neg h4]
  by_cases h5 : (fc == 46 && isAsciiDigit c.first) = true
  · rw [if_pos h5]
    have hr := rationalNumberAfterDot_pos c Base.Decimal h
    simp only []
    refine ⟨?_, ?_, ?_⟩
    · show c.pos ≤ (Cursor.rationalNumberAfterDot c Base.Decimal).2.pos
      exact hr.1
    · show (Cursor.rationalNumberAfterDot c Base.Decimal).2.pos ≤ c.bytes.length + 3
      have := hr.2.1
      omega
    · show (Cursor.rationalNumberAfterDot c Base.Decimal).2.bytes = c.bytes
      exact hr.2.2
  rw [if_neg h5]
  by_cases hp0 : (fc == 59) = true
  · rw [if_pos hp0]
    refine ⟨Nat.le_refl _, ?_, rfl⟩
    show c.pos ≤ c.bytes.length + 3
    omega
  rw [if_neg hp0]
  by_cases hp1 : (fc == 44) = true
  · rw [if_pos hp1]
    refine ⟨Nat.le_refl _, ?_, rfl⟩
    show c.pos ≤ c.bytes.length + 3
    omega
  rw [if_neg hp1]
  by_cases hp2 : (fc == 46) = true
  · rw [if_pos hp2]
    refine ⟨Nat.le_refl _, ?_, rfl⟩
    show c.pos ≤ c.bytes.length + 3
    omega
  rw [if_neg hp2]
  by_cases hp3 : (fc == 40) = true
  · rw [if_pos hp3]
    refine ⟨Nat.le_refl _, ?_, rfl⟩
    show c.pos ≤ c.bytes.length + 3
    omega
  rw [if_neg hp3]
  by_cases hp4 : (fc == 41) = true
  · rw [if_pos hp4]
    refine ⟨Nat.le_refl _, ?_, rfl⟩
    show c.pos ≤ c.bytes.length + 3
    omega
  rw [if_neg hp4]
  by_cases hp5 : (fc == 123) = true
  · rw [if_pos hp5]
    refine ⟨Nat.le_refl _, ?_, rfl⟩
    show c.pos ≤ c.bytes.length + 3
    omega
  rw [if_neg hp5]
  by_cases hp6 : (fc == 125) = true
  · rw [if_pos hp6]
    refine ⟨Nat.le_refl _, ?_, rfl⟩
    show c.pos ≤ c.bytes.length + 3
    omega
  rw [if_neg hp6]
  by_cases hp7 : (fc == 91) = true
  · rw [if_pos hp7]
    refine ⟨Nat.le_refl _, ?_, rfl⟩
    show c.pos ≤ c.bytes.length + 3
    omega
  rw [if_neg hp7]
  by_cases hp8 : (fc == 93) = true
  · rw [if_pos hp8]
    refine ⟨Nat.le_refl _, ?_, rfl⟩
    show c.pos ≤ c.bytes.length + 3
    omega
  rw [if_neg hp8]
  by_cases hp9 : (fc == 126) = true
  · rw [if_pos hp9]
    refine ⟨Nat.le_refl _, ?_, rfl⟩
    show c.pos ≤ c.bytes.length + 3
    omega
  rw [if_neg hp9]
  by_cases hp10 : (fc == 63) = true
  · rw [if_pos hp10]
    refine ⟨Nat.le_refl _, ?_, rfl⟩
    show c.pos ≤ c.bytes.length + 3
    omega
  rw [if_neg hp10]
  by_cases hp11 : (fc == 58) = true
  · rw [if_pos hp11]
    refine ⟨Nat.le_refl _, ?_, rfl⟩
    show c.pos ≤ c.bytes.length + 3
    omega
  rw [if_neg hp11]
  by_cases hp12 : (fc == 61) = true
  · rw [if_pos hp12]
    refine ⟨Nat.le_refl _, ?_, rfl⟩
    show c.pos ≤ c.bytes.length + 3
    omega
  rw [if_neg hp12]
  by_cases hp13 : (fc == 33) = true
  · rw [if_pos hp13]
    refine ⟨Nat.le_refl _, ?_, rfl⟩
    show c.pos ≤ c.bytes.length + 3
    omega
  rw [if_neg hp13]
  by_cases hp14 : (fc == 60) = true
  · rw [if_pos hp14]
    refine ⟨Nat.le_refl _, ?_, rfl⟩
    show c.pos ≤ c.bytes.length + 3
    omega
  rw [if_neg hp14]
  by_cases hp15 : (fc == 62) = true
  · rw [if_pos hp15]
    refine ⟨Nat.le_refl _, ?_, rfl⟩
    show c.pos ≤ c.bytes.length + 3
    omega
  rw [if_neg hp15]
  by_cases hp16 : (fc == 45) = true
  · rw [if_pos hp16]
    refine ⟨Nat.le_refl _, ?_, rfl⟩
    show c.pos ≤ c.bytes.length + 3
    omega
  rw [if_neg hp16]
  by_cases hp17 : (fc == 38) = true
  · rw [if_pos hp17]
    refine ⟨Nat.le_refl _, ?_, rfl⟩
    show c.pos ≤ c.bytes.length + 3
    omega
  rw [if_neg hp17]
  by_cases hp18 : (fc == 124) = true
  · rw [if_pos hp18]
    refine ⟨Nat.le_refl _, ?_, rfl⟩
    show c.pos ≤ c.bytes.length + 3
    omega
  rw [if_neg hp18]
  by_cases hp19 : (fc == 43) = true
  · rw [if_pos hp19]
    refine ⟨Nat.le_refl _, ?_, rfl⟩
    show c.pos ≤ c.bytes.length + 3
    omega
  rw [if_neg hp19]
  by_cases hp20 : (fc == 42) = true
  · rw [if_pos hp20]
    refine ⟨Nat.le_refl _, ?_, rfl⟩
    show c.pos ≤ c.bytes.length + 3
    omega
  rw [if_neg hp20]
  by_cases hp21 : (fc == 94) = true
  · rw [if_pos hp21]
    refine ⟨Nat.le_refl _, ?_, rfl⟩
    show c.pos ≤ c.bytes.length + 3
    omega
  rw [if_neg hp21]
  by_cases hp22 : (fc == 37) = true
  · rw [if_pos hp22]
    refine ⟨Nat.le_refl _, ?_, rfl⟩
    show c.pos ≤ c.bytes.length + 3
    omega
  rw [if_neg hp22]
  by_cases hq : (fc == 39 || fc == 34) = true
  · rw [if_pos hq]
    have hs := eatString_pos fc c h
    simp only []
    refine ⟨?_, ?_, ?_⟩
    · show c.pos ≤ (Cursor.eatString fc c).2.pos
      exact hs.1
    · show (Cursor.eatString fc c).2.pos ≤ c.bytes.length + 3
      have := hs.2.1
      omega
    · show (Cursor.eatString fc c).2.bytes = c.bytes
      exact hs.2.2
  rw [if_neg hq]
  simp only []
  by_cases hna : (!(fc < 128 : Bool)) = true
  · rw [if_pos hna]
    have hu := bumpUtf8With_facts c fc
    refine ⟨?_, ?_, ?_⟩
    · show c.pos ≤ (Cursor.bumpUtf8With c fc).pos
      exact hu.1
    · show (Cursor.bumpUtf8With c fc).pos ≤ c.bytes.length + 3
      have := hu.2.1
      omega
    · show (Cursor.bumpUtf8With c fc).bytes = c.bytes
      exact hu.2.2
  · rw [if_neg hna]
    refine ⟨Nat.le_refl _, ?_, rfl⟩
    show c.pos ≤ c.bytes.length + 3
    omega

end Solar

namespace Solar

theorem lineComment_kind (c : Cursor) : (Cursor.lineComment c).1 ≠ RawTokenKind.Eof := by
  rw [Cursor.lineComment]
  simp

theorem blockComment_kind (c : Cursor) : (Cursor.blockComment c).1 ≠ RawTokenKind.Eof := by
  rw [Cursor.blockComment]
  simp

theorem identOrPrefixedLiteral_kind (c : Cursor) (fb : Nat) :
    (Cursor.identOrPrefixedLiteral c fb).1 ≠ RawTokenKind.Eof := by
  rw [Cursor.identOrPrefixedLiteral]
  simp only []
  split
  · split
    · split
      · simp
      · simp
    · simp
  · simp

/-- `advance_token_kind` never produces `Eof`: only the empty-input path of
`advance_token` does. -/
theorem advanceTokenKind_ne_eof (c : Cursor) (fc : Nat) :
    (Cursor.advanceTokenKind c fc).1 ≠ RawTokenKind.Eof := by
  rw [Cursor.advanceTokenKind]
  by_cases h1 : (fc == 47) = true
  · rw [if_pos h1]
    by_cases hs1 : (c.first == 47) = true
    · rw [if_pos hs1]
      exact lineComment_kind c
    rw [if_neg hs1]
    by_cases hs2 : (c.first == 42) = true
    · rw [if_pos hs2]
      exact blockComment_kind c
    rw [if_neg hs2]
    simp
  rw [if_neg h1]
  by_cases h2 : is_whitespace_byte fc = true
  · rw [if_pos h2]
    rw [Cursor.whitespace]
    simp
  rw [if_neg h2]
  by_cases h3 : is_id_start_byte fc = true
  · rw [if_pos h3]
    exact identOrPrefixedLiteral_kind c fc
  rw [if_neg h3]
  by_cases h4 : isAsciiDigit fc = true
  · rw [if_pos h4]
    simp
  rw [if_neg h4]
  by_cases h5 : (fc == 46 && isAsciiDigit c.first) = true
  · rw [if_pos h5]
    simp
  rw [if_neg h5]
  by_cases hp0 : (fc == 59) = true
  · rw [if_pos hp0]
    simp
  rw [if_neg hp0]
  by_cases hp1 : (fc == 44) = true
  · rw [if_pos hp1]
    simp
  rw [if_neg hp1]
  by_cases hp2 : (fc == 46) = true
  · rw [if_pos hp2]
    simp
  rw [if_neg hp2]
  by_cases hp3 : (fc == 40) = true
  · rw [if_pos hp3]
    simp
  rw [if_neg hp3]
  by_cases hp4 : (fc == 41) = true
  · rw [if_pos hp4]
    simp
  rw [if_neg hp4]
  by_cases hp5 : (fc == 123) = true
  · rw [if_pos hp5]
    simp
  rw [if_neg hp5]
  by_cases hp6 : (fc == 125) = true
  · rw [if_pos hp6]
    simp
  rw [if_neg hp6]
  by_cases hp7 : (fc == 91) = true
  · rw [if_pos hp7]
    simp
  rw [if_neg hp7]
  by_cases hp8 : (fc == 93) = true
  · rw [if_pos hp8]
    simp
  rw [if_neg hp8]
  by_cases hp9 : (fc == 126) = true
  · rw [if_pos hp9]
    simp
  rw [if_neg hp9]
  by_cases hp10 : (fc == 63) = true
  · rw [if_pos hp10]
    simp
  rw [if_neg hp10]
  by_cases hp11 : (fc == 58) = true
  · rw [if_pos hp11]
    simp
  rw [if_neg hp11]
  by_cases hp12 : (fc == 61) = true
  · rw [if_pos hp12]
    simp
  rw [if_neg hp12]
  by_cases hp13 : (fc == 33) = true
  · rw [if_pos hp13]
    simp
  rw [if_neg hp13]
  by_cases hp14 : (fc == 60) = true
  · rw [if_pos hp14]
    simp
  rw [if_neg hp14]
  by_cases hp15 : (fc == 62) = true
  · rw [if_pos hp15]
    simp
  rw [if_neg hp15]
  by_cases hp16 : (fc == 45) = true
  · rw [if_pos hp16]
    simp
  rw [if_neg hp16]
  by_cases hp17 : (fc == 38) = true
  · rw [if_pos hp17]
    simp
  rw [if_neg hp17]
  by_cases hp18 : (fc == 124) = true
  · rw [if_pos hp18]
    simp
  rw [if_neg hp18]
  by_cases hp19 : (fc == 43) = true
  · rw [if_pos hp19]
    simp
  rw [if_neg hp19]
  by_cases hp20 : (fc == 42) = true
  · rw [if_pos hp20]
    simp
  rw [if_neg hp20]
  by_cases hp21 : (fc == 94) = true
  · rw [if_pos hp21]
    simp
  rw [if_neg hp21]
  by_cases hp22 : (fc == 37) = true
  · rw [if_pos hp22]
    simp
  rw [if_neg hp22]
  by_cases hq : (fc == 39 || fc == 34) = true
  · rw [if_pos hq]
    simp
  rw [if_neg hq]
  simp

end Solar

namespace Solar

/-- Facts about one `advance_token` step: `Eof` exactly at the end of
input; otherwise the position strictly advances, by at most the token's
extent, and the length field is the `u32` cast of the position delta. -/
theorem advanceToken_facts (c : Cursor) :
    ((Cursor.advanceToken c).1.kind = RawTokenKind.Eof ↔ c.bytes.length ≤ c.pos)
    ∧ ((Cursor.advanceToken c).1.kind ≠ RawTokenKind.Eof →
        c.pos < c.bytes.length
        ∧ c.pos < (Cursor.advanceToken c).2.pos
        ∧ (Cursor.advanceToken c).2.pos ≤ c.bytes.length + 3
        ∧ (Cursor.advanceToken c).1.len
            = ((Cursor.advanceToken c).2.pos - c.pos) % u32Mod)
    ∧ (Cursor.advanceToken c).2.bytes = c.bytes := by
  rw [Cursor.advanceToken, Cursor.bumpRet]
  by_cases hlt : c.pos < c.bytes.length
  · rw [if_pos hlt]
    simp only []
    have hk := advanceTokenKind_ne_eof c.bump (byteAt c.bytes c.pos)
    have hp := advanceTokenKind_pos c.bump (byteAt c.bytes c.pos)
      (by rw [Cursor.bump_pos, Cursor.bump_bytes]; omega)
    rw [Cursor.bump_pos, Cursor.bump_bytes] at hp
    refine ⟨?_, ?_, ?_⟩
    · constructor
      · intro hke
        exact absurd hke hk
      · intro hge
        omega
    · intro _
      refine ⟨hlt, ?_, ?_, trivial⟩
      · have := hp.1
        omega
      · exact hp.2.1
    · exact hp.2.2
  · rw [if_neg hlt]
    simp only []
    refine ⟨?_, ?_, trivial⟩
    · constructor
      · intro _
        omega
      · intro _
        rfl
    · intro hne
      exact absurd rfl hne

/-- The token stream is no longer than the input: every non-`Eof` token
consumes at least one byte. -/
theorem lexAux_length (bytes : List Nat) :
    ∀ fuel pos, (lexAux bytes fuel pos).length ≤ bytes.length - pos := by
  intro fuel
  induction fuel with
  | zero => intro pos; simp [lexAux]
  | succ fuel ih =>
    intro pos
    rw [lexAux]
    split
    · simp
    · rename_i hne
      have hfacts := (advanceToken_facts ⟨bytes, pos⟩).2.1
        (by simpa using hne)
      simp only [List.length_cons]
      have := ih (Cursor.advanceToken ⟨bytes, pos⟩).2.pos
      have h1 : pos < bytes.length := hfacts.1
      have h2 : pos < (Cursor.advanceToken ⟨bytes, pos⟩).2.pos := hfacts.2.1
      omega

/-- C9: any non-`Eof` token returned by `advance_token` has length at least
1, the position strictly increases on it, and the iteration yields at most
`input.length` tokens before `Eof`. -/
theorem C9_nonEof_token_progress :
    (∀ (bytes : List Nat) (pos : Nat), bytes.length + 3 < u32Mod →
      (Cursor.advanceToken ⟨bytes, pos⟩).1.kind ≠ RawTokenKind.Eof →
        1 ≤ (Cursor.advanceToken ⟨bytes, pos⟩).1.len
        ∧ pos < (Cursor.advanceToken ⟨bytes, pos⟩).2.pos)
    ∧ (∀ input : List Nat, (lex input).length ≤ input.length) := by
  constructor
  · intro bytes pos hsmall hne
    have hfacts := (advanceToken_facts ⟨bytes, pos⟩).2.1 hne
    have hlen := hfacts.2.2.2
    have h1 : pos < (Cursor.advanceToken ⟨bytes, pos⟩).2.pos := hfacts.2.1
    have h2 : (Cursor.advanceToken ⟨bytes, pos⟩).2.pos ≤ bytes.length + 3 := hfacts.2.2.1
    have hmod : ((Cursor.advanceToken ⟨bytes, pos⟩).2.pos - pos) % u32Mod
        = (Cursor.advanceToken ⟨bytes, pos⟩).2.pos - pos := Nat.mod_eq_of_lt (by omega)
    rw [hlen, hmod]
    omega
  · intro input
    have := lexAux_length input (input.length + 1) 0
    rw [lex]
    omega

/-- C9 witness: a one-byte input produces a non-`Eof` token of length 1. -/
theorem C9_nonEof_token_progress_witness :
    ([59] : List Nat).length + 3 < u32Mod
    ∧ (Cursor.advanceToken ⟨[59], 0⟩).1.kind ≠ RawTokenKind.Eof
    ∧ 1 ≤ (Cursor.advanceToken ⟨[59], 0⟩).1.len
    ∧ 0 < (Cursor.advanceToken ⟨[59], 0⟩).2.pos := by
  refine ⟨by decide, by decide, ?_, ?_⟩
  · exact (C9_nonEof_token_progress.1 [59] 0 (by decide) (by decide)).1
  · exact (C9_nonEof_token_progress.1 [59] 0 (by decide) (by decide)).2

end Solar

namespace Solar

/-! ### UTF-8 validity: step lemmas -/

/-- The number of continuation bytes of a non-ASCII leading byte, matching
both `validUtf8Aux` and `bump_utf8_with`. -/
def contCount (b : Nat) : Nat := if b < 224 then 1 else if b < 240 then 2 else 3

theorem validUtf8Aux_nil (k : Nat) : validUtf8Aux k [] = true ↔ k = 0 := by
  cases k with
  | zero => simp [validUtf8Aux]
  | succ k => simp [validUtf8Aux]

theorem validUtf8Aux_cons_cont (k : Nat) (b : Nat) (t : List Nat)
    (h : validUtf8Aux (k + 1) (b :: t) = true) :
    isUtf8Cont b = true ∧ validUtf8Aux k t = true := by
  rw [validUtf8Aux] at h
  exact ⟨(Bool.and_eq_true _ _ |>.mp h).1, (Bool.and_eq_true _ _ |>.mp h).2⟩

theorem validUtf8Aux_cons_ascii (b : Nat) (t : List Nat)
    (hb : b < 128) (h : validUtf8Aux 0 (b :: t) = true) :
    validUtf8Aux 0 t = true := by
  rw [validUtf8Aux, if_pos hb] at h
  exact h

theorem validUtf8Aux_cons_lead (b : Nat) (t : List Nat)
    (hb : 128 ≤ b) (h : validUtf8Aux 0 (b :: t) = true) :
    192 ≤ b ∧ b < 248 ∧ validUtf8Aux (contCount b) t = true := by
  rw [validUtf8Aux, if_neg (by omega)] at h
  by_cases h192 : b < 192
  · rw [if_pos h192] at h
    cases h
  rw [if_neg h192] at h
  by_cases h224 : b < 224
  · rw [if_pos h224] at h
    exact ⟨by omega, by omega, by rw [contCount, if_pos h224]; exact h⟩
  rw [if_neg h224] at h
  by_cases h240 : b < 240
  · rw [if_pos h240] at h
    exact ⟨by omega, by omega, by rw [contCount, if_neg h224, if_pos h240]; exact h⟩
  rw [if_neg h240] at h
  by_cases h248 : b < 248
  · rw [if_pos h248] at h
    exact ⟨by omega, by omega, by rw [contCount, if_neg h224, if_neg h240]; exact h⟩
  · rw [if_neg h248] at h
    cases h

theorem validUtf8Aux_le_length (k : Nat) :
    ∀ l : List Nat, validUtf8Aux k l = true → k ≤ l.length := by
  induction k with
  | zero => intro l _; omega
  | succ k ih =>
    intro l h
    cases l with
    | nil => rw [validUtf8Aux] at h; cases h
    | cons b t =>
      have := (validUtf8Aux_cons_cont k b t h).2
      have := ih t this
      simp only [List.length_cons]
      omega

/-- Dropping at an ASCII byte inside a valid tail lands on a sequence
boundary. -/
theorem validUtf8_ascii_at :
    ∀ (l : List Nat) (k i : Nat), validUtf8Aux k l = true → byteAt l i < 128 →
      validUtf8Aux 0 (l.drop i) = true := by
  intro l
  induction l with
  | nil => intro k i _ _; simp only [List.drop_nil]; rfl
  | cons b t ih =>
    intro k i hv hb
    match i with
    | 0 =>
      rw [List.drop_zero]
      cases k with
      | zero => exact hv
      | succ k =>
        have := (validUtf8Aux_cons_cont k b t hv).1
        rw [isUtf8Cont, Bool.and_eq_true, decide_eq_true_eq, decide_eq_true_eq] at this
        have hb0 : byteAt (b :: t) 0 = b := rfl
        rw [hb0] at hb
        omega
    | j + 1 =>
      have hbj : byteAt (b :: t) (j + 1) = byteAt t j := rfl
      rw [hbj] at hb
      have hdrop : (b :: t).drop (j + 1) = t.drop j := rfl
      rw [hdrop]
      cases k with
      | zero =>
        by_cases h128 : b < 128
        · exact ih 0 j (validUtf8Aux_cons_ascii b t h128 hv) hb
        · have := validUtf8Aux_cons_lead b t (by omega) hv
          exact ih (contCount b) j this.2.2 hb
      | succ k =>
        exact ih k j (validUtf8Aux_cons_cont k b t hv).2 hb

/-- Consuming the pending continuation bytes reaches a boundary. -/
theorem validUtf8Aux_drop_conts (bytes : List Nat) :
    ∀ (k pos : Nat), validUtf8Aux k (bytes.drop pos) = true →
      validUtf8Aux 0 (bytes.drop (pos + k)) = true
      ∧ (0 < k → pos + k ≤ bytes.length) := by
  intro k
  induction k with
  | zero =>
    intro pos h
    exact ⟨by simpa using h, by omega⟩
  | succ k ih =>
    intro pos h
    have hlen := validUtf8Aux_le_length (k + 1) _ h
    rw [List.length_drop] at hlen
    have hlt : pos < bytes.length := by omega
    rw [drop_eq_byteAt_cons bytes pos hlt] at h
    have hc := validUtf8Aux_cons_cont k _ _ h
    have hrec := ih (pos + 1) hc.2
    have e : pos + (k + 1) = (pos + 1) + k := by omega
    rw [e]
    refine ⟨hrec.1, fun _ => ?_⟩
    cases Nat.eq_zero_or_pos k with
    | inl hk0 => omega
    | inr hkpos => have := hrec.2 hkpos; omega

end Solar

namespace Solar

theorem ascii_head_step (bytes : List Nat) (pos : Nat)
    (h : validUtf8Aux 0 (bytes.drop pos) = true) (hb : byteAt bytes pos < 128)
    (hlt : pos < bytes.length) :
    validUtf8Aux 0 (bytes.drop (pos + 1)) = true := by
  rw [drop_eq_byteAt_cons bytes pos hlt] at h
  exact validUtf8Aux_cons_ascii _ _ hb h

theorem lead_head_step (bytes : List Nat) (pos : Nat)
    (h : validUtf8Aux 0 (bytes.drop pos) = true) (hb : 128 ≤ byteAt bytes pos)
    (hlt : pos < bytes.length) :
    192 ≤ byteAt bytes pos ∧ byteAt bytes pos < 248
    ∧ validUtf8Aux (contCount (byteAt bytes pos)) (bytes.drop (pos + 1)) = true := by
  rw [drop_eq_byteAt_cons bytes pos hlt] at h
  exact validUtf8Aux_cons_lead _ _ hb h

theorem drop_valid_of_ge (bytes : List Nat) (pos : Nat) (h : bytes.length ≤ pos) :
    validUtf8Aux 0 (bytes.drop pos) = true := by
  rw [List.drop_eq_nil_of_le h]
  rfl

theorem eatWhileAux_valid (p : Nat → Bool) (hp : ∀ b, p b = true → b < 128)
    (bytes : List Nat) :
    ∀ fuel pos, validUtf8Aux 0 (bytes.drop pos) = true →
      validUtf8Aux 0 (bytes.drop (Cursor.eatWhileAux p bytes fuel pos)) = true := by
  intro fuel
  induction fuel with
  | zero => intro pos h; rw [Cursor.eatWhileAux]; exact h
  | succ fuel ih =>
    intro pos h
    rw [Cursor.eatWhileAux]
    split
    · rename_i hc
      rw [Bool.and_eq_true, decide_eq_true_eq] at hc
      exact ih (pos + 1) (ascii_head_step bytes pos h (hp _ hc.2) hc.1)
    · exact h

theorem eatDigitsAux_valid (q : Nat → Bool) (hq : ∀ b, q b = true → b < 128)
    (bytes : List Nat) :
    ∀ fuel pos has, validUtf8Aux 0 (bytes.drop pos) = true →
      validUtf8Aux 0 (bytes.drop (Cursor.eatDigitsAux q bytes fuel pos has).2) = true := by
  intro fuel
  induction fuel with
  | zero => intro pos has h; rw [Cursor.eatDigitsAux]; exact h
  | succ fuel ih =>
    intro pos has h
    rw [Cursor.eatDigitsAux]
    split
    · rename_i hlt
      simp only []
      split
      · rename_i h95
        rw [beq_iff_eq] at h95
        exact ih (pos + 1) has (ascii_head_step bytes pos h (by omega) hlt)
      · split
        · rename_i hqb
          exact ih (pos + 1) true (ascii_head_step bytes pos h (hq _ hqb) hlt)
        · exact h
    · exact h

theorem eatStringAux_valid (bytes : List Nat) (quote : Nat) (hquote : quote < 128) :
    ∀ fuel pos k, bytes.length + 1 ≤ fuel + pos → pos ≤ bytes.length →
      validUtf8Aux k (bytes.drop pos) = true →
      validUtf8Aux 0 (bytes.drop (Cursor.eatStringAux bytes quote fuel pos).2) = true := by
  intro fuel
  induction fuel with
  | zero => intro pos k hfuel hpos _; omega
  | succ fuel ih =>
    intro pos k hfuel hpos h
    rw [Cursor.eatStringAux]
    by_cases hpl : pos < bytes.length
    · rw [if_pos hpl]
      simp only []
      have hcons := drop_eq_byteAt_cons bytes pos hpl
      by_cases hqb : (byteAt bytes pos == quote) = true
      · rw [if_pos hqb]
        rw [beq_iff_eq] at hqb
        cases k with
        | zero => exact ascii_head_step bytes pos h (by omega) hpl
        | succ k =>
          rw [hcons] at h
          have := (validUtf8Aux_cons_cont k _ _ h).1
          rw [isUtf8Cont, Bool.and_eq_true, decide_eq_true_eq, decide_eq_true_eq] at this
          omega
      · rw [if_neg hqb]
        have hex2 : ∃ k2, validUtf8Aux k2 (bytes.drop (pos + 1)) = true := by
          cases k with
          | zero =>
            by_cases h128 : byteAt bytes pos < 128
            · exact ⟨0, ascii_head_step bytes pos h h128 hpl⟩
            · rw [hcons] at h
              exact ⟨_, (validUtf8Aux_cons_lead _ _ (by omega) h).2.2⟩
          | succ k =>
            rw [hcons] at h
            exact ⟨k, (validUtf8Aux_cons_cont k _ _ h).2⟩
        obtain ⟨k2, hk2⟩ := hex2
        by_cases hesc : (byteAt bytes pos == 92 && decide (pos + 1 < bytes.length)) = true
        · rw [if_pos hesc]
          rw [Bool.and_eq_true, beq_iff_eq, decide_eq_true_eq] at hesc
          -- the byte is an ASCII backslash, so we are at a boundary
          have hk0 : validUtf8Aux 0 (bytes.drop (pos + 1)) = true := by
            cases k with
            | zero => exact ascii_head_step bytes pos h (by omega) hpl
            | succ k =>
              rw [hcons] at h
              have := (validUtf8Aux_cons_cont k _ _ h).1
              rw [isUtf8Cont, Bool.and_eq_true, decide_eq_true_eq, decide_eq_true_eq] at this
              omega
          split
          · rename_i hskip
            rw [Bool.or_eq_true, beq_iff_eq, beq_iff_eq] at hskip
            have hnext128 : byteAt bytes (pos + 1) < 128 := by
              rcases hskip with he | he <;> omega
            have hk0b := ascii_head_step bytes (pos + 1) hk0 hnext128 hesc.2
            exact ih (pos + 1 + 1) 0 (by omega) (by omega) hk0b
          · exact ih (pos + 1) 0 (by omega) (by omega) hk0
        · rw [if_neg hesc]
          exact ih (pos + 1) k2 (by omega) (by omega) hk2
    · rw [if_neg hpl]
      exact drop_valid_of_ge bytes pos (by omega)

end Solar

namespace Solar

theorem is_whitespace_byte_lt (b : Nat) (h : is_whitespace_byte b = true) : b < 128 := by
  rw [is_whitespace_byte] at h
  simp only [Bool.or_eq_true, beq_iff_eq] at h
  omega

theorem is_id_start_byte_lt (b : Nat) (h : is_id_start_byte b = true) : b < 128 := by
  rw [is_id_start_byte] at h
  simp only [Bool.or_eq_true, Bool.and_eq_true, beq_iff_eq, decide_eq_true_eq] at h
  omega

theorem is_id_continue_byte_lt (b : Nat) (h : is_id_continue_byte b = true) : b < 128 := by
  rw [is_id_continue_byte] at h
  simp only [Bool.or_eq_true, Bool.and_eq_true, decide_eq_true_eq] at h
  rcases h with h | h
  · exact is_id_start_byte_lt b h
  · omega

theorem isAsciiDigit_lt (b : Nat) (h : isAsciiDigit b = true) : b < 128 := by
  rw [isAsciiDigit] at h
  simp only [Bool.and_eq_true, decide_eq_true_eq] at h
  omega

theorem isAsciiHexdigit_lt (b : Nat) (h : isAsciiHexdigit b = true) : b < 128 := by
  rw [isAsciiHexdigit] at h
  simp only [Bool.or_eq_true, Bool.and_eq_true, decide_eq_true_eq] at h
  rcases h with (h | h) | h
  · exact isAsciiDigit_lt b h
  · omega
  · omega

theorem valid_first_bump (c : Cursor) (X : Nat) (hX : X < 128) (hX0 : X ≠ 0)
    (hf : (c.first == X) = true) (h : validUtf8Aux 0 (c.bytes.drop c.pos) = true) :
    c.pos < c.bytes.length ∧ validUtf8Aux 0 (c.bytes.drop (c.pos + 1)) = true := by
  rw [beq_iff_eq] at hf
  have hlt : c.pos < c.bytes.length := Cursor.first_ne_zero (by rw [hf]; exact hX0)
  rw [Cursor.first] at hf
  exact ⟨hlt, ascii_head_step _ _ h (by omega) hlt⟩

theorem eatWhile_valid (p : Nat → Bool) (hp : ∀ b, p b = true → b < 128) (c : Cursor)
    (h : validUtf8Aux 0 (c.bytes.drop c.pos) = true) :
    validUtf8Aux 0 (c.bytes.drop (Cursor.eatWhile p c).pos) = true :=
  eatWhileAux_valid p hp c.bytes _ c.pos h

theorem eatDigits_valid (q : Nat → Bool) (hq : ∀ b, q b = true → b < 128) (c : Cursor)
    (h : validUtf8Aux 0 (c.bytes.drop c.pos) = true) :
    validUtf8Aux 0 (c.bytes.drop (Cursor.eatDigits q c).2.pos) = true :=
  eatDigitsAux_valid q hq c.bytes _ c.pos false h

theorem eatString_valid (q : Nat) (hq : q < 128) (c : Cursor)
    (hpos : c.pos ≤ c.bytes.length)
    (h : validUtf8Aux 0 (c.bytes.drop c.pos) = true) :
    validUtf8Aux 0 (c.bytes.drop (Cursor.eatString q c).2.pos) = true :=
  eatStringAux_valid c.bytes q hq _ c.pos 0 (by omega) hpos h

theorem eatExponent_valid (c : Cursor)
    (h : validUtf8Aux 0 (c.bytes.drop c.pos) = true) :
    validUtf8Aux 0 (c.bytes.drop (Cursor.eatExponent c).2.pos) = true := by
  rw [Cursor.eatExponent]
  by_cases h45 : (c.first == 45) = true
  · rw [if_pos h45]
    have hb := valid_first_bump c 45 (by omega) (by omega) h45 h
    rw [Cursor.eatDecimalDigits]
    have := eatDigits_valid isAsciiDigit isAsciiDigit_lt c.bump
      (by rw [Cursor.bump_bytes, Cursor.bump_pos]; exact hb.2)
    rw [Cursor.bump_bytes] at this
    exact this
  · rw [if_neg h45]
    exact eatDigits_valid isAsciiDigit isAsciiDigit_lt c h

theorem lineComment_valid (c : Cursor) (hf : (c.first == 47) = true)
    (h : validUtf8Aux 0 (c.bytes.drop c.pos) = true) :
    validUtf8Aux 0 (c.bytes.drop (Cursor.lineComment c).2.pos) = true := by
  have hb := valid_first_bump c 47 (by omega) (by omega) hf h
  rw [Cursor.lineComment]
  simp only [Cursor.bump]
  cases hfi : findByteIdx (fun b => b == 10 || b == 13) (c.bytes.drop (c.pos + 1)) with
  | some i =>
    obtain ⟨hi, hq⟩ := findByteIdx_some _ _ i hfi
    simp only []
    have hlt128 : byteAt (c.bytes.drop (c.pos + 1)) i < 128 := by
      simp only [Bool.or_eq_true, beq_iff_eq] at hq
      rcases hq with hq | hq <;> omega
    have := validUtf8_ascii_at (c.bytes.drop (c.pos + 1)) 0 i hb.2 hlt128
    rw [List.drop_drop] at this
    exact this
  | none =>
    simp only []
    exact drop_valid_of_ge _ _ (by omega)

theorem blockComment_valid (c : Cursor) (hf : (c.first == 42) = true)
    (h : validUtf8Aux 0 (c.bytes.drop c.pos) = true) :
    validUtf8Aux 0 (c.bytes.drop (Cursor.blockComment c).2.pos) = true := by
  have hb := valid_first_bump c 42 (by omega) (by omega) hf h
  rw [Cursor.blockComment]
  simp only [Cursor.bump]
  cases hfi : Cursor.findStarSlash (c.bytes.drop (c.pos + 1)) with
  | some i =>
    obtain ⟨hi, h42, h47⟩ := findStarSlash_some _ i hfi
    rw [List.length_drop] at hi
    simp only []
    rw [byteAt_drop] at h42 h47
    have hstar : validUtf8Aux 0 (c.bytes.drop (c.pos + 1 + i)) = true := by
      have := validUtf8_ascii_at (c.bytes.drop (c.pos + 1)) 0 i hb.2
        (by rw [byteAt_drop, h42]; omega)
      rw [List.drop_drop] at this
      exact this
    have hs1 : validUtf8Aux 0 (c.bytes.drop (c.pos + 1 + i + 1)) = true :=
      ascii_head_step _ _ hstar (by rw [h42]; omega) (by omega)
    have hs2 : validUtf8Aux 0 (c.bytes.drop (c.pos + 1 + i + 1 + 1)) = true := by
      apply ascii_head_step _ _ hs1 _ (by omega)
      have e : c.pos + 1 + i + 1 = c.pos + 1 + (i + 1) := by omega
      rw [e, h47]
      omega
    have e2 : c.pos + 1 + (i + 2) = c.pos + 1 + i + 1 + 1 := by omega
    rw [e2]
    exact hs2
  | none =>
    simp only []
    exact drop_valid_of_ge _ _ (by rw [List.length_drop]; omega)

end Solar

namespace Solar

theorem whitespace_valid (c : Cursor)
    (h : validUtf8Aux 0 (c.bytes.drop c.pos) = true) :
    validUtf8Aux 0 (c.bytes.drop (Cursor.whitespace c).2.pos) = true := by
  rw [Cursor.whitespace]
  exact eatWhile_valid is_whitespace_byte is_whitespace_byte_lt c h

theorem identOrPrefixedLiteral_valid (c : Cursor) (fb : Nat)
    (hpos : c.pos ≤ c.bytes.length)
    (h : validUtf8Aux 0 (c.bytes.drop c.pos) = true) :
    validUtf8Aux 0 (c.bytes.drop (Cursor.identOrPrefixedLiteral c fb).2.pos) = true := by
  rw [Cursor.identOrPrefixedLiteral]
  have hw := eatWhile_valid is_id_continue_byte is_id_continue_byte_lt c h
  have hwp := eatWhile_pos is_id_continue_byte c hpos
  simp only []
  split
  · split
    · split
      · rename_i hq
        have hqlt : (Cursor.eatWhile is_id_continue_byte c).pos
            < (Cursor.eatWhile is_id_continue_byte c).bytes.length := by
          apply Cursor.first_ne_zero
          rw [Bool.or_eq_true, beq_iff_eq, beq_iff_eq] at hq
          rcases hq with he | he <;> rw [he] <;> omega
        have hstep : validUtf8Aux 0
            ((Cursor.eatWhile is_id_continue_byte c).bytes.drop
              ((Cursor.eatWhile is_id_continue_byte c).pos + 1)) = true := by
          apply ascii_head_step _ _ (by rw [hwp.2.2]; exact hw) _ hqlt
          rw [Bool.or_eq_true, beq_iff_eq, beq_iff_eq] at hq
          rw [Cursor.first] at hq
          rcases hq with he | he <;> rw [hwp.2.2] at he ⊢ <;> rw [he] <;> omega
        have hes := eatString_valid (Cursor.eatWhile is_id_continue_byte c).first
          (by
            rw [Bool.or_eq_true, beq_iff_eq, beq_iff_eq] at hq
            rcases hq with he | he <;> rw [he] <;> omega)
          (Cursor.eatWhile is_id_continue_byte c).bump
          (by rw [Cursor.bump_pos, Cursor.bump_bytes]; omega)
          (by rw [Cursor.bump_pos, Cursor.bump_bytes]; exact hstep)
        rw [Cursor.bump_bytes] at hes
        rw [hwp.2.2] at hes hstep
        simp only [Cursor.bump] at hes ⊢
        rw [hwp.2.2] at hes ⊢
        exact hes
      · exact hw
    · exact hw
  · exact hw

theorem rationalNumberAfterDot_valid (c : Cursor) (base : Base)
    (hpos : c.pos ≤ c.bytes.length)
    (h : validUtf8Aux 0 (c.bytes.drop c.pos) = true) :
    validUtf8Aux 0 (c.bytes.drop (Cursor.rationalNumberAfterDot c base).2.pos) = true := by
  rw [Cursor.rationalNumberAfterDot]
  have hd : validUtf8Aux 0 (c.bytes.drop (Cursor.eatDecimalDigits c).2.pos) = true :=
    eatDigits_valid isAsciiDigit isAsciiDigit_lt c h
  have hdp := eatDecimalDigits_pos c hpos
  simp only []
  split
  · rename_i hcond
    simp only []
    have hdv : validUtf8Aux 0
        ((Cursor.eatDecimalDigits c).2.bytes.drop
          ((Cursor.eatDecimalDigits c).2.pos + 1)) = true := by
      rw [hdp.2.2]
      apply ascii_head_step _ _ hd _ (by
        apply Nat.lt_of_lt_of_le _ (Nat.le_refl c.bytes.length)
        have : (Cursor.eatDecimalDigits c).2.pos < (Cursor.eatDecimalDigits c).2.bytes.length := by
          apply Cursor.first_ne_zero
          rw [Bool.or_eq_true, beq_iff_eq, beq_iff_eq] at hcond
          rcases hcond with he | he <;> rw [he] <;> omega
        rw [hdp.2.2] at this
        exact this)
      rw [Bool.or_eq_true, beq_iff_eq, beq_iff_eq] at hcond
      rw [Cursor.first, hdp.2.2] at hcond
      rcases hcond with he | he <;> rw [he] <;> omega
    have hex := eatExponent_valid (Cursor.eatDecimalDigits c).2.bump
      (by rw [Cursor.bump_pos, Cursor.bump_bytes]; exact hdv)
    rw [Cursor.bump_bytes] at hex
    rw [hdp.2.2] at hex
    show validUtf8Aux 0
      (c.bytes.drop (Cursor.eatExponent (Cursor.eatDecimalDigits c).2.bump).2.pos) = true
    exact hex
  · exact hd

theorem numberSuffix_valid (c : Cursor) (base : Base)
    (hpos : c.pos ≤ c.bytes.length)
    (h : validUtf8Aux 0 (c.bytes.drop c.pos) = true) :
    validUtf8Aux 0 (c.bytes.drop (Cursor.numberSuffix c base).2.pos) = true := by
  rw [Cursor.numberSuffix]
  split
  · rename_i hcond
    rw [Bool.and_eq_true] at hcond
    have hb := valid_first_bump c 46 (by omega) (by omega) hcond.1 h
    have hr := rationalNumberAfterDot_valid c.bump base
      (by rw [Cursor.bump_pos, Cursor.bump_bytes]; omega)
      (by rw [Cursor.bump_pos, Cursor.bump_bytes]; exact hb.2)
    rw [Cursor.bump_bytes] at hr
    exact hr
  · split
    · rename_i hcond2
      have hb : c.pos < c.bytes.length ∧ validUtf8Aux 0 (c.bytes.drop (c.pos + 1)) = true := by
        rw [Bool.or_eq_true] at hcond2
        rcases hcond2 with he | he
        · exact valid_first_bump c 101 (by omega) (by omega) he h
        · exact valid_first_bump c 69 (by omega) (by omega) he h
      have hex := eatExponent_valid c.bump
        (by rw [Cursor.bump_pos, Cursor.bump_bytes]; exact hb.2)
      rw [Cursor.bump_bytes] at hex
      simp only []
      show validUtf8Aux 0 (c.bytes.drop (Cursor.eatExponent c.bump).2.pos) = true
      exact hex
    · exact h

theorem number_valid (c : Cursor) (fd : Nat)
    (hpos : c.pos ≤ c.bytes.length)
    (h : validUtf8Aux 0 (c.bytes.drop c.pos) = true) :
    validUtf8Aux 0 (c.bytes.drop (Cursor.number c fd).2.pos) = true := by
  rw [Cursor.number]
  have hbase : ∀ X : Nat, X < 128 → X ≠ 0 → (c.first == X) = true →
      ∀ q : Nat → Bool, (∀ b, q b = true → b < 128) →
        validUtf8Aux 0 (c.bytes.drop (Cursor.eatDigits q c.bump).2.pos) = true
        ∧ c.pos < c.bytes.length := by
    intro X hX hX0 hfX q hq
    have hb := valid_first_bump c X hX hX0 hfX h
    have hd := eatDigits_valid q hq c.bump
      (by rw [Cursor.bump_pos, Cursor.bump_bytes]; exact hb.2)
    rw [Cursor.bump_bytes] at hd
    exact ⟨hd, hb.1⟩
  split
  · split
    · rename_i hc
      have hb := hbase 98 (by omega) (by omega) hc isAsciiDigit isAsciiDigit_lt
      have hb1 : validUtf8Aux 0
          (c.bytes.drop (Cursor.eatDecimalDigits c.bump).2.pos) = true := hb.1
      have hdp := eatDecimalDigits_pos c.bump
        (by rw [Cursor.bump_pos, Cursor.bump_bytes]; omega)
      rw [Cursor.bump_pos, Cursor.bump_bytes] at hdp
      simp only []
      split
      · exact hb1
      · have := numberSuffix_valid (Cursor.eatDecimalDigits c.bump).2 Base.Binary
          (by rw [hdp.2.2]; exact hdp.2.1) (by rw [hdp.2.2]; exact hb1)
        rw [hdp.2.2] at this
        exact this
    · split
      · rename_i hc
        have hb := hbase 111 (by omega) (by omega) hc isAsciiDigit isAsciiDigit_lt
        have hb1 : validUtf8Aux 0
            (c.bytes.drop (Cursor.eatDecimalDigits c.bump).2.pos) = true := hb.1
        have hdp := eatDecimalDigits_pos c.bump
          (by rw [Cursor.bump_pos, Cursor.bump_bytes]; omega)
        rw [Cursor.bump_pos, Cursor.bump_bytes] at hdp
        simp only []
        split
        · exact hb1
        · have := numberSuffix_valid (Cursor.eatDecimalDigits c.bump).2 Base.Octal
            (by rw [hdp.2.2]; exact hdp.2.1) (by rw [hdp.2.2]; exact hb1)
          rw [hdp.2.2] at this
          exact this
      · split
        · rename_i hc
          have hb := hbase 120 (by omega) (by omega) hc isAsciiHexdigit isAsciiHexdigit_lt
          have hb1 : validUtf8Aux 0
              (c.bytes.drop (Cursor.eatHexadecimalDigits c.bump).2.pos) = true := hb.1
          have hdp := eatHexadecimalDigits_pos c.bump
            (by rw [Cursor.bump_pos, Cursor.bump_bytes]; omega)
          rw [Cursor.bump_pos, Cursor.bump_bytes] at hdp
          simp only []
          split
          · exact hb1
          · have := numberSuffix_valid (Cursor.eatHexadecimalDigits c.bump).2
              Base.Hexadecimal (by rw [hdp.2.2]; exact hdp.2.1) (by rw [hdp.2.2]; exact hb1)
            rw [hdp.2.2] at this
            exact this
        · split
          · have hd : validUtf8Aux 0
                (c.bytes.drop (Cursor.eatDecimalDigits c).2.pos) = true :=
              eatDigits_valid isAsciiDigit isAsciiDigit_lt c h
            have hdp := eatDecimalDigits_pos c hpos
            have := numberSuffix_valid (Cursor.eatDecimalDigits c).2 Base.Decimal
              (by rw [hdp.2.2]; exact hdp.2.1) (by rw [hdp.2.2]; exact hd)
            rw [hdp.2.2] at this
            simp only []
            exact this
          · exact h
  · have hd : validUtf8Aux 0
        (c.bytes.drop (Cursor.eatDecimalDigits c).2.pos) = true :=
      eatDigits_valid isAsciiDigit isAsciiDigit_lt c h
    have hdp := eatDecimalDigits_pos c hpos
    have := numberSuffix_valid (Cursor.eatDecimalDigits c).2 Base.Decimal
      (by rw [hdp.2.2]; exact hdp.2.1) (by rw [hdp.2.2]; exact hd)
    rw [hdp.2.2] at this
    simp only []
    exact this

end Solar

namespace Solar

theorem advanceTokenKind_nonascii (c : Cursor) (fc : Nat) (hfc : 128 ≤ fc) :
    Cursor.advanceTokenKind c fc = (RawTokenKind.Unknown, Cursor.bumpUtf8With c fc) := by
  have hne : ∀ X : Nat, X < 128 → (fc == X) = false := by
    intro X hX
    rw [beq_eq_false_iff_ne]
    omega
  have hws : is_whitespace_byte fc = false := by
    cases hb : is_whitespace_byte fc
    · rfl
    · exact absurd (is_whitespace_byte_lt fc hb) (by omega)
  have hid : is_id_start_byte fc = false := by
    cases hb : is_id_start_byte fc
    · rfl
    · exact absurd (is_id_start_byte_lt fc hb) (by omega)
  have hdig : isAsciiDigit fc = false := by
    cases hb : isAsciiDigit fc
    · rfl
    · exact absurd (isAsciiDigit_lt fc hb) (by omega)
  have hdec : decide (fc < 128) = false := by
    rw [decide_eq_false_iff_not]
    omega
  rw [Cursor.advanceTokenKind]
  simp only [hne 47 (by omega), hne 46 (by omega), hne 59 (by omega), hne 44 (by omega),
    hne 40 (by omega), hne 41 (by omega), hne 123 (by omega), hne 125 (by omega),
    hne 91 (by omega), hne 93 (by omega), hne 126 (by omega), hne 63 (by omega),
    hne 58 (by omega), hne 61 (by omega), hne 33 (by omega), hne 60 (by omega),
    hne 62 (by omega), hne 45 (by omega), hne 38 (by omega), hne 124 (by omega),
    hne 43 (by omega), hne 42 (by omega), hne 94 (by omega), hne 37 (by omega),
    hne 39 (by omega), hne 34 (by omega), hws, hid, hdig, hdec,
    Bool.false_and, Bool.false_or, Bool.not_false, Bool.false_eq_true, if_false, if_true,
    ite_false, ite_true]

end Solar

namespace Solar

theorem advanceTokenKind_valid (c : Cursor) (fc : Nat) (hfc : fc < 128)
    (hpos : c.pos ≤ c.bytes.length)
    (h : validUtf8Aux 0 (c.bytes.drop c.pos) = true) :
    validUtf8Aux 0 (c.bytes.drop (Cursor.advanceTokenKind c fc).2.pos) = true
    ∧ (Cursor.advanceTokenKind c fc).2.pos ≤ c.bytes.length := by
  rw [Cursor.advanceTokenKind]
  by_cases h1 : (fc == 47) = true
  · rw [if_pos h1]
    by_cases hs1 : (c.first == 47) = true
    · rw [if_pos hs1]
      have hlt : c.pos < c.bytes.length := by
        apply Cursor.first_ne_zero
        rw [beq_iff_eq] at hs1
        omega
      exact ⟨lineComment_valid c hs1 h, (lineComment_pos c hlt).2.1⟩
    rw [if_neg hs1]
    by_cases hs2 : (c.first == 42) = true
    · rw [if_pos hs2]
      have hlt : c.pos < c.bytes.length := by
        apply Cursor.first_ne_zero
        rw [beq_iff_eq] at hs2
        omega
      exact ⟨blockComment_valid c hs2 h, (blockComment_pos c hlt).2.1⟩
    rw [if_neg hs2]
    exact ⟨h, hpos⟩
  rw [if_neg h1]
  by_cases h2 : is_whitespace_byte fc = true
  · rw [if_pos h2]
    exact ⟨whitespace_valid c h, (whitespace_pos c hpos).2.1⟩
  rw [if_neg h2]
  by_cases h3 : is_id_start_byte fc = true
  · rw [if_pos h3]
    exact ⟨identOrPrefixedLiteral_valid c fc hpos h, (identOrPrefixedLiteral_pos c fc hpos).2.1⟩
  rw [if_neg h3]
  by_cases h4 : isAsciiDigit fc = true
  · rw [if_pos h4]
    simp only []
    refine ⟨?_, ?_⟩
    · show validUtf8Aux 0 (c.bytes.drop (Cursor.number c fc).2.pos) = true
      exact number_valid c fc hpos h
    · show (Cursor.number c fc).2.pos ≤ c.bytes.length
      exact (number_pos c fc hpos).2.1
  rw [if_neg h4]
  by_cases h5 : (fc == 46 && isAsciiDigit c.first) = true
  · rw [if_pos h5]
    simp only []
    refine ⟨?_, ?_⟩
    · show validUtf8Aux 0 (c.bytes.drop (Cursor.rationalNumberAfterDot c Base.Decimal).2.pos)
        = true
      exact rationalNumberAfterDot_valid c Base.Decimal hpos h
    · show (Cursor.rationalNumberAfterDot c Base.Decimal).2.pos ≤ c.bytes.length
      exact (rationalNumberAfterDot_pos c Base.Decimal hpos).2.1
  rw [if_neg h5]
  by_cases hp0 : (fc == 59) = true
  · rw [if_pos hp0]
    exact ⟨h, hpos⟩
  rw [if_neg hp0]
  by_cases hp1 : (fc == 44) = true
  · rw [if_pos hp1]
    exact ⟨h, hpos⟩
  rw [if_neg hp1]
  by_cases hp2 : (fc == 46) = true
  · rw [if_pos hp2]
    exact ⟨h, hpos⟩
  rw [if_neg hp2]
  by_cases hp3 : (fc == 40) = true
  · rw [if_pos hp3]
    exact ⟨h, hpos⟩
  rw [if_neg hp3]
  by_cases hp4 : (fc == 41) = true
  · rw [if_pos hp4]
    exact ⟨h, hpos⟩
  rw [if_neg hp4]
  by_cases hp5 : (fc == 123) = true
  · rw [if_pos hp5]
    exact ⟨h, hpos⟩
  rw [if_neg hp5]
  by_cases hp6 : (fc == 125) = true
  · rw [if_pos hp6]
    exact ⟨h, hpos⟩
  rw [if_neg hp6]
  by_cases hp7 : (fc == 91) = true
  · rw [if_pos hp7]
    exact ⟨h, hpos⟩
  rw [if_neg hp7]
  by_cases hp8 : (fc == 93) = true
  · rw [if_pos hp8]
    exact ⟨h, hpos⟩
  rw [if_neg hp8]
  by_cases hp9 : (fc == 126) = true
  · rw [if_pos hp9]
    exact ⟨h, hpos⟩
  rw [if_neg hp9]
  by_cases hp10 : (fc == 63) = true
  · rw [if_pos hp10]
    exact ⟨h, hpos⟩
  rw [if_neg hp10]
  by_cases hp11 : (fc == 58) = true
  · rw [if_pos hp11]
    exact ⟨h, hpos⟩
  rw [if_neg hp11]
  by_cases hp12 : (fc == 61) = true
  · rw [if_pos hp12]
    exact ⟨h, hpos⟩
  rw [if_neg hp12]
  by_cases hp13 : (fc == 33) = true
  · rw [if_pos hp13]
    exact ⟨h, hpos⟩
  rw [if_neg hp13]
  by_cases hp14 : (fc == 60) = true
  · rw [if_pos hp14]
    exact ⟨h, hpos⟩
  rw [if_neg hp14]
  by_cases hp15 : (fc == 62) = true
  · rw [if_pos hp15]
    exact ⟨h, hpos⟩
  rw [if_neg hp15]
  by_cases hp16 : (fc == 45) = true
  · rw [if_pos hp16]
    exact ⟨h, hpos⟩
  rw [if_neg hp16]
  by_cases hp17 : (fc == 38) = true
  · rw [if_pos hp17]
    exact ⟨h, hpos⟩
  rw [if_neg hp17]
  by_cases hp18 : (fc == 124) = true
  · rw [if_pos hp18]
    exact ⟨h, hpos⟩
  rw [if_neg hp18]
  by_cases hp19 : (fc == 43) = true
  · rw [if_pos hp19]
    exact ⟨h, hpos⟩
  rw [if_neg hp19]
  by_cases hp20 : (fc == 42) = true
  · rw [if_pos hp20]
    exact ⟨h, hpos⟩
  rw [if_neg hp20]
  by_cases hp21 : (fc == 94) = true
  · rw [if_pos hp21]
    exact ⟨h, hpos⟩
  rw [if_neg hp21]
  by_cases hp22 : (fc == 37) = true
  · rw [if_pos hp22]
    exact ⟨h, hpos⟩
  rw [if_neg hp22]
  by_cases hq : (fc == 39 || fc == 34) = true
  · rw [if_pos hq]
    simp only []
    refine ⟨?_, ?_⟩
    · show validUtf8Aux 0 (c.bytes.drop (Cursor.eatString fc c).2.pos) = true
      exact eatString_valid fc hfc c hpos h
    · show (Cursor.eatString fc c).2.pos ≤ c.bytes.length
      exact (eatString_pos fc c hpos).2.1
  rw [if_neg hq]
  simp only []
  rw [if_neg (by simp [hfc])]
  exact ⟨h, hpos⟩

end Solar

namespace Solar

theorem advanceToken_valid (c : Cursor)
    (hpos : c.pos ≤ c.bytes.length)
    (h : validUtf8Aux 0 (c.bytes.drop c.pos) = true) :
    validUtf8Aux 0 (c.bytes.drop (Cursor.advanceToken c).2.pos) = true
    ∧ (Cursor.advanceToken c).2.pos ≤ c.bytes.length := by
  rw [Cursor.advanceToken, Cursor.bumpRet]
  by_cases hlt : c.pos < c.bytes.length
  · rw [if_pos hlt]
    simp only []
    by_cases hb : byteAt c.bytes c.pos < 128
    · have h1 := ascii_head_step c.bytes c.pos h hb hlt
      have hv := advanceTokenKind_valid c.bump (byteAt c.bytes c.pos) hb
        (by rw [Cursor.bump_pos, Cursor.bump_bytes]; omega)
        (by rw [Cursor.bump_pos, Cursor.bump_bytes]; exact h1)
      rw [Cursor.bump_bytes] at hv
      refine ⟨?_, ?_⟩
      · show validUtf8Aux 0
          (c.bytes.drop (Cursor.advanceTokenKind c.bump (byteAt c.bytes c.pos)).2.pos) = true
        exact hv.1
      · show (Cursor.advanceTokenKind c.bump (byteAt c.bytes c.pos)).2.pos ≤ c.bytes.length
        exact hv.2
    · have hge : 128 ≤ byteAt c.bytes c.pos := by omega
      have hl := lead_head_step c.bytes c.pos h hge hlt
      have hk := validUtf8Aux_drop_conts c.bytes (contCount (byteAt c.bytes c.pos))
        (c.pos + 1) (by
          have : c.pos + 1 = c.bump.pos := by rw [Cursor.bump_pos]
          exact hl.2.2)
      have hrw := advanceTokenKind_nonascii c.bump (byteAt c.bytes c.pos) hge
      have hskip : (Cursor.bumpUtf8With c.bump (byteAt c.bytes c.pos)).pos
          = c.pos + 1 + contCount (byteAt c.bytes c.pos) := by
        have hp : (Cursor.bumpUtf8With c.bump (byteAt c.bytes c.pos)).pos
            = c.bump.pos + (if byteAt c.bytes c.pos < 128 then 0
              else if byteAt c.bytes c.pos < 224 then 1
              else if byteAt c.bytes c.pos < 240 then 2 else 3) := rfl
        rw [hp, Cursor.bump_pos, contCount]
        split_ifs <;> omega
      have hcc : 0 < contCount (byteAt c.bytes c.pos) := by
        rw [contCount]
        split_ifs <;> omega
      refine ⟨?_, ?_⟩
      · show validUtf8Aux 0
          (c.bytes.drop (Cursor.advanceTokenKind c.bump (byteAt c.bytes c.pos)).2.pos) = true
        rw [hrw]
        simp only []
        rw [hskip]
        exact hk.1
      · show (Cursor.advanceTokenKind c.bump (byteAt c.bytes c.pos)).2.pos ≤ c.bytes.length
        rw [hrw]
        simp only []
        rw [hskip]
        exact hk.2 hcc
  · rw [if_neg hlt]
    exact ⟨h, hpos⟩

end Solar

namespace Solar

theorem lexAux_sum (bytes : List Nat) (hlen : bytes.length < u32Mod) :
    ∀ fuel pos, pos ≤ bytes.length → bytes.length ≤ fuel + pos →
      validUtf8Aux 0 (bytes.drop pos) = true →
      ((lexAux bytes fuel pos).map RawToken.len).sum + pos = bytes.length := by
  intro fuel
  induction fuel with
  | zero =>
    intro pos h1 h2 _
    rw [lexAux]
    simp only [List.map_nil, List.sum_nil]
    omega
  | succ fuel ih =>
    intro pos h1 h2 hv
    rw [lexAux]
    by_cases he : ((Cursor.advanceToken ⟨bytes, pos⟩).1.kind == RawTokenKind.Eof) = true
    · rw [if_pos he]
      rw [beq_iff_eq] at he
      have heof : bytes.length ≤ pos := (advanceToken_facts ⟨bytes, pos⟩).1.mp he
      simp only [List.map_nil, List.sum_nil]
      omega
    · rw [if_neg he]
      rw [beq_iff_eq] at he
      have hfacts := (advanceToken_facts ⟨bytes, pos⟩).2.1 he
      have hval := advanceToken_valid ⟨bytes, pos⟩ h1 hv
      have hp2 : pos < (Cursor.advanceToken ⟨bytes, pos⟩).2.pos := hfacts.2.1
      have hb : (Cursor.advanceToken ⟨bytes, pos⟩).2.pos ≤ bytes.length := hval.2
      have hdrop : validUtf8Aux 0 (bytes.drop (Cursor.advanceToken ⟨bytes, pos⟩).2.pos) = true :=
        hval.1
      have hlen2 : (Cursor.advanceToken ⟨bytes, pos⟩).1.len
          = (Cursor.advanceToken ⟨bytes, pos⟩).2.pos - pos := by
        rw [hfacts.2.2.2]
        apply Nat.mod_eq_of_lt
        omega
      have hihres := ih (Cursor.advanceToken ⟨bytes, pos⟩).2.pos hb (by omega) hdrop
      simp only [List.map_cons, List.sum_cons]
      rw [hlen2]
      omega

end Solar

namespace Solar

/-- C1: for every input byte slice (a Rust `&str`, hence valid UTF-8, of
length below `2^32`), iterating `Cursor::advance_token` until it returns an
`Eof` token yields raw tokens whose byte lengths sum exactly to the length
of the input. -/
theorem C1_token_lengths_sum (input : List Nat)
    (hv : validUtf8 input = true) (hlen : input.length < u32Mod) :
    ((lex input).map RawToken.len).sum = input.length := by
  have hs := lexAux_sum input hlen (input.length + 1) 0 (by omega) (by omega)
    (by rw [List.drop_zero]; exact hv)
  rw [lex]
  omega

theorem C1_token_lengths_sum_witness :
    validUtf8 [49, 50, 59, 207, 128] = true
    ∧ ([49, 50, 59, 207, 128] : List Nat).length < u32Mod
    ∧ ((lex [49, 50, 59, 207, 128]).map RawToken.len).sum
        = ([49, 50, 59, 207, 128] : List Nat).length :=
  ⟨by decide, by decide,
    C1_token_lengths_sum [49, 50, 59, 207, 128] (by decide) (by decide)⟩

end Solar

namespace Solar

/-! ## Event-sequence predicates for the unescape callbacks -/

/-- Output contribution of one callback event in
`parse_literal_unescape_into`: the UTF-8 length of an `Ok` code point. -/
def evOut (ev : UEvent) : Nat :=
  match ev.2.2 with
  | EscRes.ok c => (encodeUtf8Raw c).length
  | EscRes.err _ => 0

/-- Total bytes written to the output buffer for a list of events. -/
def outLen (evs : List UEvent) : Nat := (evs.map evOut).sum

/-- `start..end` ranges stay in `[lo, hi]`, each is well-formed, and each
starts at or after the previous one's end. -/
def seqFrom (hi : Nat) : Nat → List UEvent → Bool
  | _, [] => true
  | lo, ev :: rest =>
    decide (lo ≤ ev.1) && decide (ev.1 ≤ ev.2.1) && decide (ev.2.1 ≤ hi)
      && seqFrom hi ev.2.1 rest

/-- The lower bound left for events following `evs`. -/
def endAfter (lo : Nat) : List UEvent → Nat
  | [] => lo
  | ev :: rest => endAfter ev.2.1 rest

theorem outLen_nil : outLen [] = 0 := rfl

theorem outLen_cons (ev : UEvent) (evs : List UEvent) :
    outLen (ev :: evs) = evOut ev + outLen evs := by
  rw [outLen, outLen, List.map_cons, List.sum_cons]

theorem outLen_append (a b : List UEvent) :
    outLen (a ++ b) = outLen a + outLen b := by
  rw [outLen, outLen, outLen, List.map_append, List.sum_append]

theorem seqFrom_append (hi : Nat) (a : List UEvent) :
    ∀ lo b, seqFrom hi lo (a ++ b) = (seqFrom hi lo a && seqFrom hi (endAfter lo a) b) := by
  induction a with
  | nil =>
    intro lo b
    rw [List.nil_append, endAfter]
    rw [seqFrom]
    rw [Bool.true_and]
  | cons ev rest ih =>
    intro lo b
    rw [List.cons_append, seqFrom, seqFrom, endAfter, ih]
    simp only [Bool.and_assoc]

theorem seqFrom_mono (hi : Nat) (lo lo' : Nat) (evs : List UEvent) (hle : lo' ≤ lo)
    (h : seqFrom hi lo evs = true) : seqFrom hi lo' evs = true := by
  cases evs with
  | nil => rfl
  | cons ev rest =>
    rw [seqFrom] at h ⊢
    simp only [Bool.and_eq_true, decide_eq_true_eq] at h ⊢
    exact ⟨⟨⟨by omega, h.1.1.2⟩, h.1.2⟩, h.2⟩

theorem endAfter_bounds (hi : Nat) (evs : List UEvent) :
    ∀ lo, seqFrom hi lo evs = true →
      lo ≤ endAfter lo evs ∧ endAfter lo evs ≤ max lo hi := by
  induction evs with
  | nil =>
    intro lo _
    rw [endAfter]
    omega
  | cons ev rest ih =>
    intro lo h
    rw [seqFrom] at h
    simp only [Bool.and_eq_true, decide_eq_true_eq] at h
    have := ih ev.2.1 h.2
    rw [endAfter]
    constructor
    · omega
    · omega

theorem endAfter_le_of_mem (evs : List UEvent) (B : Nat) :
    ∀ lo, (∀ ev ∈ evs, ev.2.1 ≤ B) → lo ≤ B → endAfter lo evs ≤ B := by
  induction evs with
  | nil => intro lo _ h; rw [endAfter]; exact h
  | cons ev rest ih =>
    intro lo hm h
    rw [endAfter]
    exact ih ev.2.1 (fun e he => hm e (List.mem_cons_of_mem _ he)) (hm ev (List.mem_cons_self _ _))

/-- Closed form for the UTF-8 encoded length. -/
theorem encodeUtf8Raw_length (c : Nat) :
    (encodeUtf8Raw c).length
      = if c < 128 then 1 else if c < 2048 then 2 else if c < 65536 then 3 else 4 := by
  rw [encodeUtf8Raw]
  split_ifs <;> rfl

theorem decodeChar_le (l : List Nat) (c k : Nat) (h : decodeChar l = some (c, k)) :
    1 ≤ k ∧ k ≤ l.length := by
  match l with
  | [] => simp [decodeChar] at h
  | b :: rest =>
    rw [decodeChar.eq_def] at h
    simp only [] at h
    split_ifs at h with h1 h2 h3
    · simp only [Option.some_inj, Prod.mk.injEq] at h
      simp only [List.length_cons]
      omega
    · match rest with
      | [] =>
        simp only [Option.some_inj, Prod.mk.injEq] at h
        simp only [List.length_cons]
        omega
      | b1 :: r =>
        simp only [Option.some_inj, Prod.mk.injEq] at h
        simp only [List.length_cons]
        omega
    · match rest with
      | [] =>
        simp only [Option.some_inj, Prod.mk.injEq] at h
        simp only [List.length_cons]
        omega
      | [b1] =>
        simp only [Option.some_inj, Prod.mk.injEq] at h
        simp only [List.length_cons]
        omega
      | b1 :: b2 :: r =>
        simp only [Option.some_inj, Prod.mk.injEq] at h
        simp only [List.length_cons]
        omega
    · match rest with
      | [] =>
        simp only [Option.some_inj, Prod.mk.injEq] at h
        simp only [List.length_cons]
        omega
      | [b1] =>
        simp only [Option.some_inj, Prod.mk.injEq] at h
        simp only [List.length_cons]
        omega
      | [b1, b2] =>
        simp only [Option.some_inj, Prod.mk.injEq] at h
        simp only [List.length_cons]
        omega
      | b1 :: b2 :: b3 :: r =>
        simp only [Option.some_inj, Prod.mk.injEq] at h
        simp only [List.length_cons]
        omega

end Solar

namespace Solar

theorem toDigit16_le (c d : Nat) (h : toDigit16 c = some d) : d < 16 := by
  rw [toDigit16] at h
  split_ifs at h with h1 h2 h3
  · simp only [Option.some_inj] at h
    simp only [Bool.and_eq_true, decide_eq_true_eq] at h1
    omega
  · simp only [Option.some_inj] at h
    simp only [Bool.and_eq_true, decide_eq_true_eq] at h2
    omega
  · simp only [Option.some_inj] at h
    simp only [Bool.and_eq_true, decide_eq_true_eq] at h3
    omega

theorem scanHexDigits_facts (ts inv : EscapeError) :
    ∀ (count : Nat) (l : List Nat) (value consumed : Nat) (res : EscRes) (cons : Nat),
      scanHexDigits ts inv count l value consumed = (res, cons) →
      consumed ≤ cons ∧ cons ≤ consumed + l.length
      ∧ (∀ v, res = EscRes.ok v → v < (value + 1) * 16 ^ count ∧ consumed + count ≤ cons) := by
  intro count
  induction count with
  | zero =>
    intro l value consumed res cons h
    rw [scanHexDigits] at h
    rw [Prod.mk.injEq] at h
    refine ⟨by omega, by omega, ?_⟩
    intro v hv
    rw [← h.1] at hv
    injection hv with hv
    rw [← hv, ← h.2]
    simp only [pow_zero, Nat.mul_one]
    omega
  | succ count ih =>
    intro l value consumed res cons h
    rw [scanHexDigits] at h
    cases hd : decodeChar l with
    | none =>
      rw [hd] at h
      rw [Prod.mk.injEq] at h
      refine ⟨by omega, by omega, ?_⟩
      intro v hv
      rw [← h.1] at hv
      exact absurd hv (by simp)
    | some ck =>
      obtain ⟨c, k⟩ := ck
      rw [hd] at h
      simp only [] at h
      have hk := decodeChar_le l c k hd
      cases ht : toDigit16 c with
      | none =>
        rw [ht] at h
        rw [Prod.mk.injEq] at h
        refine ⟨by omega, by omega, ?_⟩
        intro v hv
        rw [← h.1] at hv
        exact absurd hv (by simp)
      | some d =>
        rw [ht] at h
        have hrec := ih (l.drop k) (value * 16 + d) (consumed + k) res cons h
        rw [List.length_drop] at hrec
        have hd16 := toDigit16_le c d ht
        refine ⟨by omega, by omega, ?_⟩
        intro v hv
        have hok := hrec.2.2 v hv
        constructor
        · have hstep : (value * 16 + d + 1) * 16 ^ count ≤ (value + 1) * 16 ^ (count + 1) := by
            rw [pow_succ]
            have h1 : value * 16 + d + 1 ≤ (value + 1) * 16 := by omega
            calc (value * 16 + d + 1) * 16 ^ count
                ≤ (value + 1) * 16 * 16 ^ count := Nat.mul_le_mul_right _ h1
              _ = (value + 1) * (16 ^ count * 16) := by ring
          omega
        · omega

end Solar

namespace Solar

theorem scanEscape_facts (l : List Nat) (res : EscRes) (n : Nat)
    (h : scanEscape l = (res, n)) :
    n ≤ l.length ∧ ∀ v, res = EscRes.ok v → (encodeUtf8Raw v).length ≤ 1 + n := by
  rw [scanEscape] at h
  cases hd : decodeChar l with
  | none =>
    rw [hd] at h
    rw [Prod.mk.injEq] at h
    refine ⟨by omega, ?_⟩
    intro v hv
    rw [← h.1] at hv
    exact absurd hv (by simp)
  | some ck =>
    obtain ⟨c, k⟩ := ck
    rw [hd] at h
    simp only [] at h
    have hk := decodeChar_le l c k hd
    split_ifs at h with h39 h34 h92 h110 h114 h116 h120 h117
    · rw [Prod.mk.injEq] at h
      refine ⟨by omega, ?_⟩
      intro v hv
      rw [← h.1] at hv
      injection hv with hv
      rw [← hv, encodeUtf8Raw_length]
      simp only [if_pos (by omega : (39:Nat) < 128)]
      omega
    · rw [Prod.mk.injEq] at h
      refine ⟨by omega, ?_⟩
      intro v hv
      rw [← h.1] at hv
      injection hv with hv
      rw [← hv, encodeUtf8Raw_length]
      simp only [if_pos (by omega : (34:Nat) < 128)]
      omega
    · rw [Prod.mk.injEq] at h
      refine ⟨by omega, ?_⟩
      intro v hv
      rw [← h.1] at hv
      injection hv with hv
      rw [← hv, encodeUtf8Raw_length]
      simp only [if_pos (by omega : (92:Nat) < 128)]
      omega
    · rw [Prod.mk.injEq] at h
      refine ⟨by omega, ?_⟩
      intro v hv
      rw [← h.1] at hv
      injection hv with hv
      rw [← hv, encodeUtf8Raw_length]
      simp only [if_pos (by omega : (10:Nat) < 128)]
      omega
    · rw [Prod.mk.injEq] at h
      refine ⟨by omega, ?_⟩
      intro v hv
      rw [← h.1] at hv
      injection hv with hv
      rw [← hv, encodeUtf8Raw_length]
      simp only [if_pos (by omega : (13:Nat) < 128)]
      omega
    · rw [Prod.mk.injEq] at h
      refine ⟨by omega, ?_⟩
      intro v hv
      rw [← h.1] at hv
      injection hv with hv
      rw [← hv, encodeUtf8Raw_length]
      simp only [if_pos (by omega : (9:Nat) < 128)]
      omega
    · cases hsc : scanHexDigits EscapeError.HexEscapeTooShort EscapeError.InvalidHexEscape
        2 (l.drop k) 0 0 with
      | mk r1 r2 =>
        rw [hsc] at h
        simp only [] at h
        have hfac := scanHexDigits_facts _ _ 2 (l.drop k) 0 0 r1 r2 hsc
        rw [List.length_drop] at hfac
        rw [Prod.mk.injEq] at h
        refine ⟨by omega, ?_⟩
        intro v hv
        rw [← h.1] at hv
        have hok := hfac.2.2 v hv
        have hv256 : v < 256 := by
          have := hok.1
          norm_num at this
          omega
        rw [encodeUtf8Raw_length]
        split_ifs <;> omega
    · cases hsc : scanHexDigits EscapeError.UnicodeEscapeTooShort EscapeError.InvalidUnicodeEscape
        4 (l.drop k) 0 0 with
      | mk r1 r2 =>
        rw [hsc] at h
        simp only [] at h
        have hfac := scanHexDigits_facts _ _ 4 (l.drop k) 0 0 r1 r2 hsc
        rw [List.length_drop] at hfac
        rw [Prod.mk.injEq] at h
        refine ⟨by omega, ?_⟩
        intro v hv
        rw [← h.1] at hv
        have hok := hfac.2.2 v hv
        have hv65536 : v < 65536 := by
          have := hok.1
          norm_num at this
          omega
        rw [encodeUtf8Raw_length]
        split_ifs <;> omega
    · rw [Prod.mk.injEq] at h
      refine ⟨by omega, ?_⟩
      intro v hv
      rw [← h.1] at hv
      exact absurd hv (by simp)

end Solar

namespace Solar

/-- On valid UTF-8, `Chars::next` at a char boundary yields the char's exact
byte length: the position stays aligned, in bounds, and valid; an ASCII head
decodes to itself, a lead byte to `1 + contCount` bytes, and the bytes
strictly inside the char are continuation bytes. -/
theorem decodeChar_valid (bytes : List Nat) (p : Nat)
    (h : validUtf8Aux 0 (bytes.drop p) = true) (hlt : p < bytes.length) :
    ∃ c k, decodeChar (bytes.drop p) = some (c, k) ∧ 1 ≤ k ∧ p + k ≤ bytes.length
      ∧ validUtf8Aux 0 (bytes.drop (p + k)) = true
      ∧ (byteAt bytes p < 128 → k = 1 ∧ c = byteAt bytes p)
      ∧ (128 ≤ byteAt bytes p → k = 1 + contCount (byteAt bytes p))
      ∧ (∀ j, p < j → j < p + k → 128 ≤ byteAt bytes j) := by
  by_cases hb : byteAt bytes p < 128
  · refine ⟨byteAt bytes p, 1, ?_, by omega, by omega,
      ascii_head_step bytes p h hb hlt, fun _ => ⟨rfl, rfl⟩,
      fun hx => absurd hx (by omega), fun j hj1 hj2 => absurd hj2 (by omega)⟩
    rw [drop_eq_byteAt_cons bytes p hlt, decodeChar.eq_def]
    simp only []
    rw [if_pos hb]
  · have hge : 128 ≤ byteAt bytes p := by omega
    have hl := lead_head_step bytes p h hge hlt
    by_cases h224 : byteAt bytes p < 224
    · have hcc : contCount (byteAt bytes p) = 1 := by
        rw [contCount, if_pos h224]
      have hv1 : validUtf8Aux 1 (bytes.drop (p + 1)) = true := by
        have hx := hl.2.2
        rw [hcc] at hx
        exact hx
      have hdc := validUtf8Aux_drop_conts bytes 1 (p + 1) hv1
      have hp1 : p + 1 < bytes.length := by
        have := hdc.2 (by omega)
        omega
      have hcons1 := drop_eq_byteAt_cons bytes (p + 1) hp1
      have hcont1 : isUtf8Cont (byteAt bytes (p + 1)) = true := by
        rw [hcons1] at hv1
        exact (validUtf8Aux_cons_cont 0 _ _ hv1).1
      rw [isUtf8Cont, Bool.and_eq_true, decide_eq_true_eq, decide_eq_true_eq] at hcont1
      refine ⟨(byteAt bytes p % 32) * 64 + byteAt bytes (p + 1) % 64, 2, ?_, by omega,
        by have := hdc.2 (by omega); omega, hdc.1,
        fun hx => absurd hx (by omega), fun _ => by omega, ?_⟩
      · rw [drop_eq_byteAt_cons bytes p hlt, hcons1, decodeChar.eq_def]
        simp only []
        rw [if_neg (by omega), if_pos h224]
      · intro j hj1 hj2
        have : j = p + 1 := by omega
        rw [this]
        omega
    · by_cases h240 : byteAt bytes p < 240
      · have hcc : contCount (byteAt bytes p) = 2 := by
          rw [contCount, if_neg h224, if_pos h240]
        have hv2 : validUtf8Aux 2 (bytes.drop (p + 1)) = true := by
          have hx := hl.2.2
          rw [hcc] at hx
          exact hx
        have hdc := validUtf8Aux_drop_conts bytes 2 (p + 1) hv2
        have hp1 : p + 1 < bytes.length := by
          have := hdc.2 (by omega)
          omega
        have hp2 : p + 2 < bytes.length := by
          have := hdc.2 (by omega)
          omega
        have hcons1 := drop_eq_byteAt_cons bytes (p + 1) hp1
        have hcons2 := drop_eq_byteAt_cons bytes (p + 2) hp2
        have hsplit : isUtf8Cont (byteAt bytes (p + 1)) = true
            ∧ validUtf8Aux 1 (bytes.drop (p + 2)) = true := by
          rw [hcons1] at hv2
          exact validUtf8Aux_cons_cont 1 _ _ hv2
        have hcont2 : isUtf8Cont (byteAt bytes (p + 2)) = true := by
          have := hsplit.2
          rw [hcons2] at this
          exact (validUtf8Aux_cons_cont 0 _ _ this).1
        have hc1 := hsplit.1
        rw [isUtf8Cont, Bool.and_eq_true, decide_eq_true_eq, decide_eq_true_eq] at hc1 hcont2
        refine ⟨(byteAt bytes p % 16) * 4096 + (byteAt bytes (p + 1) % 64) * 64
            + byteAt bytes (p + 2) % 64, 3, ?_, by omega,
          by have := hdc.2 (by omega); omega, hdc.1,
          fun hx => absurd hx (by omega), fun _ => by omega, ?_⟩
        · rw [drop_eq_byteAt_cons bytes p hlt, hcons1, hcons2, decodeChar.eq_def]
          simp only []
          rw [if_neg (by omega), if_neg (by omega), if_pos h240]
        · intro j hj1 hj2
          rcases (by omega : j = p + 1 ∨ j = p + 2) with hj | hj <;> rw [hj] <;> omega
      · have hcc : contCount (byteAt bytes p) = 3 := by
          rw [contCount, if_neg h224, if_neg h240]
        have hv3 : validUtf8Aux 3 (bytes.drop (p + 1)) = true := by
          have hx := hl.2.2
          rw [hcc] at hx
          exact hx
        have hdc := validUtf8Aux_drop_conts bytes 3 (p + 1) hv3
        have hp1 : p + 1 < bytes.length := by
          have := hdc.2 (by omega)
          omega
        have hp2 : p + 2 < bytes.length := by
          have := hdc.2 (by omega)
          omega
        have hp3 : p + 3 < bytes.length := by
          have := hdc.2 (by omega)
          omega
        have hcons1 := drop_eq_byteAt_cons bytes (p + 1) hp1
        have hcons2 := drop_eq_byteAt_cons bytes (p + 2) hp2
        have hcons3 := drop_eq_byteAt_cons bytes (p + 3) hp3
        have hsplit1 : isUtf8Cont (byteAt bytes (p + 1)) = true
            ∧ validUtf8Aux 2 (bytes.drop (p + 2)) = true := by
          rw [hcons1] at hv3
          exact validUtf8Aux_cons_cont 2 _ _ hv3
        have hsplit2 : isUtf8Cont (byteAt bytes (p + 2)) = true
            ∧ validUtf8Aux 1 (bytes.drop (p + 3)) = true := by
          have := hsplit1.2
          rw [hcons2] at this
          exact validUtf8Aux_cons_cont 1 _ _ this
        have hcont3 : isUtf8Cont (byteAt bytes (p + 3)) = true := by
          have := hsplit2.2
          rw [hcons3] at this
          exact (validUtf8Aux_cons_cont 0 _ _ this).1
        have hc1 := hsplit1.1
        have hc2 := hsplit2.1
        rw [isUtf8Cont, Bool.and_eq_true, decide_eq_true_eq, decide_eq_true_eq] at hc1 hc2 hcont3
        refine ⟨(byteAt bytes p % 8) * 262144 + (byteAt bytes (p + 1) % 64) * 4096
            + (byteAt bytes (p + 2) % 64) * 64 + byteAt bytes (p + 3) % 64, 4, ?_, by omega,
          by have := hdc.2 (by omega); omega, hdc.1,
          fun hx => absurd hx (by omega), fun _ => by omega, ?_⟩
        · rw [drop_eq_byteAt_cons bytes p hlt, hcons1, hcons2, hcons3, decodeChar.eq_def]
          simp only []
          rw [if_neg (by omega), if_neg (by omega), if_neg (by omega)]
        · intro j hj1 hj2
          rcases (by omega : j = p + 1 ∨ j = p + 2 ∨ j = p + 3) with hj | hj | hj <;>
            rw [hj] <;> omega

end Solar

namespace Solar

theorem scanHexDigits_valid (ts inv : EscapeError) (bytes : List Nat) :
    ∀ (count p value consumed : Nat) (res : EscRes) (cons : Nat),
      validUtf8Aux 0 (bytes.drop p) = true → p ≤ bytes.length →
      scanHexDigits ts inv count (bytes.drop p) value consumed = (res, cons) →
      consumed ≤ cons ∧ p + (cons - consumed) ≤ bytes.length
      ∧ validUtf8Aux 0 (bytes.drop (p + (cons - consumed))) = true := by
  intro count
  induction count with
  | zero =>
    intro p value consumed res cons hv hp h
    rw [scanHexDigits] at h
    rw [Prod.mk.injEq] at h
    have hc : cons = consumed := h.2.symm
    refine ⟨by omega, by omega, ?_⟩
    have e : p + (cons - consumed) = p := by omega
    rw [e]
    exact hv
  | succ count ih =>
    intro p value consumed res cons hv hp h
    rw [scanHexDigits] at h
    by_cases hlt : p < bytes.length
    · obtain ⟨c, k, hdc, hk1, hkb, hval, _, _, _⟩ := decodeChar_valid bytes p hv hlt
      rw [hdc] at h
      simp only [] at h
      cases ht : toDigit16 c with
      | none =>
        rw [ht] at h
        rw [Prod.mk.injEq] at h
        have hc : cons = consumed + k := h.2.symm
        refine ⟨by omega, by omega, ?_⟩
        have e : p + (cons - consumed) = p + k := by omega
        rw [e]
        exact hval
      | some d =>
        rw [ht] at h
        rw [List.drop_drop] at h
        have hrec := ih (p + k) (value * 16 + d) (consumed + k) res cons hval (by omega) h
        refine ⟨by omega, by omega, ?_⟩
        have e2 : p + (cons - consumed) = p + k + (cons - (consumed + k)) := by omega
        rw [e2]
        exact hrec.2.2
    · have hnil : bytes.drop p = [] := List.drop_eq_nil_of_le (by omega)
      rw [hnil] at h
      have hdn : decodeChar ([] : List Nat) = none := rfl
      rw [hdn] at h
      simp only [] at h
      rw [Prod.mk.injEq] at h
      have hc : cons = consumed := h.2.symm
      refine ⟨by omega, by omega, ?_⟩
      have e : p + (cons - consumed) = p := by omega
      rw [e]
      exact hv

theorem scanEscape_valid (bytes : List Nat) (p : Nat) (res : EscRes) (n : Nat)
    (hv : validUtf8Aux 0 (bytes.drop p) = true) (hp : p ≤ bytes.length)
    (h : scanEscape (bytes.drop p) = (res, n)) :
    p + n ≤ bytes.length ∧ validUtf8Aux 0 (bytes.drop (p + n)) = true := by
  rw [scanEscape] at h
  by_cases hlt : p < bytes.length
  · obtain ⟨c, k, hdc, hk1, hkb, hval, _, _, _⟩ := decodeChar_valid bytes p hv hlt
    rw [hdc] at h
    simp only [] at h
    split_ifs at h with h39 h34 h92 h110 h114 h116 h120 h117
    · rw [Prod.mk.injEq] at h
      have : n = k := h.2.symm
      rw [this]
      exact ⟨hkb, hval⟩
    · rw [Prod.mk.injEq] at h
      have : n = k := h.2.symm
      rw [this]
      exact ⟨hkb, hval⟩
    · rw [Prod.mk.injEq] at h
      have : n = k := h.2.symm
      rw [this]
      exact ⟨hkb, hval⟩
    · rw [Prod.mk.injEq] at h
      have : n = k := h.2.symm
      rw [this]
      exact ⟨hkb, hval⟩
    · rw [Prod.mk.injEq] at h
      have : n = k := h.2.symm
      rw [this]
      exact ⟨hkb, hval⟩
    · rw [Prod.mk.injEq] at h
      have : n = k := h.2.symm
      rw [this]
      exact ⟨hkb, hval⟩
    · rw [List.drop_drop] at h
      cases hsc : scanHexDigits EscapeError.HexEscapeTooShort EscapeError.InvalidHexEscape
          2 (bytes.drop (p + k)) 0 0 with
      | mk r1 r2 =>
        rw [hsc] at h
        simp only [] at h
        rw [Prod.mk.injEq] at h
        have hrec := scanHexDigits_valid _ _ bytes 2 (p + k) 0 0 r1 r2 hval (by omega) hsc
        have : n = k + r2 := h.2.symm
        rw [this]
        have e2 : p + (k + r2) = p + k + (r2 - 0) := by omega
        rw [e2]
        exact ⟨hrec.2.1, hrec.2.2⟩
    · rw [List.drop_drop] at h
      cases hsc : scanHexDigits EscapeError.UnicodeEscapeTooShort EscapeError.InvalidUnicodeEscape
          4 (bytes.drop (p + k)) 0 0 with
      | mk r1 r2 =>
        rw [hsc] at h
        simp only [] at h
        rw [Prod.mk.injEq] at h
        have hrec := scanHexDigits_valid _ _ bytes 4 (p + k) 0 0 r1 r2 hval (by omega) hsc
        have : n = k + r2 := h.2.symm
        rw [this]
        have e2 : p + (k + r2) = p + k + (r2 - 0) := by omega
        rw [e2]
        exact ⟨hrec.2.1, hrec.2.2⟩
    · rw [Prod.mk.injEq] at h
      have : n = k := h.2.symm
      rw [this]
      exact ⟨hkb, hval⟩
  · have hnil : bytes.drop p = [] := List.drop_eq_nil_of_le (by omega)
    rw [hnil] at h
    have hdn : decodeChar ([] : List Nat) = none := rfl
    rw [hdn] at h
    simp only [] at h
    rw [Prod.mk.injEq] at h
    have : n = 0 := h.2.symm
    rw [this]
    exact ⟨by omega, by simpa using hv⟩

end Solar

namespace Solar

theorem endAfter_le (lo lo' X : Nat) (evs : List UEvent)
    (h : endAfter lo' evs ≤ X) (h2 : lo ≤ X) : endAfter lo evs ≤ X := by
  cases evs with
  | nil => exact h2
  | cons ev rest => rw [endAfter]; rw [endAfter] at h; exact h

theorem findNextNonAsciiOrSpecial_facts (bytes : List Nat) :
    ∀ fuel i, i ≤ bytes.length →
      i ≤ findNextNonAsciiOrSpecial bytes fuel i
      ∧ findNextNonAsciiOrSpecial bytes fuel i ≤ bytes.length
      ∧ (∀ j, i ≤ j → j < findNextNonAsciiOrSpecial bytes fuel i → byteAt bytes j < 128)
      ∧ (validUtf8Aux 0 (bytes.drop i) = true →
          validUtf8Aux 0 (bytes.drop (findNextNonAsciiOrSpecial bytes fuel i)) = true) := by
  intro fuel
  induction fuel with
  | zero =>
    intro i h
    rw [findNextNonAsciiOrSpecial]
    exact ⟨Nat.le_refl _, h, fun j h1 h2 => absurd h2 (by omega), fun hv => hv⟩
  | succ fuel ih =>
    intro i h
    rw [findNextNonAsciiOrSpecial]
    by_cases hi : i < bytes.length
    · rw [if_pos hi]
      simp only []
      by_cases hsp : (byteAt bytes i == 92 || byteAt bytes i == 10 || byteAt bytes i == 13)
          = true
      · rw [if_pos hsp]
        exact ⟨Nat.le_refl _, h, fun j h1 h2 => absurd h2 (by omega), fun hv => hv⟩
      rw [if_neg hsp]
      by_cases hna : 128 ≤ byteAt bytes i
      · rw [if_pos hna]
        exact ⟨Nat.le_refl _, h, fun j h1 h2 => absurd h2 (by omega), fun hv => hv⟩
      · rw [if_neg hna]
        have hrec := ih (i + 1) (by omega)
        refine ⟨by omega, hrec.2.1, ?_, ?_⟩
        · intro j h1 h2
          by_cases hj : j = i
          · rw [hj]
            omega
          · exact hrec.2.2.1 j (by omega) h2
        · intro hv
          exact hrec.2.2.2 (ascii_head_step bytes i hv (by omega) hi)
    · rw [if_neg hi]
      exact ⟨Nat.le_refl _, h, fun j h1 h2 => absurd h2 (by omega), fun hv => hv⟩

theorem skipAsciiWsAux_spec (bytes : List Nat) :
    ∀ fuel i, i ≤ bytes.length → validUtf8Aux 0 (bytes.drop i) = true →
      i ≤ (skipAsciiWsAux bytes fuel i).2
      ∧ (skipAsciiWsAux bytes fuel i).2 ≤ bytes.length
      ∧ validUtf8Aux 0 (bytes.drop (skipAsciiWsAux bytes fuel i).2) = true
      ∧ outLen (skipAsciiWsAux bytes fuel i).1 = 0
      ∧ seqFrom bytes.length i (skipAsciiWsAux bytes fuel i).1 = true
      ∧ endAfter i (skipAsciiWsAux bytes fuel i).1 ≤ (skipAsciiWsAux bytes fuel i).2 := by
  intro fuel
  induction fuel with
  | zero =>
    intro i h hv
    rw [skipAsciiWsAux]
    exact ⟨Nat.le_refl _, h, hv, rfl, rfl, Nat.le_refl _⟩
  | succ fuel ih =>
    intro i h hv
    rw [skipAsciiWsAux]
    by_cases hi : i < bytes.length
    · rw [if_pos hi]
      simp only []
      by_cases hws : (byteAt bytes i == 32 || byteAt bytes i == 9) = true
      · rw [if_pos hws]
        have hle := eatWhileAux_le (fun x => x == 32 || x == 9) bytes
          (bytes.length + 1) i
        have hbd := eatWhileAux_bound (fun x => x == 32 || x == 9) bytes
          (bytes.length + 1) i h
        have hvv := eatWhileAux_valid (fun x => x == 32 || x == 9)
          (by
            intro b hb
            rw [Bool.or_eq_true, beq_iff_eq, beq_iff_eq] at hb
            omega)
          bytes (bytes.length + 1) i hv
        have hrec := ih (Cursor.eatWhileAux (fun x => x == 32 || x == 9) bytes
          (bytes.length + 1) i) hbd hvv
        refine ⟨by omega, hrec.2.1, hrec.2.2.1, hrec.2.2.2.1, ?_, ?_⟩
        · exact seqFrom_mono _ _ _ _ (by omega) hrec.2.2.2.2.1
        · exact endAfter_le _ _ _ _ hrec.2.2.2.2.2 (by omega)
      rw [if_neg hws]
      by_cases hn : (byteAt bytes i == 10) = true
      · rw [if_pos hn]
        rw [beq_iff_eq] at hn
        have hv1 : validUtf8Aux 0 (bytes.drop (i + 1)) = true :=
          ascii_head_step bytes i hv (by omega) hi
        have hrec := ih (i + 1) (by omega) hv1
        simp only []
        refine ⟨by omega, hrec.2.1, hrec.2.2.1, ?_, ?_, ?_⟩
        · rw [outLen_cons, hrec.2.2.2.1]
          rfl
        · rw [seqFrom]
          simp only [Bool.and_eq_true, decide_eq_true_eq]
          exact ⟨⟨⟨Nat.le_refl _, by omega⟩, by omega⟩, hrec.2.2.2.2.1⟩
        · rw [endAfter]
          exact hrec.2.2.2.2.2
      rw [if_neg hn]
      by_cases hr : (byteAt bytes i == 13) = true
      · rw [if_pos hr]
        rw [beq_iff_eq] at hr
        by_cases hrn : (i + 1 < bytes.length && byteAt bytes (i + 1) == 10) = true
        · rw [if_pos hrn]
          rw [Bool.and_eq_true, decide_eq_true_eq, beq_iff_eq] at hrn
          have hv1 : validUtf8Aux 0 (bytes.drop (i + 1)) = true :=
            ascii_head_step bytes i hv (by omega) hi
          have hv2 : validUtf8Aux 0 (bytes.drop (i + 2)) = true :=
            ascii_head_step bytes (i + 1) hv1 (by omega) (by omega)
          have hrec := ih (i + 2) (by omega) hv2
          simp only []
          refine ⟨by omega, hrec.2.1, hrec.2.2.1, ?_, ?_, ?_⟩
          · rw [outLen_cons, hrec.2.2.2.1]
            rfl
          · rw [seqFrom]
            simp only [Bool.and_eq_true, decide_eq_true_eq]
            exact ⟨⟨⟨Nat.le_refl _, by omega⟩, by omega⟩, hrec.2.2.2.2.1⟩
          · rw [endAfter]
            exact hrec.2.2.2.2.2
        · rw [if_neg hrn]
          have hv1 : validUtf8Aux 0 (bytes.drop (i + 1)) = true :=
            ascii_head_step bytes i hv (by omega) hi
          have hrec := ih (i + 1) (by omega) hv1
          simp only []
          refine ⟨by omega, hrec.2.1, hrec.2.2.1, ?_, ?_, ?_⟩
          · rw [outLen_cons, hrec.2.2.2.1]
            rfl
          · rw [seqFrom]
            simp only [Bool.and_eq_true, decide_eq_true_eq]
            exact ⟨⟨⟨Nat.le_refl _, by omega⟩, by omega⟩, hrec.2.2.2.2.1⟩
          · rw [endAfter]
            exact hrec.2.2.2.2.2
      · rw [if_neg hr]
        exact ⟨Nat.le_refl _, h, hv, rfl, rfl, Nat.le_refl _⟩
    · rw [if_neg hi]
      exact ⟨Nat.le_refl _, h, hv, rfl, rfl, Nat.le_refl _⟩

end Solar

namespace Solar

/-- On valid UTF-8 at a non-ASCII char boundary, `decode_utf8_with_len`
consumes the char's exact byte count, stays in bounds and valid, and the
decoded code point re-encodes into at most that many bytes. -/
theorem decodeUtf8WithLen_valid (bytes : List Nat) (i : Nat)
    (hv : validUtf8Aux 0 (bytes.drop i) = true) (hi : i < bytes.length)
    (hb : 128 ≤ byteAt bytes i) :
    ∃ n cp, decodeUtf8WithLen (bytes.drop i) = (n, cp)
      ∧ n = 1 + contCount (byteAt bytes i)
      ∧ i + n ≤ bytes.length
      ∧ validUtf8Aux 0 (bytes.drop (i + n)) = true
      ∧ (encodeUtf8Raw cp).length ≤ n := by
  have hl := lead_head_step bytes i hv hb hi
  by_cases h224 : byteAt bytes i < 224
  · have hcc : contCount (byteAt bytes i) = 1 := by
      rw [contCount, if_pos h224]
    have hv1 : validUtf8Aux 1 (bytes.drop (i + 1)) = true := by
      have hx := hl.2.2
      rw [hcc] at hx
      exact hx
    have hdc := validUtf8Aux_drop_conts bytes 1 (i + 1) hv1
    have hp1 : i + 1 < bytes.length := by
      have := hdc.2 (by omega)
      omega
    have hcons1 := drop_eq_byteAt_cons bytes (i + 1) hp1
    have hcont1 : isUtf8Cont (byteAt bytes (i + 1)) = true := by
      rw [hcons1] at hv1
      exact (validUtf8Aux_cons_cont 0 _ _ hv1).1
    rw [isUtf8Cont, Bool.and_eq_true, decide_eq_true_eq, decide_eq_true_eq] at hcont1
    refine ⟨2, (byteAt bytes i % 32) * 64 + byteAt bytes (i + 1) % 64, ?_, by omega,
      by have := hdc.2 (by omega); omega, hdc.1, ?_⟩
    · rw [drop_eq_byteAt_cons bytes i hi, hcons1, decodeUtf8WithLen]
      rw [if_neg (by omega),
        if_pos (by simp only [Bool.and_eq_true, decide_eq_true_eq]; omega)]
      rw [if_pos (by rw [beq_iff_eq]; omega)]
    · rw [encodeUtf8Raw_length]
      have : (byteAt bytes i % 32) * 64 + byteAt bytes (i + 1) % 64 < 2048 := by
        have := Nat.mod_lt (byteAt bytes i) (y := 32) (by omega)
        have := Nat.mod_lt (byteAt bytes (i + 1)) (y := 64) (by omega)
        omega
      split_ifs <;> omega
  · by_cases h240 : byteAt bytes i < 240
    · have hcc : contCount (byteAt bytes i) = 2 := by
        rw [contCount, if_neg h224, if_pos h240]
      have hv2 : validUtf8Aux 2 (bytes.drop (i + 1)) = true := by
        have hx := hl.2.2
        rw [hcc] at hx
        exact hx
      have hdc := validUtf8Aux_drop_conts bytes 2 (i + 1) hv2
      have hp1 : i + 1 < bytes.length := by
        have := hdc.2 (by omega)
        omega
      have hp2 : i + 2 < bytes.length := by
        have := hdc.2 (by omega)
        omega
      have hcons1 := drop_eq_byteAt_cons bytes (i + 1) hp1
      have hcons2 := drop_eq_byteAt_cons bytes (i + 2) hp2
      have hsplit : isUtf8Cont (byteAt bytes (i + 1)) = true
          ∧ validUtf8Aux 1 (bytes.drop (i + 2)) = true := by
        rw [hcons1] at hv2
        exact validUtf8Aux_cons_cont 1 _ _ hv2
      have hcont2 : isUtf8Cont (byteAt bytes (i + 2)) = true := by
        have := hsplit.2
        rw [hcons2] at this
        exact (validUtf8Aux_cons_cont 0 _ _ this).1
      have hc1 := hsplit.1
      rw [isUtf8Cont, Bool.and_eq_true, decide_eq_true_eq, decide_eq_true_eq] at hc1 hcont2
      refine ⟨3, (byteAt bytes i % 16) * 4096 + (byteAt bytes (i + 1) % 64) * 64
          + byteAt bytes (i + 2) % 64, ?_, by omega,
        by have := hdc.2 (by omega); omega, hdc.1, ?_⟩
      · rw [drop_eq_byteAt_cons bytes i hi, hcons1, hcons2, decodeUtf8WithLen]
        rw [if_neg (by omega),
          if_neg (by simp only [Bool.and_eq_true, decide_eq_true_eq]; omega),
          if_pos (by simp only [Bool.and_eq_true, decide_eq_true_eq]; omega)]
        show (if (byteAt bytes (i + 1) / 64 == 2 && byteAt bytes (i + 2) / 64 == 2) = true
            then (3, byteAt bytes i % 16 * 4096 + byteAt bytes (i + 1) % 64 * 64
              + byteAt bytes (i + 2) % 64)
            else (1, 65533))
          = (3, byteAt bytes i % 16 * 4096 + byteAt bytes (i + 1) % 64 * 64
              + byteAt bytes (i + 2) % 64)
        rw [if_pos (by
          simp only [Bool.and_eq_true, beq_iff_eq]
          omega)]
      · rw [encodeUtf8Raw_length]
        have h1 : byteAt bytes i % 16 < 16 := Nat.mod_lt _ (by omega)
        have h2 : byteAt bytes (i + 1) % 64 < 64 := Nat.mod_lt _ (by omega)
        have h3 : byteAt bytes (i + 2) % 64 < 64 := Nat.mod_lt _ (by omega)
        split_ifs <;> omega
    · have hcc : contCount (byteAt bytes i) = 3 := by
        rw [contCount, if_neg h224, if_neg h240]
      have hv3 : validUtf8Aux 3 (bytes.drop (i + 1)) = true := by
        have hx := hl.2.2
        rw [hcc] at hx
        exact hx
      have hdc := validUtf8Aux_drop_conts bytes 3 (i + 1) hv3
      have hp1 : i + 1 < bytes.length := by
        have := hdc.2 (by omega)
        omega
      have hp2 : i + 2 < bytes.length := by
        have := hdc.2 (by omega)
        omega
      have hp3 : i + 3 < bytes.length := by
        have := hdc.2 (by omega)
        omega
      have hcons1 := drop_eq_byteAt_cons bytes (i + 1) hp1
      have hcons2 := drop_eq_byteAt_cons bytes (i + 2) hp2
      have hcons3 := drop_eq_byteAt_cons bytes (i + 3) hp3
      have hsplit1 : isUtf8Cont (byteAt bytes (i + 1)) = true
          ∧ validUtf8Aux 2 (bytes.drop (i + 2)) = true := by
        rw [hcons1] at hv3
        exact validUtf8Aux_cons_cont 2 _ _ hv3
      have hsplit2 : isUtf8Cont (byteAt bytes (i + 2)) = true
          ∧ validUtf8Aux 1 (bytes.drop (i + 3)) = true := by
        have := hsplit1.2
        rw [hcons2] at this
        exact validUtf8Aux_cons_cont 1 _ _ this
      have hcont3 : isUtf8Cont (byteAt bytes (i + 3)) = true := by
        have := hsplit2.2
        rw [hcons3] at this
        exact (validUtf8Aux_cons_cont 0 _ _ this).1
      have hc1 := hsplit1.1
      have hc2 := hsplit2.1
      rw [isUtf8Cont, Bool.and_eq_true, decide_eq_true_eq, decide_eq_true_eq] at hc1 hc2 hcont3
      refine ⟨4, (byteAt bytes i % 8) * 262144 + (byteAt bytes (i + 1) % 64) * 4096
          + (byteAt bytes (i + 2) % 64) * 64 + byteAt bytes (i + 3) % 64, ?_, by omega,
        by have := hdc.2 (by omega); omega, hdc.1, ?_⟩
      · rw [drop_eq_byteAt_cons bytes i hi, hcons1, hcons2, hcons3, decodeUtf8WithLen]
        rw [if_neg (by omega),
          if_neg (by simp only [Bool.and_eq_true, decide_eq_true_eq]; omega),
          if_neg (by simp only [Bool.and_eq_true, decide_eq_true_eq]; omega),
          if_pos (by simp only [Bool.and_eq_true, decide_eq_true_eq]; omega)]
        show (if (byteAt bytes (i + 1) / 64 == 2 && byteAt bytes (i + 2) / 64 == 2
              && byteAt bytes (i + 3) / 64 == 2) = true
            then (4, byteAt bytes i % 8 * 262144 + byteAt bytes (i + 1) % 64 * 4096
              + byteAt bytes (i + 2) % 64 * 64 + byteAt bytes (i + 3) % 64)
            else (1, 65533))
          = (4, byteAt bytes i % 8 * 262144 + byteAt bytes (i + 1) % 64 * 4096
              + byteAt bytes (i + 2) % 64 * 64 + byteAt bytes (i + 3) % 64)
        rw [if_pos (by
          simp only [Bool.and_eq_true, beq_iff_eq]
          omega)]
      · rw [encodeUtf8Raw_length]
        split_ifs <;> omega

end Solar

namespace Solar

theorem seqFrom_range (hi : Nat) (f : Nat → EscRes) :
    ∀ n s lo, lo ≤ s → s + n ≤ hi →
      seqFrom hi lo ((List.range' s n).map (fun j => (j, j + 1, f j))) = true
      ∧ endAfter lo ((List.range' s n).map (fun j => (j, j + 1, f j))) ≤ s + n := by
  intro n
  induction n with
  | zero =>
    intro s lo h1 h2
    simp only [List.range'_zero, List.map_nil]
    exact ⟨rfl, by rw [endAfter]; omega⟩
  | succ n ih =>
    intro s lo h1 h2
    rw [List.range'_succ, List.map_cons]
    have hrec := ih (s + 1) (s + 1) (Nat.le_refl _) (by omega)
    constructor
    · rw [seqFrom]
      simp only [Bool.and_eq_true, decide_eq_true_eq]
      exact ⟨⟨⟨h1, by omega⟩, by omega⟩, hrec.1⟩
    · rw [endAfter]
      show endAfter (s + 1) ((List.range' (s + 1) n).map (fun j => (j, j + 1, f j))) ≤ s + (n + 1)
      have := hrec.2
      omega

theorem outLen_range (bytes : List Nat) :
    ∀ n s, (∀ j, s ≤ j → j < s + n → byteAt bytes j < 128) →
      outLen ((List.range' s n).map (fun j => (j, j + 1, EscRes.ok (byteAt bytes j)))) = n := by
  intro n
  induction n with
  | zero =>
    intro s _
    simp only [List.range'_zero, List.map_nil]
    rfl
  | succ n ih =>
    intro s h
    rw [List.range'_succ, List.map_cons, outLen_cons]
    have hrec := ih (s + 1) (fun j h1 h2 => h j (by omega) (by omega))
    rw [hrec]
    have hb : byteAt bytes s < 128 := h s (Nat.le_refl _) (by omega)
    show (encodeUtf8Raw (byteAt bytes s)).length + n = n + 1
    rw [encodeUtf8Raw_length, if_pos hb]
    omega

end Solar

namespace Solar

/-- The `unescape_str` loop: on valid UTF-8, callback ranges stay within
`[i, len]`, are well-formed and chained non-overlapping in order, and the
total unescaped output fits in the remaining source bytes. -/
theorem unescapeStrAux_spec (bytes : List Nat) (u : Bool) :
    ∀ fuel i, i ≤ bytes.length → validUtf8Aux 0 (bytes.drop i) = true →
      seqFrom bytes.length i (unescapeStrAux bytes u fuel i) = true
      ∧ outLen (unescapeStrAux bytes u fuel i) ≤ bytes.length - i := by
  intro fuel
  induction fuel with
  | zero =>
    intro i h hv
    rw [unescapeStrAux]
    exact ⟨rfl, by rw [outLen_nil]; omega⟩
  | succ fuel ih =>
    intro i h hv
    rw [unescapeStrAux]
    by_cases hi : i < bytes.length
    · rw [if_pos hi]
      by_cases h92 : (byteAt bytes i == 92) = true
      · rw [if_pos h92]
        rw [beq_iff_eq] at h92
        have hv1 : validUtf8Aux 0 (bytes.drop (i + 1)) = true :=
          ascii_head_step bytes i hv (by omega) hi
        by_cases hend : bytes.length ≤ i + 1
        · rw [if_pos hend]
          constructor
          · rw [seqFrom]
            simp only [Bool.and_eq_true, decide_eq_true_eq]
            exact ⟨⟨⟨Nat.le_refl _, by omega⟩, by omega⟩, rfl⟩
          · have he : outLen [(i, i + 1, EscRes.err EscapeError.LoneSlash)] = 0 := rfl
            rw [he]
            omega
        · rw [if_neg hend]
          simp only []
          by_cases hcrlf : (byteAt bytes (i + 1) == 13 && decide (i + 2 < bytes.length)
              && byteAt bytes (i + 2) == 10) = true
          · rw [if_pos hcrlf]
            rw [Bool.and_eq_true, Bool.and_eq_true, beq_iff_eq, decide_eq_true_eq,
              beq_iff_eq] at hcrlf
            have hv2 : validUtf8Aux 0 (bytes.drop (i + 2)) = true :=
              ascii_head_step bytes (i + 1) hv1 (by omega) (by omega)
            have hv3 : validUtf8Aux 0 (bytes.drop (i + 3)) = true :=
              ascii_head_step bytes (i + 2) hv2 (by omega) (by omega)
            have hsk := skipAsciiWsAux_spec bytes (bytes.length + 1) (i + 3)
              (by omega) hv3
            have hrec := ih (skipAsciiWsAux bytes (bytes.length + 1) (i + 3)).2
              hsk.2.1 hsk.2.2.1
            constructor
            · rw [seqFrom_append, Bool.and_eq_true]
              refine ⟨seqFrom_mono _ (i + 3) i _ (by omega) hsk.2.2.2.2.1, ?_⟩
              refine seqFrom_mono _ (skipAsciiWsAux bytes (bytes.length + 1) (i + 3)).2 _ _
                ?_ hrec.1
              exact endAfter_le _ (i + 3) _ _ hsk.2.2.2.2.2 (by omega)
            · rw [outLen_append, hsk.2.2.2.1]
              have := hrec.2
              have := hsk.1
              omega
          · rw [if_neg hcrlf]
            by_cases hnl : (byteAt bytes (i + 1) == 10) = true
            · rw [if_pos hnl]
              rw [beq_iff_eq] at hnl
              have hv2 : validUtf8Aux 0 (bytes.drop (i + 2)) = true :=
                ascii_head_step bytes (i + 1) hv1 (by omega) (by omega)
              have hsk := skipAsciiWsAux_spec bytes (bytes.length + 1) (i + 2)
                (by omega) hv2
              have hrec := ih (skipAsciiWsAux bytes (bytes.length + 1) (i + 2)).2
                hsk.2.1 hsk.2.2.1
              constructor
              · rw [seqFrom_append, Bool.and_eq_true]
                refine ⟨seqFrom_mono _ (i + 2) i _ (by omega) hsk.2.2.2.2.1, ?_⟩
                refine seqFrom_mono _ (skipAsciiWsAux bytes (bytes.length + 1) (i + 2)).2 _ _
                  ?_ hrec.1
                exact endAfter_le _ (i + 2) _ _ hsk.2.2.2.2.2 (by omega)
              · rw [outLen_append, hsk.2.2.2.1]
                have := hrec.2
                have := hsk.1
                omega
            · rw [if_neg hnl]
              have hfac := scanEscape_facts (bytes.drop (i + 1))
                (scanEscape (bytes.drop (i + 1))).1 (scanEscape (bytes.drop (i + 1))).2 rfl
              have hval := scanEscape_valid bytes (i + 1)
                (scanEscape (bytes.drop (i + 1))).1 (scanEscape (bytes.drop (i + 1))).2
                hv1 (by omega) rfl
              rw [List.length_drop] at hfac
              have e : i + (1 + (scanEscape (bytes.drop (i + 1))).2)
                  = i + 1 + (scanEscape (bytes.drop (i + 1))).2 := by omega
              rw [e]
              have hrec := ih (i + 1 + (scanEscape (bytes.drop (i + 1))).2)
                hval.1 hval.2
              constructor
              · rw [seqFrom]
                simp only [Bool.and_eq_true, decide_eq_true_eq]
                exact ⟨⟨⟨Nat.le_refl _, by omega⟩, by have := hval.1; omega⟩, hrec.1⟩
              · rw [outLen_cons]
                have hev : evOut (i, i + 1 + (scanEscape (bytes.drop (i + 1))).2,
                    (scanEscape (bytes.drop (i + 1))).1)
                    ≤ 1 + (scanEscape (bytes.drop (i + 1))).2 := by
                  cases hres : (scanEscape (bytes.drop (i + 1))).1 with
                  | ok v =>
                    have := hfac.2 v hres
                    rw [evOut]
                    simp only []
                    exact this
                  | err e => rw [evOut]; simp only []; omega
                have := hrec.2
                have := hval.1
                omega
      · rw [if_neg h92]
        by_cases hnl : (byteAt bytes i == 10) = true
        · rw [if_pos hnl]
          rw [beq_iff_eq] at hnl
          have hv1 : validUtf8Aux 0 (bytes.drop (i + 1)) = true :=
            ascii_head_step bytes i hv (by omega) hi
          have hrec := ih (i + 1) (by omega) hv1
          constructor
          · rw [seqFrom]
            simp only [Bool.and_eq_true, decide_eq_true_eq]
            exact ⟨⟨⟨Nat.le_refl _, by omega⟩, by omega⟩, hrec.1⟩
          · rw [outLen_cons]
            have hev : evOut (i, i + 1, EscRes.err EscapeError.StrNewline) = 0 := rfl
            rw [hev]
            have := hrec.2
            omega
        · rw [if_neg hnl]
          by_cases hcr : (byteAt bytes i == 13) = true
          · rw [if_pos hcr]
            rw [beq_iff_eq] at hcr
            have hv1 : validUtf8Aux 0 (bytes.drop (i + 1)) = true :=
              ascii_head_step bytes i hv (by omega) hi
            have hrec := ih (i + 1) (by omega) hv1
            by_cases hcrn : (decide (i + 1 < bytes.length)
                && byteAt bytes (i + 1) == 10) = true
            · rw [if_pos hcrn]
              exact ⟨seqFrom_mono _ (i + 1) i _ (by omega) hrec.1, by have := hrec.2; omega⟩
            · rw [if_neg hcrn]
              constructor
              · rw [seqFrom]
                simp only [Bool.and_eq_true, decide_eq_true_eq]
                exact ⟨⟨⟨Nat.le_refl _, by omega⟩, by omega⟩, hrec.1⟩
              · rw [outLen_cons]
                have hev : evOut (i, i + 1, EscRes.err EscapeError.BareCarriageReturn)
                    = 0 := rfl
                rw [hev]
                have := hrec.2
                omega
          · rw [if_neg hcr]
            by_cases hascii : byteAt bytes i < 128
            · rw [if_pos hascii]
              have hfn := findNextNonAsciiOrSpecial_facts bytes (bytes.length + 1) i
                (by omega)
              by_cases hrun : i + 1 < findNextNonAsciiOrSpecial bytes (bytes.length + 1) i
              · rw [if_pos hrun]
                have hrec := ih (findNextNonAsciiOrSpecial bytes (bytes.length + 1) i)
                  hfn.2.1 (hfn.2.2.2 hv)
                have hsr := seqFrom_range bytes.length
                  (fun j => EscRes.ok (byteAt bytes j))
                  (findNextNonAsciiOrSpecial bytes (bytes.length + 1) i - i) i i
                  (Nat.le_refl _) (by omega)
                simp only [] at hsr
                constructor
                · rw [seqFrom_append, Bool.and_eq_true]
                  refine ⟨hsr.1, ?_⟩
                  refine seqFrom_mono _
                    (findNextNonAsciiOrSpecial bytes (bytes.length + 1) i) _ _ ?_ hrec.1
                  have := hsr.2
                  omega
                · rw [outLen_append,
                    outLen_range bytes
                      (findNextNonAsciiOrSpecial bytes (bytes.length + 1) i - i) i
                      (fun j h1 h2 => hfn.2.2.1 j h1 (by omega))]
                  have := hrec.2
                  omega
              · rw [if_neg hrun]
                have hv1 : validUtf8Aux 0 (bytes.drop (i + 1)) = true :=
                  ascii_head_step bytes i hv hascii hi
                have hrec := ih (i + 1) (by omega) hv1
                constructor
                · rw [seqFrom]
                  simp only [Bool.and_eq_true, decide_eq_true_eq]
                  exact ⟨⟨⟨Nat.le_refl _, by omega⟩, by omega⟩, hrec.1⟩
                · rw [outLen_cons]
                  have hev : evOut (i, i + 1, EscRes.ok (byteAt bytes i))
                      = (encodeUtf8Raw (byteAt bytes i)).length := rfl
                  rw [hev, encodeUtf8Raw_length, if_pos hascii]
                  have := hrec.2
                  omega
            · rw [if_neg hascii]
              obtain ⟨n, cp, hdeq, hn, hbnd, hvn, henc⟩ :=
                decodeUtf8WithLen_valid bytes i hv hi (by omega)
              rw [hdeq]
              simp only []
              have hact : min n (bytes.length - i) = n := by omega
              rw [hact]
              have hrec := ih (i + n) hbnd hvn
              have hcc : 0 < contCount (byteAt bytes i) := by
                rw [contCount]
                split_ifs <;> omega
              by_cases hu : (!u) = true
              · rw [if_pos hu]
                constructor
                · rw [seqFrom]
                  simp only [Bool.and_eq_true, decide_eq_true_eq]
                  exact ⟨⟨⟨Nat.le_refl _, by omega⟩, by omega⟩, hrec.1⟩
                · rw [outLen_cons]
                  have hev : evOut (i, i + n, EscRes.err EscapeError.StrNonAsciiChar)
                      = 0 := rfl
                  rw [hev]
                  have := hrec.2
                  omega
              · rw [if_neg hu]
                constructor
                · rw [seqFrom]
                  simp only [Bool.and_eq_true, decide_eq_true_eq]
                  exact ⟨⟨⟨Nat.le_refl _, by omega⟩, by omega⟩, hrec.1⟩
                · rw [outLen_cons]
                  have hev : evOut (i, i + n, EscRes.ok cp)
                      = (encodeUtf8Raw cp).length := rfl
                  rw [hev]
                  have := hrec.2
                  omega
    · rw [if_neg hi]
      exact ⟨rfl, by rw [outLen_nil]; omega⟩

end Solar

namespace Solar

theorem hexLoop_emitU_false (bytes : List Nat) :
    ∀ fuel i aU ev, (hexLoop bytes fuel i false aU ev).2 = false := by
  intro fuel
  induction fuel with
  | zero => intro i aU ev; rfl
  | succ fuel ih =>
    intro i aU ev
    rw [hexLoop]
    cases hd : decodeChar (bytes.drop i) with
    | none => rfl
    | some ck =>
      obtain ⟨c, k⟩ := ck
      simp only []
      by_cases h95 : (c == 95) = true
      · rw [if_pos h95]
        rw [if_neg (by simp)]
        exact ih (i + k) false ev
      · rw [if_neg h95]
        by_cases hhex : (!isAsciiHexdigit c) = true
        · rw [if_pos hhex]
          exact ih (i + k) aU ev
        · rw [if_neg hhex]
          exact ih (i + k) true (!ev)

/-- The `unescape_hex_str` char walk: on valid UTF-8, callback ranges are
chained in bounds; output is at most the remaining bytes; and if the
underscore-error flag survives and the last byte is `_`, every emitted range
ends before that final underscore. -/
theorem hexLoop_spec (bytes : List Nat) :
    ∀ fuel i eU aU ev, i ≤ bytes.length → validUtf8Aux 0 (bytes.drop i) = true →
      seqFrom bytes.length i (hexLoop bytes fuel i eU aU ev).1 = true
      ∧ outLen (hexLoop bytes fuel i eU aU ev).1 ≤ bytes.length - i
      ∧ ((hexLoop bytes fuel i eU aU ev).2 = true → byteAt bytes (bytes.length - 1) = 95 →
          ∀ evnt ∈ (hexLoop bytes fuel i eU aU ev).1, evnt.2.1 ≤ bytes.length - 1) := by
  intro fuel
  induction fuel with
  | zero =>
    intro i eU aU ev h hv
    refine ⟨rfl, ?_, ?_⟩
    · show outLen [] ≤ bytes.length - i
      rw [outLen_nil]
      omega
    · intro _ _ evnt hm
      have hm2 : evnt ∈ ([] : List UEvent) := hm
      cases hm2
  | succ fuel ih =>
    intro i eU aU ev h hv
    rw [hexLoop]
    by_cases hi : i < bytes.length
    · obtain ⟨c, k, hdc, hk1, hkb, hval, hasc, hlead, hconts⟩ :=
        decodeChar_valid bytes i hv hi
      rw [hdc]
      simp only []
      have hlast : ∀ res : EscRes, (c == 95) = false → i + k = bytes.length →
          byteAt bytes (bytes.length - 1) = 95 → False := by
        intro res hne hik h95
        by_cases hb : byteAt bytes i < 128
        · have := hasc hb
          rw [beq_eq_false_iff_ne] at hne
          have : c = 95 := by
            rw [this.2]
            have : i = bytes.length - 1 := by omega
            rw [this, h95]
          exact hne this
        · have hk2 : 2 ≤ k := by
            have := hlead (by omega)
            have hcc : 1 ≤ contCount (byteAt bytes i) := by
              rw [contCount]
              split_ifs <;> omega
            omega
          have := hconts (bytes.length - 1) (by omega) (by omega)
          omega
      by_cases h95 : (c == 95) = true
      · rw [if_pos h95]
        by_cases hemit : (eU && (!aU || !ev)) = true
        · rw [if_pos hemit]
          simp only []
          have hrec := ih (i + k) false aU ev hkb hval
          have hfalse := hexLoop_emitU_false bytes fuel (i + k) aU ev
          refine ⟨?_, ?_, ?_⟩
          · rw [seqFrom]
            simp only [Bool.and_eq_true, decide_eq_true_eq]
            exact ⟨⟨⟨Nat.le_refl _, by omega⟩, by omega⟩, hrec.1⟩
          · rw [outLen_cons]
            have hev : evOut (i, i + k, EscRes.err EscapeError.HexBadUnderscore)
                = 0 := rfl
            rw [hev]
            have := hrec.2.1
            omega
          · intro htrue
            rw [hfalse] at htrue
            exact absurd htrue (by simp)
        · rw [if_neg hemit]
          exact ih (i + k) eU false ev hkb hval |>.imp
            (fun h1 => seqFrom_mono _ (i + k) i _ (by omega) h1)
            (fun h2 => ⟨by have := h2.1; omega, h2.2⟩)
      · rw [if_neg h95]
        by_cases hhex : (!isAsciiHexdigit c) = true
        · rw [if_pos hhex]
          simp only []
          have hrec := ih (i + k) eU aU ev hkb hval
          refine ⟨?_, ?_, ?_⟩
          · rw [seqFrom]
            simp only [Bool.and_eq_true, decide_eq_true_eq]
            exact ⟨⟨⟨Nat.le_refl _, by omega⟩, by omega⟩, hrec.1⟩
          · rw [outLen_cons]
            have hev : evOut (i, i + k, EscRes.err EscapeError.HexNotHexDigit)
                = 0 := rfl
            rw [hev]
            have := hrec.2.1
            omega
          · intro htrue h95b evnt hm
            rw [List.mem_cons] at hm
            cases hm with
            | inl hm =>
              rw [hm]
              show i + k ≤ bytes.length - 1
              have : i + k ≠ bytes.length := by
                intro hik
                exact hlast (EscRes.err EscapeError.HexNotHexDigit)
                  (by rw [Bool.eq_false_iff]; intro hx; exact absurd hx h95) hik h95b
              omega
            | inr hm => exact hrec.2.2 htrue h95b evnt hm
        · rw [if_neg hhex]
          simp only []
          rw [Bool.not_eq_true', Bool.not_eq_false] at hhex
          have hrec := ih (i + k) eU true (!ev) hkb hval
          refine ⟨?_, ?_, ?_⟩
          · rw [seqFrom]
            simp only [Bool.and_eq_true, decide_eq_true_eq]
            exact ⟨⟨⟨Nat.le_refl _, by omega⟩, by omega⟩, hrec.1⟩
          · rw [outLen_cons]
            have hev : evOut (i, i + k, EscRes.ok c)
                = (encodeUtf8Raw c).length := rfl
            have hc128 : c < 128 := isAsciiHexdigit_lt c hhex
            rw [hev, encodeUtf8Raw_length, if_pos hc128]
            have := hrec.2.1
            omega
          · intro htrue h95b evnt hm
            rw [List.mem_cons] at hm
            cases hm with
            | inl hm =>
              rw [hm]
              show i + k ≤ bytes.length - 1
              have : i + k ≠ bytes.length := by
                intro hik
                exact hlast (EscRes.ok c)
                  (by rw [Bool.eq_false_iff]; intro hx; exact absurd hx h95) hik h95b
              omega
            | inr hm => exact hrec.2.2 htrue h95b evnt hm
    · have hnil : bytes.drop i = [] := List.drop_eq_nil_of_le (by omega)
      rw [hnil]
      have hdn : decodeChar ([] : List Nat) = none := rfl
      rw [hdn]
      refine ⟨rfl, ?_, ?_⟩
      · show outLen [] ≤ bytes.length - i
        rw [outLen_nil]
        omega
      · intro _ _ evnt hm
        have hm2 : evnt ∈ ([] : List UEvent) := hm
        cases hm2

end Solar

namespace Solar

theorem charIndicesEventsAux_spec (bytes : List Nat) :
    ∀ fuel i, i ≤ bytes.length → validUtf8Aux 0 (bytes.drop i) = true →
      seqFrom bytes.length i (charIndicesEventsAux bytes fuel i) = true := by
  intro fuel
  induction fuel with
  | zero =>
    intro i h hv
    rw [charIndicesEventsAux]
    rfl
  | succ fuel ih =>
    intro i h hv
    rw [charIndicesEventsAux]
    by_cases hi : i < bytes.length
    · obtain ⟨c, k, hdc, hk1, hkb, hval, _, _, _⟩ := decodeChar_valid bytes i hv hi
      rw [hdc]
      simp only []
      rw [seqFrom]
      simp only [Bool.and_eq_true, decide_eq_true_eq]
      exact ⟨⟨⟨Nat.le_refl _, by omega⟩, by omega⟩, ih (i + k) hkb hval⟩
    · have hnil : bytes.drop i = [] := List.drop_eq_nil_of_le (by omega)
      rw [hnil]
      have hdn : decodeChar ([] : List Nat) = none := rfl
      rw [hdn]
      rfl

theorem foldrOut_length (evs : List UEvent) :
    (evs.foldr (fun ev acc =>
      match ev.2.2 with
      | EscRes.ok c => encodeUtf8Raw c ++ acc
      | EscRes.err _ => acc) []).length = outLen evs := by
  induction evs with
  | nil => rfl
  | cons ev rest ih =>
    rw [List.foldr_cons, outLen_cons]
    cases hres : ev.2.2 with
    | ok c =>
      simp only []
      rw [List.length_append, ih]
      have hev : evOut ev = (encodeUtf8Raw c).length := by
        rw [evOut, hres]
      rw [hev]
    | err e =>
      simp only []
      rw [ih]
      have hev : evOut ev = 0 := by
        rw [evOut, hres]
      rw [hev]
      omega

theorem parseLiteralUnescape_length (src : List Nat) (mode : Mode) :
    (parseLiteralUnescape src mode).length = outLen (unescapeLiteralUnchecked src mode) := by
  rw [parseLiteralUnescape]
  exact foldrOut_length _

theorem hexDecode_length (n : Nat) :
    ∀ l r, l.length ≤ n → hexDecode l = some r → l.length = 2 * r.length := by
  induction n with
  | zero =>
    intro l r hl h
    match l with
    | [] =>
      rw [hexDecode] at h
      rw [Option.some_inj] at h
      rw [← h]
      rfl
    | [a] => simp at hl
    | a :: b :: rest => simp at hl
  | succ n ih =>
    intro l r hl h
    match l with
    | [] =>
      rw [hexDecode] at h
      rw [Option.some_inj] at h
      rw [← h]
      rfl
    | [a] =>
      rw [hexDecode] at h
      exact absurd h (by simp)
    | a :: b :: rest =>
      rw [hexDecode] at h
      cases ht1 : toDigit16 a with
      | none => rw [ht1] at h; exact absurd h (by simp)
      | some x =>
        rw [ht1] at h
        cases ht2 : toDigit16 b with
        | none => rw [ht2] at h; exact absurd h (by simp)
        | some y =>
          rw [ht2] at h
          cases hr : hexDecode rest with
          | none => rw [hr] at h; exact absurd h (by simp)
          | some r2 =>
            rw [hr] at h
            simp only [Option.some_inj] at h
            have hrest := ih rest r2 (by
              simp only [List.length_cons] at hl
              omega) hr
            rw [← h]
            simp only [List.length_cons]
            omega

end Solar

namespace Solar

theorem hexPrefix_facts (src : List Nat)
    (hp : (src.take 2 == [48, 120] || src.take 2 == [48, 88]) = true) :
    2 ≤ src.length ∧ byteAt src 0 = 48 ∧ (byteAt src 1 = 120 ∨ byteAt src 1 = 88) := by
  rw [Bool.or_eq_true, beq_iff_eq, beq_iff_eq] at hp
  rcases hp with hp | hp
  · have hl : (src.take 2).length = 2 := by rw [hp]; rfl
    rw [List.length_take] at hl
    have h2 : 2 ≤ src.length := by omega
    refine ⟨h2, ?_, Or.inl ?_⟩
    · have := byteAt_take_of_lt src (i := 0) (n := 2) (by omega)
      rw [hp] at this
      exact this.symm
    · have := byteAt_take_of_lt src (i := 1) (n := 2) (by omega)
      rw [hp] at this
      exact this.symm
  · have hl : (src.take 2).length = 2 := by rw [hp]; rfl
    rw [List.length_take] at hl
    have h2 : 2 ≤ src.length := by omega
    refine ⟨h2, ?_, Or.inr ?_⟩
    · have := byteAt_take_of_lt src (i := 0) (n := 2) (by omega)
      rw [hp] at this
      exact this.symm
    · have := byteAt_take_of_lt src (i := 1) (n := 2) (by omega)
      rw [hp] at this
      exact this.symm

theorem validUtf8_at_two (src : List Nat) (hv : validUtf8 src = true)
    (hp : (src.take 2 == [48, 120] || src.take 2 == [48, 88]) = true) :
    validUtf8Aux 0 (src.drop 2) = true := by
  obtain ⟨h2, h0, h1⟩ := hexPrefix_facts src hp
  have hv0 : validUtf8Aux 0 (src.drop 0) = true := by
    rw [List.drop_zero]
    exact hv
  have hv1 : validUtf8Aux 0 (src.drop 1) = true := by
    have := ascii_head_step src 0 hv0 (by omega) (by omega)
    simpa using this
  exact ascii_head_step src 1 hv1 (by rcases h1 with h | h <;> omega) (by omega)

theorem unescapeHexStr_outLen (src : List Nat) (hv : validUtf8 src = true) :
    outLen (unescapeHexStr src) ≤ src.length := by
  rw [unescapeHexStr]
  simp only []
  by_cases hpre : (src.take 2 == [48, 120] || src.take 2 == [48, 88]) = true
  · rw [if_pos hpre, if_pos hpre]
    by_cases hodd : (charHexCount (src.length + 1) (src.drop 2) % 2 != 0) = true
    · rw [if_pos hodd]
      have hz : outLen ([(0, 2, EscRes.err EscapeError.HexPrefix)]
          ++ [(0, src.length, EscRes.err EscapeError.HexOddDigits)]) = 0 := rfl
      rw [hz]
      omega
    · rw [if_neg hodd]
      have hvp := validUtf8_at_two src hv hpre
      have h2 := (hexPrefix_facts src hpre).1
      have hhl := hexLoop_spec src (src.length + 1) 2 true false true (by omega) hvp
      rw [outLen_append, outLen_append]
      have hz1 : outLen [(0, 2, EscRes.err EscapeError.HexPrefix)] = 0 := rfl
      have hz2 : outLen (if (hexLoop src (src.length + 1) 2 true false true).2
            && decide (1 < src.length) && src.getD (src.length - 1) 0 == 95
          then [(src.length - 1, src.length, EscRes.err EscapeError.HexBadUnderscore)]
          else []) = 0 := by
        split_ifs <;> rfl
      rw [hz1, hz2]
      have := hhl.2.1
      omega
  · rw [if_neg hpre, if_neg hpre]
    by_cases hodd : (charHexCount (src.length + 1) (src.drop 0) % 2 != 0) = true
    · rw [if_pos hodd]
      have hz : outLen (([] : List UEvent)
          ++ [(0, src.length, EscRes.err EscapeError.HexOddDigits)]) = 0 := rfl
      rw [hz]
      omega
    · rw [if_neg hodd]
      have hv0 : validUtf8Aux 0 (src.drop 0) = true := by
        rw [List.drop_zero]
        exact hv
      have hhl := hexLoop_spec src (src.length + 1) 0 true false true (by omega) hv0
      rw [outLen_append, outLen_append]
      have hz1 : outLen ([] : List UEvent) = 0 := rfl
      have hz2 : outLen (if (hexLoop src (src.length + 1) 0 true false true).2
            && decide (1 < src.length) && src.getD (src.length - 1) 0 == 95
          then [(src.length - 1, src.length, EscRes.err EscapeError.HexBadUnderscore)]
          else []) = 0 := by
        split_ifs <;> rfl
      rw [hz1, hz2]
      have := hhl.2.1
      omega

end Solar

namespace Solar

/-- C3: for every source text (a Rust `&str`, hence valid UTF-8) and every
mode, `try_parse_string_literal` returns a decoded byte payload of length at
most the byte length of the source string. -/
theorem C3_decoded_length_le (src : List Nat) (mode : Mode)
    (hv : validUtf8 src = true) :
    (tryParseStringLiteral src mode).length ≤ src.length := by
  rw [tryParseStringLiteral]
  have hv0 : validUtf8Aux 0 (src.drop 0) = true := by
    rw [List.drop_zero]
    exact hv
  by_cases hneed : needsUnescape src mode = true
  · rw [if_pos hneed]
    have hlen : (parseLiteralUnescape src mode).length ≤ src.length := by
      rw [parseLiteralUnescape_length]
      cases mode with
      | Str =>
        rw [unescapeLiteralUnchecked, unescapeStr]
        have := (unescapeStrAux_spec src false (src.length + 1) 0 (by omega) hv0).2
        omega
      | UnicodeStr =>
        rw [unescapeLiteralUnchecked, unescapeStr]
        have := (unescapeStrAux_spec src true (src.length + 1) 0 (by omega) hv0).2
        omega
      | HexStr =>
        rw [unescapeLiteralUnchecked]
        exact unescapeHexStr_outLen src hv
    by_cases hm : (mode == Mode.HexStr) = true
    · rw [if_pos hm]
      cases hdec : hexDecode (parseLiteralUnescape src mode) with
      | some decoded =>
        simp only []
        have := hexDecode_length (parseLiteralUnescape src mode).length
          (parseLiteralUnescape src mode) decoded (Nat.le_refl _) hdec
        omega
      | none =>
        simp only []
        exact hlen
    · rw [if_neg hm]
      exact hlen
  · rw [if_neg hneed]
    by_cases hm : (mode == Mode.HexStr) = true
    · rw [if_pos hm]
      cases hdec : hexDecode src with
      | some decoded =>
        simp only []
        have := hexDecode_length src.length src decoded (Nat.le_refl _) hdec
        omega
      | none =>
        simp only []
        exact Nat.le_refl _
    · rw [if_neg hm]

theorem C3_decoded_length_le_witness :
    validUtf8 [97, 92, 110] = true
    ∧ (tryParseStringLiteral [97, 92, 110] Mode.Str).length
        ≤ ([97, 92, 110] : List Nat).length :=
  ⟨by decide, C3_decoded_length_le [97, 92, 110] Mode.Str (by decide)⟩

end Solar

namespace Solar

theorem endAfter_append (a b : List UEvent) :
    ∀ lo, endAfter lo (a ++ b) = endAfter (endAfter lo a) b := by
  induction a with
  | nil =>
    intro lo
    rw [List.nil_append, endAfter]
  | cons ev rest ih =>
    intro lo
    rw [List.cons_append, endAfter, endAfter, ih]

theorem unescapeHexStr_seqFrom (src : List Nat) (hv : validUtf8 src = true)
    (hx : ¬((src.take 2 == [48, 120] || src.take 2 == [48, 88]) = true
        ∧ (charHexCount (src.length + 1) (src.drop 2) % 2 != 0) = true)) :
    seqFrom src.length 0 (unescapeHexStr src) = true := by
  rw [unescapeHexStr]
  simp only []
  by_cases hpre : (src.take 2 == [48, 120] || src.take 2 == [48, 88]) = true
  · rw [if_pos hpre, if_pos hpre]
    have hodd : ¬(charHexCount (src.length + 1) (src.drop 2) % 2 != 0) = true :=
      fun ho => hx ⟨hpre, ho⟩
    rw [if_neg hodd]
    have h2 := (hexPrefix_facts src hpre).1
    have h1b := (hexPrefix_facts src hpre).2.2
    have hvp := validUtf8_at_two src hv hpre
    have hhl := hexLoop_spec src (src.length + 1) 2 true false true (by omega) hvp
    have hea : endAfter 0 [((0 : Nat), (2 : Nat), EscRes.err EscapeError.HexPrefix)]
        = 2 := rfl
    rw [seqFrom_append, Bool.and_eq_true]
    constructor
    · rw [seqFrom_append, Bool.and_eq_true]
      constructor
      · rw [seqFrom]
        simp only [Bool.and_eq_true, decide_eq_true_eq]
        exact ⟨⟨⟨by omega, by omega⟩, by omega⟩, rfl⟩
      · rw [hea]
        exact hhl.1
    · rw [endAfter_append, hea]
      by_cases htr : ((hexLoop src (src.length + 1) 2 true false true).2
          && decide (1 < src.length) && src.getD (src.length - 1) 0 == 95) = true
      · rw [if_pos htr]
        rw [Bool.and_eq_true, Bool.and_eq_true, decide_eq_true_eq, beq_iff_eq] at htr
        have h95 : byteAt src (src.length - 1) = 95 := htr.2
        have hmem := hhl.2.2 htr.1.1 h95
        have hlen3 : 3 ≤ src.length := by
          by_contra hc
          have hl2 : src.length = 2 := by omega
          rw [hl2] at h95
          norm_num at h95
          rcases h1b with hb | hb <;> omega
        have hend : endAfter 2 (hexLoop src (src.length + 1) 2 true false true).1
            ≤ src.length - 1 :=
          endAfter_le_of_mem _ _ 2 hmem (by omega)
        rw [seqFrom]
        simp only [Bool.and_eq_true, decide_eq_true_eq]
        exact ⟨⟨⟨hend, by omega⟩, by omega⟩, rfl⟩
      · rw [if_neg htr]
        rfl
  · rw [if_neg hpre, if_neg hpre]
    have hv0 : validUtf8Aux 0 (src.drop 0) = true := by
      rw [List.drop_zero]
      exact hv
    by_cases hodd : (charHexCount (src.length + 1) (src.drop 0) % 2 != 0) = true
    · rw [if_pos hodd]
      simp only [List.nil_append]
      rw [seqFrom]
      simp only [Bool.and_eq_true, decide_eq_true_eq]
      exact ⟨⟨⟨by omega, by omega⟩, by omega⟩, rfl⟩
    · rw [if_neg hodd]
      have hhl := hexLoop_spec src (src.length + 1) 0 true false true (by omega) hv0
      simp only [List.nil_append]
      rw [seqFrom_append, Bool.and_eq_true]
      refine ⟨hhl.1, ?_⟩
      by_cases htr : ((hexLoop src (src.length + 1) 0 true false true).2
          && decide (1 < src.length) && src.getD (src.length - 1) 0 == 95) = true
      · rw [if_pos htr]
        rw [Bool.and_eq_true, Bool.and_eq_true, decide_eq_true_eq, beq_iff_eq] at htr
        have h95 : byteAt src (src.length - 1) = 95 := htr.2
        have hmem := hhl.2.2 htr.1.1 h95
        have hend : endAfter 0 (hexLoop src (src.length + 1) 0 true false true).1
            ≤ src.length - 1 :=
          endAfter_le_of_mem _ _ 0 hmem (by omega)
        rw [seqFrom]
        simp only [Bool.and_eq_true, decide_eq_true_eq]
        exact ⟨⟨⟨hend, by omega⟩, by omega⟩, rfl⟩
      · rw [if_neg htr]
        rfl

end Solar

namespace Solar

/-- C2, counterexample to the claim as stated: on the valid UTF-8 source
`"0x1"` in mode `HexStr`, `unescape_literal` reports `HexPrefix` over `0..2`
and then `HexOddDigits` over the whole source `0..3`, so the second range
starts before the first one ends: successive callback ranges are not
non-overlapping. -/
theorem C2_counterexample :
    validUtf8 [48, 120, 49] = true
    ∧ seqFrom ([48, 120, 49] : List Nat).length 0
        (unescapeLiteral [48, 120, 49] Mode.HexStr) = false := by
  decide

/-- C2, amended: for every valid UTF-8 source and every mode, each callback
range of `unescape_literal` lies within the bounds of the source and
successive ranges are monotonically non-decreasing and non-overlapping —
except in the one `HexStr` case where a `0x`/`0X` prefix is reported and the
remaining hex-digit count is odd (then `HexOddDigits` covers the whole
source, overlapping the `HexPrefix` range). -/
theorem C2_callback_ranges (src : List Nat) (mode : Mode)
    (hv : validUtf8 src = true)
    (hx : ¬(mode = Mode.HexStr
      ∧ (src.take 2 == [48, 120] || src.take 2 == [48, 88]) = true
      ∧ (charHexCount (src.length + 1) (src.drop 2) % 2 != 0) = true)) :
    seqFrom src.length 0 (unescapeLiteral src mode) = true := by
  have hv0 : validUtf8Aux 0 (src.drop 0) = true := by
    rw [List.drop_zero]
    exact hv
  rw [unescapeLiteral]
  by_cases hneed : needsUnescape src mode = true
  · rw [if_pos hneed]
    cases mode with
    | Str =>
      rw [unescapeLiteralUnchecked, unescapeStr]
      exact (unescapeStrAux_spec src false (src.length + 1) 0 (by omega) hv0).1
    | UnicodeStr =>
      rw [unescapeLiteralUnchecked, unescapeStr]
      exact (unescapeStrAux_spec src true (src.length + 1) 0 (by omega) hv0).1
    | HexStr =>
      rw [unescapeLiteralUnchecked]
      exact unescapeHexStr_seqFrom src hv (fun hc => hx ⟨rfl, hc.1, hc.2⟩)
  · rw [if_neg hneed]
    exact charIndicesEventsAux_spec src (src.length + 1) 0 (by omega) hv0

theorem C2_callback_ranges_witness :
    validUtf8 [48, 120, 49, 50] = true
    ∧ ¬(Mode.HexStr = Mode.HexStr
      ∧ (([48, 120, 49, 50] : List Nat).take 2 == [48, 120]
          || ([48, 120, 49, 50] : List Nat).take 2 == [48, 88]) = true
      ∧ (charHexCount (([48, 120, 49, 50] : List Nat).length + 1)
          (([48, 120, 49, 50] : List Nat).drop 2) % 2 != 0) = true)
    ∧ seqFrom ([48, 120, 49, 50] : List Nat).length 0
        (unescapeLiteral [48, 120, 49, 50] Mode.HexStr) = true :=
  ⟨by decide, by decide,
    C2_callback_ranges [48, 120, 49, 50] Mode.HexStr (by decide) (by decide)⟩

end Solar
